import Mathlib

/-!
# HDCU reference library (hdc_libs): shallow embedding and verified properties

The C++ reference implementation of the hyperdimensional-computing operations
(`hdc_class.cpp`, `hv_struct.cpp`) is embedded as pure Lean functions.

Conventions of the embedding
* A C `int` / `uint32_t` word is represented by its 32-bit two's complement
  pattern, a value of `Word32 = Fin 2^32`.  The signed reading of a pattern is
  `Word32.toInt`.
* Arrays of fixed length become functions on `Fin`; loops become folds over the
  list of loop indices, with the loop-carried variables as the fold state.
* Bitwise operators on signed words (`>>` followed by a mask, `|`, `^`) act on
  the pattern; a shift whose result is stored in a word is reduced `% 2^32`.
* The configuration macros of `hdc_defines.hpp` are `HV_SIZE_BIT = 512`,
  `HV_CHUNKS = HV_SIZE_BIT / 32` (16), `HD_LV_LEN = 5`, `HD_CV_LEN = 5`,
  `DS_FEATURE_SIZE = 4`, `COUNTER_BITS = 4`, `N_GRAM_SIZE = 3`.
* Console output and cycle counting have no effect on the computed values and
  are left out.
-/

namespace HDCU

/-! ## Configuration (hdc_defines.hpp) -/

/-- Number of bits of a hypervector. -/
abbrev HV_SIZE_BIT : Nat := 512
/-- Number of 32-bit words of a hypervector: the macro expands to `HV_SIZE_BIT / 32`. -/
abbrev HV_CHUNKS : Nat := HV_SIZE_BIT / 32
/-- Number of level vectors. -/
abbrev HD_LV_LEN : Nat := 5
/-- Number of class vectors. -/
abbrev HD_CV_LEN : Nat := 5
/-- Number of features of a sample. -/
abbrev DS_FEATURE_SIZE : Nat := 4
/-- Width of one bundling counter. -/
abbrev COUNTER_BITS : Nat := 4
/-- Length of an n-gram. -/
abbrev N_GRAM_SIZE : Nat := 3

/-! ## Machine words -/

/-- A 32-bit word, given by its bit pattern. -/
abbrev Word32 := Fin 4294967296

/-- Truncation of a natural number to 32 bits. -/
def w32 (n : Nat) : Word32 := ⟨n % 4294967296, Nat.mod_lt _ (by decide)⟩

/-- The value of a pattern read as a signed C `int`. -/
def Word32.toInt (w : Word32) : Int :=
  if w.val < 2147483648 then (w.val : Int) else (w.val : Int) - 4294967296

/-- Conversion `int -> long long`: the 64-bit pattern of the sign-extended word. -/
def sext64 (w : Word32) : Nat :=
  if w.val < 2147483648 then w.val else w.val + 18446744069414584320

/-- Conversion `uint32_t -> uint64_t`: the 64-bit pattern of the zero-extended word. -/
def zext64 (w : Word32) : Nat := w.val

/-- The loop `for (count = 0; x; count++) x &= x - 1;` on a 64-bit `x`
(subtraction wraps modulo `2^64`).  One unit of fuel per iteration; the loop on
a 64-bit value needs at most 64 of them (`popLoop_fuel`). -/
def popLoop : Nat → Nat → Nat → Nat
  | 0, _, count => count
  | fuel + 1, x, count =>
    if x = 0 then count
    else popLoop fuel (x &&& ((x + 18446744073709551615) % 18446744073709551616)) (count + 1)

/-- The bit-counting loop with the fuel that suffices for every 64-bit value. -/
def countLoop (x : Nat) : Nat := popLoop 64 x 0

/-! ## Hypervectors (hv_struct.hpp / hv_struct.cpp) -/

/-- Embedding of `struct HV`: the array `int chunk[HV_CHUNKS]` with `HV_CHUNKS = 16`. -/
@[ext] structure HV where
  chunk : Fin 16 → Word32

/-- Embedding of `struct BundledHV`: the array
`int bundled_chunk[HV_CHUNKS * COUNTER_BITS]`, 64 words of
eight 4-bit counters. -/
@[ext] structure BundledHV where
  bundled_chunk : Fin 64 → Word32

/-- Constructor `HV::HV()`: all chunks zero. -/
def HV.zero : HV := ⟨fun _ => 0⟩

/-- Constructor `BundledHV::BundledHV()`: all chunks zero. -/
def BundledHV.zero : BundledHV := ⟨fun _ => 0⟩

/-- Read `chunk[i]` for an integer index (indices outside the array are never read by
the embedded code; they read as 0 here). -/
def HV.get (h : HV) (i : Nat) : Word32 := if hi : i < 16 then h.chunk ⟨i, hi⟩ else 0

/-- Write `chunk[i] = w`. -/
def HV.set (h : HV) (i : Nat) (w : Word32) : HV :=
  ⟨fun k => if k.val = i then w else h.chunk k⟩

/-- Read `bundled_chunk[i]` for an integer index. -/
def BundledHV.get (h : BundledHV) (i : Nat) : Word32 :=
  if hi : i < 64 then h.bundled_chunk ⟨i, hi⟩ else 0

/-- Write `bundled_chunk[i] = w`. -/
def BundledHV.set (h : BundledHV) (i : Nat) (w : Word32) : BundledHV :=
  ⟨fun k => if k.val = i then w else h.bundled_chunk k⟩

/-! ## The HDC_op class (hdc_class.hpp / hdc_class.cpp) -/

/-- The data members of `HDC_op` that the constructor sets. -/
structure HDC_op where
  HV_SIZE : Nat
  num_levels : Nat
  num_features : Nat

/-- Constructor `HDC_op::HDC_op(int dimensionality, int features, int levels)`. -/
def HDC_op.new (dimensionality features levels : Nat) : HDC_op :=
  ⟨dimensionality, levels, features⟩

/-- Embedding of `HDC_op::similarity`: three loops over the first `HV_SIZE / 32` words.  The second
loop converts each `int` word of the XOR to `long long` before counting its bits. -/
def similarity (hdc : HDC_op) (HV1 HV2 : HV) : Int :=
  let n := hdc.HV_SIZE / 32
  let xor_HV := (List.range n).foldl
    (fun (x : HV) i => x.set i (w32 ((HV1.get i).val ^^^ (HV2.get i).val))) HV.zero
  let xor_HV := (List.range n).foldl
    (fun (x : HV) i => x.set i (w32 (countLoop (sext64 (x.get i))))) xor_HV
  (List.range n).foldl (fun (d : Int) i => d + (xor_HV.get i).toInt) 0

/-- Embedding of `HDC_op::bind`: word-wise XOR over `HV_CHUNKS` words. -/
def bind (HV1 HV2 : HV) : HV :=
  (List.range HV_CHUNKS).foldl
    (fun (x : HV) i => x.set i (w32 ((HV1.get i).val ^^^ (HV2.get i).val))) HV.zero

/-- Shift counts: C++ leaves a 32-bit shift by a count outside `0..31` undefined; the
RV32 target of the library shifts by the low five bits of the count, and that is what
the embedding does.  For counts in `0..31` this is the ordinary shift. -/
def shr32 (w : Word32) (s : Int) : Word32 := w32 (w.val >>> (s % 32).toNat)

/-- Left shift of a `uint32_t`, truncated to 32 bits (count as in `shr32`). -/
def shl32 (w : Word32) (s : Int) : Word32 := w32 (w.val <<< (s % 32).toNat)

/-- Loop state of `HDC_op::permutation`. -/
structure PermState where
  hv : HV
  overflow_bits : Word32

/-- One iteration of the shifting loop of `HDC_op::permutation`. -/
def permStep (temp : HV) (effective_shift : Int) (s : PermState) (i : Nat) : PermState :=
  let new_overflow_bits := shl32 (temp.get i) (32 - effective_shift)
  ⟨s.hv.set i (w32 ((shr32 (temp.get i) effective_shift).val ||| s.overflow_bits.val)),
   new_overflow_bits⟩

/-- Embedding of `HDC_op::permutation`.  `%` is the truncating C remainder. -/
def permutation (hv : HV) (shift : Int) : HV :=
  let effective_shift := Int.tmod shift (HV_CHUNKS * 32)
  if effective_shift = 0 then hv
  else
    let temp := (List.range HV_CHUNKS).foldl (fun (t : HV) i => t.set i (hv.get i)) HV.zero
    let s := (List.range HV_CHUNKS).foldl (permStep temp effective_shift) ⟨hv, 0⟩
    s.hv.set 0 (w32 ((s.hv.get 0).val ||| s.overflow_bits.val))

/-- The values taken by `bit` in `for (int bit = 28; bit >= 0; bit -= COUNTER_BITS)`. -/
def laneBits : List Nat := [28, 24, 20, 16, 12, 8, 4, 0]

/-- Body of the inner loop of `HDC_op::bundle`: one counter of the word `a` is increased
by one bit of the byte `b`, wrapped at 16, and placed into `temp`. -/
def bundleLane (a : Word32) (b : Nat) (temp : Word32) (bit : Nat) : Word32 :=
  let bits_of_A := (a.val >>> bit) &&& 0xF
  let bit_of_B := (b >>> (bit / COUNTER_BITS)) &&& 1
  let result_bits := bits_of_A + bit_of_B
  let result_bits := if result_bits > 15 then result_bits - 16 else result_bits
  w32 (temp.val ||| (result_bits <<< bit))

/-- Loop state of `HDC_op::bundle`: the chunk index `j` into the HV and the result. -/
structure BundleState where
  j : Nat
  Bundled_HV : BundledHV

/-- Body of the outer loop of `HDC_op::bundle` for the word index `i`. -/
def bundleStep (HV1 : BundledHV) (HV2 : HV) (s : BundleState) (i : Nat) : BundleState :=
  let shift_amount := 32 - 8 - 8 * (i % 4)
  let b := ((HV2.get s.j).val >>> shift_amount) &&& 0xFF
  let j := if i % 4 = 0 ∧ i ≠ 0 then s.j - 1 else s.j
  let temp := laneBits.foldl (bundleLane (HV1.get i) b) 0
  ⟨j, s.Bundled_HV.set i temp⟩

/-- Embedding of `HDC_op::bundle`: `i` runs from `HV_CHUNKS * 4 - 1 = 63` down to 0, `j` starts at
`HV_CHUNKS - 1 = 15`. -/
def bundle (HV1 : BundledHV) (HV2 : HV) : BundledHV :=
  ((List.range (HV_CHUNKS * 4)).reverse.foldl (bundleStep HV1 HV2)
    ⟨HV_CHUNKS - 1, BundledHV.zero⟩).Bundled_HV

/-- Loop state of `HDC_op::clip`: output chunk index `k`, output bit index `j`, result. -/
structure ClipState where
  k : Nat
  j : Int
  D_SW : HV

/-- Body of the inner loop of `HDC_op::clip`. -/
def clipLane (c : Word32) (MAJORITY_THRESHOLD : Int) (s : ClipState) (bit : Nat) : ClipState :=
  let bits_of_C := (c.val >>> bit) &&& 0xF
  let D := if (bits_of_C : Int) > MAJORITY_THRESHOLD
    then s.D_SW.set s.k (w32 ((s.D_SW.get s.k).val ||| (1 <<< s.j.toNat)))
    else s.D_SW
  ⟨s.k, s.j - 1, D⟩

/-- Body of the outer loop of `HDC_op::clip` for the word index `i`. -/
def clipStep (bundled_hv : BundledHV) (MAJORITY_THRESHOLD : Int) (s : ClipState) (i : Nat) :
    ClipState :=
  let s1 : ClipState := if i % 4 = 0 ∧ i ≠ 0 then ⟨s.k + 1, 31, s.D_SW⟩ else s
  laneBits.foldl (clipLane (bundled_hv.get i) MAJORITY_THRESHOLD) s1

/-- Embedding of `HDC_op::clip`.  The threshold is `HV_BUNDLED / 2` with the truncating division of C. -/
def clip (bundled_hv : BundledHV) (HV_BUNDLED : Int) : HV :=
  let MAJORITY_THRESHOLD := Int.tdiv HV_BUNDLED 2
  ((List.range (HV_CHUNKS * 4)).foldl (clipStep bundled_hv MAJORITY_THRESHOLD)
    ⟨0, 31, HV.zero⟩).D_SW

/-- Loop state of `HDC_op::Search`. -/
structure SearchState where
  xor_HV : HV
  hammingDistance : Int
  bestDistance : Int
  bestIndex : Int

/-- Body of the loop over the associative memory in `HDC_op::Search`. -/
def searchStep (hdc : HDC_op) (QueryHV : HV) (associativeMemory : Fin 5 → HV)
    (s : SearchState) (j : Fin 5) : SearchState :=
  let n := hdc.HV_SIZE / 32
  let x := (List.range n).foldl
    (fun (x : HV) i =>
      x.set i (w32 (((associativeMemory j).get i).val ^^^ (QueryHV.get i).val))) s.xor_HV
  let x := (List.range n).foldl
    (fun (x : HV) i => x.set i (w32 (countLoop (sext64 (x.get i))))) x
  let hammingDistance := (List.range n).foldl
    (fun (d : Int) i => d + (x.get i).toInt) s.hammingDistance
  if hammingDistance < s.bestDistance then ⟨x, 0, hammingDistance, (j.val : Int)⟩
  else ⟨x, 0, s.bestDistance, s.bestIndex⟩

/-- Embedding of `HDC_op::Search` over an associative memory of `HD_CV_LEN = 5` vectors. -/
def Search (hdc : HDC_op) (QueryHV : HV) (associativeMemory : Fin 5 → HV) : Int :=
  ((List.finRange HD_CV_LEN).foldl (searchStep hdc QueryHV associativeMemory)
    ⟨HV.zero, 0, 10000, 0⟩).bestIndex

/-- The binding loop shared textually by `encoding`, `training` and `inference`:
`binded_feature[i] = bind(LevelVectors[quantized_features[i]], BaseVectors[i])`. -/
def bindFeatures (quantized_features : Fin 4 → Fin 5) (BaseVectors : Fin 4 → HV)
    (LevelVectors : Fin 5 → HV) : Fin 4 → HV :=
  (List.finRange DS_FEATURE_SIZE).foldl
    (fun bf i => Function.update bf i (bind (LevelVectors (quantized_features i)) (BaseVectors i)))
    (fun _ => HV.zero)

/-- The bundling loop `Encoded_HV = bundle(Encoded_HV, binded_feature[i])`. -/
def bundleFeatures (binded_feature : Fin 4 → HV) : BundledHV :=
  (List.finRange DS_FEATURE_SIZE).foldl (fun E i => bundle E (binded_feature i)) BundledHV.zero

/-- Embedding of `HDC_op::encoding`: bind, bundle into a zero accumulator, clip with
`DS_FEATURE_SIZE`. -/
def encoding (quantized_features : Fin 4 → Fin 5) (BaseVectors : Fin 4 → HV)
    (LevelVectors : Fin 5 → HV) : HV :=
  let binded_feature := bindFeatures quantized_features BaseVectors LevelVectors
  let Encoded_HV := bundleFeatures binded_feature
  clip Encoded_HV DS_FEATURE_SIZE

/-- Embedding of `HDC_op::training`: the body repeats the steps of `encoding`, then bundles the
clipped vector into `ClassVectors[class_label]`.  The result is the updated array
together with the returned accumulator. -/
def training (quantized_features : Fin 4 → Fin 5) (BaseVectors : Fin 4 → HV)
    (LevelVectors : Fin 5 → HV) (ClassVectors : Fin 5 → BundledHV) (class_label : Fin 5) :
    (Fin 5 → BundledHV) × BundledHV :=
  let binded_feature := bindFeatures quantized_features BaseVectors LevelVectors
  let Encoded_HV := bundleFeatures binded_feature
  let Clipped_HV := clip Encoded_HV DS_FEATURE_SIZE
  let ClassVectors1 :=
    Function.update ClassVectors class_label (bundle (ClassVectors class_label) Clipped_HV)
  (ClassVectors1, ClassVectors1 class_label)

/-- Loop state of `HDC_op::inference`. -/
structure InferState where
  minimum_distance : Int
  predicted_class : Int

/-- Body of the class loop of `HDC_op::inference`. -/
def inferStep (hdc : HDC_op) (Clipped_HV : HV) (ClassVectors : Fin 5 → HV)
    (s : InferState) (i : Fin 5) : InferState :=
  let hamming_distance := similarity hdc Clipped_HV (ClassVectors i)
  if hamming_distance < s.minimum_distance then ⟨hamming_distance, (i.val : Int)⟩ else s

/-- Embedding of `HDC_op::inference`: the body repeats the steps of `encoding`, then scans the class
vectors starting from `minimum_distance = HV_SIZE_BIT`, `predicted_class = -1`. -/
def inference (hdc : HDC_op) (quantized_features : Fin 4 → Fin 5) (BaseVectors : Fin 4 → HV)
    (LevelVectors : Fin 5 → HV) (ClassVectors : Fin 5 → HV) : Int :=
  let binded_feature := bindFeatures quantized_features BaseVectors LevelVectors
  let Encoded_HV := bundleFeatures binded_feature
  let Clipped_HV := clip Encoded_HV DS_FEATURE_SIZE
  ((List.finRange HD_CV_LEN).foldl (inferStep hdc Clipped_HV ClassVectors)
    ⟨HV_SIZE_BIT, -1⟩).predicted_class

/-! ## Test reference (HV_similarity/HVSimilarity.cpp) -/

/-- Embedding of `calculateSoftwareSimilarity` on `size` words: each `uint32_t` XOR word is converted
to `uint64_t` before its bits are counted. -/
def calculateSoftwareSimilarity (vectorA vectorB : HV) (size : Nat) : Int :=
  (List.range size).foldl
    (fun (similarity : Int) i =>
      let result_i := w32 ((vectorA.get i).val ^^^ (vectorB.get i).val)
      let count := countLoop (zext64 result_i)
      similarity + (count : Int)) 0

/-! ## Bit and lane numbering -/

/-- Bit `p` of a hypervector, numbering the 512 bits from the most significant bit of
`chunk[0]`: bit `31 - p % 32` of `chunk[p / 32]` (the order in which `HV::print` prints). -/
def HV.bit (h : HV) (p : Nat) : Bool := (h.get (p / 32)).val.testBit (31 - p % 32)

/-- Lane `p` of a bundled hypervector: the 4-bit field at bits `28 - 4 * (p % 8)` to
`31 - 4 * (p % 8)` of `bundled_chunk[p / 8]`. -/
def BundledHV.lane (c : BundledHV) (p : Nat) : Nat :=
  ((c.get (p / 8)).val >>> (28 - 4 * (p % 8))) &&& 0xF

/-- Number of bit positions below 512 at which two hypervectors differ. -/
def hammingDistance (a b : HV) : Nat :=
  ((List.range 512).filter (fun p => a.bit p != b.bit p)).length

/-! ## Closed forms used in the proofs -/

/-- The word that `bundle` stores at index `i`, with the loop variable `j` resolved to
`i / 4`. -/
def bundleWord (HV1 : BundledHV) (HV2 : HV) (i : Nat) : Word32 :=
  laneBits.foldl
    (bundleLane (HV1.get i) (((HV2.get (i / 4)).val >>> (32 - 8 - 8 * (i % 4))) &&& 0xFF)) 0

/-- The counter value that `bundleLane` computes for the lane at `bit`. -/
def laneSum (a : Word32) (b : Nat) (bit : Nat) : Nat :=
  ((a.val >>> bit &&& 15) + (b >>> (bit / 4) &&& 1)) % 16

/-- The number that the bit-counting loop of `similarity` / `Search` produces for word
`i` of two hypervectors: the count for the sign-extended XOR word. -/
def wordCount (U V : HV) (i : Nat) : Nat :=
  countLoop (sext64 (w32 ((U.get i).val ^^^ (V.get i).val)))

/-- The running-minimum scan shared by `Search` and `inference`: starting from the
pair (best distance, best index), a candidate replaces the pair when its distance is
strictly smaller. -/
def scanMin (d : Fin 5 → Int) (l : List (Fin 5)) (st : Int × Int) : Int × Int :=
  l.foldl (fun st j => if d j < st.1 then (d j, (j.val : Int)) else st) st

/-! ## Concrete inputs used in the evaluations -/

/-- The configuration used throughout the test suite:
`HDC_op hdc(HV_SIZE_BIT, DS_FEATURE_SIZE, HD_LV_LEN)`. -/
def hdc512 : HDC_op := HDC_op.new HV_SIZE_BIT DS_FEATURE_SIZE HD_LV_LEN

/-- The hypervector whose only set bit is bit 31 of `chunk[0]` (the `int` value
`INT_MIN` in chunk 0). -/
def signBitHV : HV := ⟨fun i => if i.val = 0 then 2147483648 else 0⟩

/-- The hypervector with `chunk[0] = 3` and all other chunks zero. -/
def lowTwoHV : HV := ⟨fun i => if i.val = 0 then 3 else 0⟩

/-- The hypervector with `chunk[0] = 1` and all other chunks zero. -/
def lowOneHV : HV := ⟨fun i => if i.val = 0 then 1 else 0⟩

/-- The hypervector with every chunk equal to `0xFFFFFFFF`. -/
def onesHV : HV := ⟨fun _ => 4294967295⟩

/-- An associative memory holding `signBitHV` at index 0 and `lowTwoHV` elsewhere. -/
def signBitMemory : Fin 5 → HV := fun j => if j.val = 0 then signBitHV else lowTwoHV

/-! ## Quantizer (hdc_class.cpp)

The C functions work on `float` thresholds (with `double` intermediates).  The embedding
uses exact rational arithmetic: thresholds and values are rationals, and a threshold
array is a function from indices to rationals. -/

/-- Embedding of `generate_quantization_levels`: `gap = (max - min) / levels`, the loop
writes `LevelList[level] = min + level * gap` for `level < levels - 1`, and the last
entry is `max`.  The result is the array after the call, `LevelList` the array before.
(The C code needs `levels >= 1`; for `levels = 0` it would write `LevelList[-1]`, which
is outside the embedding.) -/
def generate_quantization_levels (min max : ℚ) (levels : Nat) (LevelList : Nat → ℚ) :
    Nat → ℚ :=
  let length := max - min
  let gap := length / (levels : ℚ)
  let LevelList := (List.range (levels - 1)).foldl
    (fun (LL : Nat → ℚ) level => Function.update LL level (min + (level : ℚ) * gap)) LevelList
  Function.update LevelList (levels - 1) max

/-- The loop of `get_quantized_level` over the remaining indices: `some r` when the loop
returns `r`, `none` when it runs to its end. -/
def quantScan (value : ℚ) (quantization_levels : Nat → ℚ) : List Nat → Option Int
  | [] => none
  | i :: rest =>
    if value ≤ quantization_levels 0 then some 0
    else if value ≤ quantization_levels i then some ((i : Int) - 1)
    else quantScan value quantization_levels rest

/-- Embedding of `get_quantized_level`: the loop over `i = 0 .. levels - 1` with its two
early returns, and `levels - 1` after the loop. -/
def get_quantized_level (value : ℚ) (quantization_levels : Nat → ℚ) (levels : Nat) : Int :=
  match quantScan value quantization_levels (List.range levels) with
  | some r => r
  | none => (levels : Int) - 1

/-! ## Level vectors (hdc_class.cpp, hv_struct.cpp)

The C library function `rand()` is embedded as a list of its successive outputs: every
call takes the head of the list.  A function that needs an output when the list is empty
yields `none`; a loop that terminates on a sequence of outputs terminates on every list
that holds enough of them. -/

/-- Read `LevelVectors[l]` for an integer index (out of the array reads as the zero
vector; the embedded code never does so for `num_levels <= HD_LV_LEN`). -/
def lvGet (LevelVectors : Fin 5 → HV) (l : Nat) : HV :=
  if h : l < 5 then LevelVectors ⟨l, h⟩ else HV.zero

/-- Write `LevelVectors[l] = v`. -/
def lvSet (LevelVectors : Fin 5 → HV) (l : Nat) (v : HV) : Fin 5 → HV :=
  fun k => if k.val = l then v else LevelVectors k

/-- The loop of `HV::randomize` over the remaining chunk indices:
`chunk[i] = rand()`. -/
def randomizeLoop : List Nat → HV → List Nat → Option (HV × List Nat)
  | [], h, rands => some (h, rands)
  | i :: is, h, rands =>
    match rands with
    | [] => none
    | r :: rands => randomizeLoop is (h.set i (w32 r)) rands

/-- Embedding of `HV::randomize`: the new vector and the unused outputs of `rand()`. -/
def HV.randomize (h : HV) (rands : List Nat) : Option (HV × List Nat) :=
  randomizeLoop (List.range HV_CHUNKS) h rands

/-- State of `HDC_op::generate_LevelVectors`: the array being filled and the array
`indexVector` (1 = position not flipped yet, 0 = flipped). -/
structure LevelGenState where
  LevelVectors : Fin 5 → HV
  indexVector : Nat → Int

/-- The body of `if (indexVector[index] == 1)` in `generate_LevelVectors`: the position is
marked as used and bit `index % 32` of `LevelVectors[level].chunk[index / 32]` is cleared
when that bit of `LevelVectors[level - 1]` is set, and set otherwise. -/
def flipAt (level : Nat) (st : LevelGenState) (index : Nat) : LevelGenState :=
  let indexVector := Function.update st.indexVector index 0
  let prev := lvGet st.LevelVectors (level - 1)
  let cur := lvGet st.LevelVectors level
  let cur :=
    if ((prev.get (index / 32)).val &&& (1 <<< (index % 32))) ≠ 0 then
      cur.set (index / 32)
        (w32 ((cur.get (index / 32)).val &&& ((1 <<< (index % 32)) ^^^ 4294967295)))
    else
      cur.set (index / 32) (w32 ((cur.get (index / 32)).val ||| (1 <<< (index % 32))))
  ⟨lvSet st.LevelVectors level cur, indexVector⟩

/-- The loop `while (i < change_ratio)` of `generate_LevelVectors` for one level, as a
recursion over the outputs of `rand()`: an output whose position `rand() % HV_SIZE_BIT`
is still unused flips that position and counts; a used position is skipped. -/
def flipWhile (level change_ratio : Nat) :
    List Nat → Nat → LevelGenState → Option (LevelGenState × List Nat)
  | [], i, st => if i < change_ratio then none else some (st, [])
  | r :: rands, i, st =>
    if i < change_ratio then
      let index := r % HV_SIZE_BIT
      if st.indexVector index = 1 then
        flipWhile level change_ratio rands (i + 1) (flipAt level st index)
      else flipWhile level change_ratio rands i st
    else some (st, r :: rands)

/-- The loop `for (level = 1; level < num_levels; level++)` of `generate_LevelVectors`
over the remaining levels: copy the previous level vector, then flip `change_ratio`
unused positions. -/
def levelLoop (change_ratio : Nat) :
    List Nat → LevelGenState → List Nat → Option (LevelGenState × List Nat)
  | [], st, rands => some (st, rands)
  | level :: levels, st, rands =>
    let st1 : LevelGenState :=
      ⟨lvSet st.LevelVectors level (lvGet st.LevelVectors (level - 1)), st.indexVector⟩
    match flipWhile level change_ratio rands 0 st1 with
    | none => none
    | some (st2, rands2) => levelLoop change_ratio levels st2 rands2

/-- Embedding of `HDC_op::generate_LevelVectors`: `indexVector` starts all 1,
`LevelVectors[0]` is randomized, `change_ratio = HV_SIZE_BIT / (2 * num_levels)`, and the
levels `1 .. num_levels - 1` are derived in turn.  The result is the array after the
call. -/
def generate_LevelVectors (hdc : HDC_op) (LevelVectors : Fin 5 → HV) (rands : List Nat) :
    Option (Fin 5 → HV) :=
  match (LevelVectors 0).randomize rands with
  | none => none
  | some (h0, rands1) =>
    let change_ratio := HV_SIZE_BIT / (2 * hdc.num_levels)
    match levelLoop change_ratio (List.range' 1 (hdc.num_levels - 1))
        ⟨lvSet LevelVectors 0 h0, fun _ => 1⟩ rands1 with
    | none => none
    | some (st, _) => some st.LevelVectors

/-- Bit `idx` of a hypervector in the numbering used by `generate_LevelVectors`: bit
`idx % 32` of `chunk[idx / 32]`. -/
def HV.bitL (h : HV) (idx : Nat) : Bool := (h.get (idx / 32)).val.testBit (idx % 32)

/-- A list of `rand()` outputs on which `generate_LevelVectors` terminates for five
levels: 16 outputs for `LevelVectors[0]`, then the positions `0, 1, 2, ...`. -/
def sampleRands : List Nat := (List.range 16).map (fun i => 1000 * i + 7) ++ List.range 204

/-- Invariant of `generate_LevelVectors` while level `level` is being derived and `i`
positions of it have been flipped.  `F idx` is the level at which position `idx` was
flipped (0 = not flipped); `h0` is the randomized `LevelVectors[0]`; `cr` is
`change_ratio`. -/
def LevelInv (cr level : Nat) (h0 : HV) (st : LevelGenState) (F : Nat → Nat) (i : Nat) : Prop :=
  (∀ idx, idx < 512 → st.indexVector idx = if F idx = 0 then 1 else 0) ∧
  (∀ idx, F idx ≤ level) ∧
  (∀ l, l ≤ level → ∀ idx, idx < 512 →
    (lvGet st.LevelVectors l).bitL idx = (h0.bitL idx != decide (0 < F idx ∧ F idx ≤ l))) ∧
  (∀ l, 1 ≤ l → l < level → ((Finset.range 512).filter (fun idx => F idx = l)).card = cr) ∧
  (1 ≤ level → ((Finset.range 512).filter (fun idx => F idx = level)).card = i)

/-! ## Assignment of a hypervector to a bundled hypervector (hv_struct.cpp) -/

/-- Loop state of `BundledHV::operator=(const HV&)`: the word index and bit position of
the lane that is written next, and the array `bundled_chunk` of the assigned object. -/
structure AssignState where
  bundled_index : Nat
  bit_position : Int
  bundled_chunk : BundledHV

/-- Body of the inner loop of `BundledHV::operator=(const HV&)` for one bit of
`other.chunk[i]`: a set bit ORs `0x1 << bit_position` into the word, a clear bit clears
the four bits of the lane with `&= ~(0xF << bit_position)`; then the lane position
advances. -/
def assignBit (other_chunk : Word32) (s : AssignState) (bit : Nat) : AssignState :=
  let b :=
    if ((other_chunk.val >>> bit) &&& 1) ≠ 0 then
      s.bundled_chunk.set s.bundled_index
        (w32 ((s.bundled_chunk.get s.bundled_index).val ||| (0x1 <<< s.bit_position.toNat)))
    else
      s.bundled_chunk.set s.bundled_index
        (w32 ((s.bundled_chunk.get s.bundled_index).val &&&
          ((0xF <<< s.bit_position.toNat) ^^^ 4294967295)))
  let bit_position := s.bit_position - 4
  if bit_position < 0 then ⟨s.bundled_index + 1, 28, b⟩ else ⟨s.bundled_index, bit_position, b⟩

/-- The loop `for (int bit = 31; bit >= 0; --bit)` for the chunk index `i`. -/
def assignChunk (other : HV) (s : AssignState) (i : Nat) : AssignState :=
  (List.range 32).reverse.foldl (assignBit (other.get i)) s

/-- Embedding of `BundledHV::operator=(const HV& other)`: `b.assign other` is the object
`b` after `b = other`. -/
def BundledHV.assign (b : BundledHV) (other : HV) : BundledHV :=
  ((List.range HV_CHUNKS).foldl (assignChunk other) ⟨0, 28, b⟩).bundled_chunk

/-! ## Memory effect of training -/

/-- The four arrays that `HDC_op::training` receives by pointer. -/
structure TrainMemory where
  quantized_features : Fin 4 → Fin 5
  BaseVectors : Fin 4 → HV
  LevelVectors : Fin 5 → HV
  ClassVectors : Fin 5 → BundledHV

/-- The arrays after a call of `HDC_op::training`.  The only assignment to one of them in
the body is `ClassVectors[class_label] = bundle(...)`; `binded_feature`, `Encoded_HV` and
`Clipped_HV` are locals, and `bind`, `bundle` and `clip` receive their arguments by value
or by const reference. -/
def trainingMemory (m : TrainMemory) (class_label : Fin 5) : TrainMemory :=
  ⟨m.quantized_features, m.BaseVectors, m.LevelVectors,
    (training m.quantized_features m.BaseVectors m.LevelVectors m.ClassVectors class_label).1⟩

/-! ## Temporal encoding (hdc_class.cpp) -/

/-- Embedding of `HDC_op::temporal_encoding`.  In the source everything between the
declarations of the two locals and the `return` is inside a comment, so the body is:
default-construct `Encoded_HV` and `Clipped_HV`, return `Clipped_HV`.  The first argument is
the array `int quantized_features[DS_FEATURE_SIZE][N_GRAM_SIZE]`. -/
def temporal_encoding (_quantized_features : Fin DS_FEATURE_SIZE → Fin N_GRAM_SIZE → Int)
    (_BaseVectors : Fin 4 → HV) (_LevelVectors : Fin 5 → HV) : HV :=
  let _Encoded_HV : BundledHV := BundledHV.zero
  let Clipped_HV : HV := HV.zero
  Clipped_HV

/-! ## Test reference (HV_permutation/HVPermutation.cpp) -/

/-- Embedding of `right_rotate_array` on an array of `size <= 16` words held in an `HV`;
the result is the array after the call. -/
def right_rotate_array (array : HV) (size : Nat) (shift : Int) : HV :=
  if size = 0 then array
  else
    let effective_shift := Int.tmod shift (size * 32)
    if effective_shift = 0 then array
    else
      let bit_shift := effective_shift
      let temp := (List.range size).foldl (fun (t : HV) i => t.set i (array.get i)) HV.zero
      (List.range size).foldl
        (fun (a : HV) i =>
          let lower_bits := shr32 (temp.get i) bit_shift
          let upper_bits := shl32 (temp.get ((i + size - 1) % size)) (32 - bit_shift)
          a.set i (w32 (lower_bits.val ||| upper_bits.val))) array

/-! ## Notions used in the statements of the claims -/

/-- Bitwise complement of a hypervector, every bit of every chunk inverted (the
`complement` of the claims; the library has no such function). -/
def HV.complement (A : HV) : HV := ⟨fun i => w32 ((A.chunk i).val ^^^ 4294967295)⟩

/-- Number of set bits among the bits `0 .. n-1` of `x`. -/
def bitsBelow (n x : Nat) : Nat := ∑ k in Finset.range n, (x.testBit k).toNat

/-- Number of set bits of a hypervector (its population count). -/
def HV.popcount (h : HV) : Nat := ((List.range 512).filter (fun p => h.bit p)).length

/-- Number of chunk indices `i` in `0 .. 15` at which bit 31 of
`A.chunk[i] ^ B.chunk[i]` is set. -/
def signChunks (A B : HV) : Nat :=
  ((List.range 16).filter (fun i => ((A.get i).val ^^^ (B.get i).val).testBit 31)).length

/-- Bundling the same hypervector `n` times in succession into `C`. -/
def bundleTimes : Nat → BundledHV → HV → BundledHV
  | 0, C, _ => C
  | n + 1, C, h => bundle (bundleTimes n C h) h

/-- The bundled hypervector with every word equal to `0xFFFFFFFF` (every lane 15). -/
def fullBundledHV : BundledHV := ⟨fun _ => 4294967295⟩

/-- Invariant of `BundledHV::operator=(const HV&)` after `P` bits of `other` have been
processed, `b` being the object before the assignment: the lane position is that of lane
`P`, the lanes below `P` have been rewritten and the others are untouched. -/
def AssignInv (b : BundledHV) (other : HV) (P : Nat) (s : AssignState) : Prop :=
  s.bundled_index = P / 8 ∧ s.bit_position = 28 - 4 * ((P % 8 : Nat) : Int) ∧
  ∀ q, q < 512 → s.bundled_chunk.lane q
    = if q < P then (if other.bit q = true then b.lane q ||| 1 else 0) else b.lane q

/-! ## Theorems -/

theorem w32_val (n : Nat) : (w32 n).val = n % 4294967296 := rfl

theorem and_15 (x : Nat) : x &&& 15 = x % 16 := Nat.and_pow_two_sub_one_eq_mod x 4

theorem and_255 (x : Nat) : x &&& 255 = x % 256 := Nat.and_pow_two_sub_one_eq_mod x 8

theorem and_1 (x : Nat) : x &&& 1 = x % 2 := Nat.and_pow_two_sub_one_eq_mod x 1

theorem toNat_testBit (w i : Nat) : (w.testBit i).toNat = w / 2 ^ i % 2 := by
  rw [Nat.testBit_to_div_mod]
  rcases Nat.mod_two_eq_zero_or_one (w / 2 ^ i) with h | h <;> simp [h]

theorem BundledHV.bundled_get_set (h : BundledHV) (i j : Nat) (w : Word32) (hj : j < 64) :
    (h.set i w).get j = if j = i then w else h.get j := by
  simp [BundledHV.get, BundledHV.set, hj]

theorem HV.chunk_get_set (h : HV) (i j : Nat) (w : Word32) (hj : j < 16) :
    (h.set i w).get j = if j = i then w else h.get j := by
  simp [HV.get, HV.set, hj]

theorem bundle_fold (HV1 : BundledHV) (HV2 : HV) (n : Nat) (out : BundledHV) (k : Nat)
    (hk : k < 64) :
    (((List.range (n + 1)).reverse.foldl (bundleStep HV1 HV2) ⟨n / 4, out⟩).Bundled_HV).get k
      = if k ≤ n then bundleWord HV1 HV2 k else out.get k := by
  induction n generalizing out with
  | zero =>
    have hr : (List.range (0 + 1)).reverse = [0] := rfl
    rw [hr, List.foldl_cons, List.foldl_nil]
    simp only [bundleStep, BundledHV.bundled_get_set _ _ _ _ hk, bundleWord, Nat.le_zero]
    by_cases h0 : k = 0
    · subst h0; simp
    · simp [h0]
  | succ m ih =>
    rw [List.range_succ, List.reverse_append, List.reverse_singleton, List.singleton_append,
      List.foldl_cons]
    have hj : (if (m + 1) % 4 = 0 ∧ m + 1 ≠ 0 then (m + 1) / 4 - 1 else (m + 1) / 4) = m / 4 := by
      split <;> omega
    have hstep : bundleStep HV1 HV2 ⟨(m + 1) / 4, out⟩ (m + 1)
        = ⟨m / 4, out.set (m + 1) (bundleWord HV1 HV2 (m + 1))⟩ := by
      simp only [bundleStep, hj, bundleWord]
    rw [hstep, ih, BundledHV.bundled_get_set _ _ _ _ hk]
    by_cases h1 : k ≤ m
    · have : k ≠ m + 1 := by omega
      have : k ≤ m + 1 := by omega
      simp [*]
    · by_cases h2 : k = m + 1
      · simp [h2, h1]
      · have : ¬ k ≤ m + 1 := by omega
        simp [*]

theorem bundle_get (HV1 : BundledHV) (HV2 : HV) (k : Nat) (hk : k < 64) :
    (bundle HV1 HV2).get k = bundleWord HV1 HV2 k := by
  have h := bundle_fold HV1 HV2 63 BundledHV.zero k hk
  have hk2 : k ≤ 63 := by omega
  rw [if_pos hk2] at h
  exact h


theorem laneSum_lt (a : Word32) (b bit : Nat) : laneSum a b bit < 16 :=
  Nat.mod_lt _ (by decide)

theorem or_shiftLeft_eq_add (t r bit : Nat) (ht : t % 2 ^ (bit + 4) = 0) (hr : r < 16) :
    t ||| (r <<< bit) = t + r * 2 ^ bit := by
  have h1 : r * 2 ^ bit < 2 ^ (bit + 4) := by
    have hp : 0 < 2 ^ bit := Nat.two_pow_pos bit
    rw [pow_add]
    nlinarith
  have h2 := Nat.mul_add_lt_is_or h1 (t / 2 ^ (bit + 4))
  rw [Nat.mul_div_cancel' (Nat.dvd_of_mod_eq_zero ht)] at h2
  rw [Nat.shiftLeft_eq]
  exact h2.symm

theorem bundleLane_val (a : Word32) (b : Nat) (t : Word32) (bit : Nat) (hbit : bit ∈ laneBits)
    (ht : t.val % 2 ^ (bit + 4) = 0) :
    (bundleLane a b t bit).val = t.val + laneSum a b bit * 2 ^ bit := by
  have hx : a.val >>> bit &&& 15 < 16 := by rw [and_15]; exact Nat.mod_lt _ (by decide)
  have hy : b >>> (bit / 4) &&& 1 < 2 := by rw [and_1]; exact Nat.mod_lt _ (by decide)
  have hr : (if (a.val >>> bit &&& 15) + (b >>> (bit / 4) &&& 1) > 15
      then (a.val >>> bit &&& 15) + (b >>> (bit / 4) &&& 1) - 16
      else (a.val >>> bit &&& 15) + (b >>> (bit / 4) &&& 1)) = laneSum a b bit := by
    unfold laneSum
    split <;> omega
  have hl := laneSum_lt a b bit
  have hor := or_shiftLeft_eq_add t.val (laneSum a b bit) bit ht hl
  have htlt := t.isLt
  show (t.val ||| ((if (a.val >>> bit &&& 15) + (b >>> (bit / 4) &&& 1) > 15
      then (a.val >>> bit &&& 15) + (b >>> (bit / 4) &&& 1) - 16
      else (a.val >>> bit &&& 15) + (b >>> (bit / 4) &&& 1)) <<< bit)) % 4294967296 = _
  rw [hr, hor]
  apply Nat.mod_eq_of_lt
  simp only [laneBits, List.mem_cons, List.mem_singleton, List.not_mem_nil, or_false] at hbit
  rcases hbit with h | h | h | h | h | h | h | h <;> subst h <;> norm_num at ht ⊢ <;> omega

theorem bundleWord_val (a : Word32) (b : Nat) :
    (laneBits.foldl (bundleLane a b) 0).val
      = laneSum a b 28 * 2 ^ 28 + laneSum a b 24 * 2 ^ 24 + laneSum a b 20 * 2 ^ 20
        + laneSum a b 16 * 2 ^ 16 + laneSum a b 12 * 2 ^ 12 + laneSum a b 8 * 2 ^ 8
        + laneSum a b 4 * 2 ^ 4 + laneSum a b 0 * 2 ^ 0 := by
  simp only [laneBits, List.foldl]
  have h28 := bundleLane_val a b 0 28 (by simp [laneBits]) (by simp)
  have h24 := bundleLane_val a b _ 24 (by simp [laneBits]) (by rw [h28]; norm_num)
  have h20 := bundleLane_val a b _ 20 (by simp [laneBits]) (by rw [h24, h28]; norm_num; omega)
  have h16 := bundleLane_val a b _ 16 (by simp [laneBits]) (by rw [h20, h24, h28]; norm_num; omega)
  have h12 := bundleLane_val a b _ 12 (by simp [laneBits])
    (by rw [h16, h20, h24, h28]; norm_num; omega)
  have h8 := bundleLane_val a b _ 8 (by simp [laneBits])
    (by rw [h12, h16, h20, h24, h28]; norm_num; omega)
  have h4 := bundleLane_val a b _ 4 (by simp [laneBits])
    (by rw [h8, h12, h16, h20, h24, h28]; norm_num; omega)
  have h0 := bundleLane_val a b _ 0 (by simp [laneBits])
    (by rw [h4, h8, h12, h16, h20, h24, h28]; norm_num; omega)
  rw [h0, h4, h8, h12, h16, h20, h24, h28]
  simp

theorem bundleWord_lane (a : Word32) (b : Nat) (m : Nat) (hm : m < 8) :
    ((laneBits.foldl (bundleLane a b) 0).val >>> (28 - 4 * m)) &&& 15
      = laneSum a b (28 - 4 * m) := by
  rw [bundleWord_val, and_15, Nat.shiftRight_eq_div_pow]
  have l28 := laneSum_lt a b 28
  have l24 := laneSum_lt a b 24
  have l20 := laneSum_lt a b 20
  have l16 := laneSum_lt a b 16
  have l12 := laneSum_lt a b 12
  have l8 := laneSum_lt a b 8
  have l4 := laneSum_lt a b 4
  have l0 := laneSum_lt a b 0
  interval_cases m <;> norm_num <;> omega

theorem byte_bit (w q m : Nat) (hq : q < 4) (hm : m < 8) :
    ((w >>> (32 - 8 - 8 * q) &&& 255) >>> ((28 - 4 * m) / 4)) &&& 1
      = (w.testBit (31 - (8 * q + m))).toNat := by
  rw [toNat_testBit, and_1, and_255, Nat.shiftRight_eq_div_pow, Nat.shiftRight_eq_div_pow]
  interval_cases q <;> interval_cases m <;> norm_num <;> omega


/-- Lane form of `bundle`: every lane is increased by the corresponding bit, modulo 16. -/
theorem bundle_lane_aux (C : BundledHV) (h : HV) (p : Fin 512) :
    (bundle C h).lane p.val = (C.lane p.val + (h.bit p.val).toNat) % 16 := by
  obtain ⟨p, hp⟩ := p
  have hk : p / 8 < 64 := by omega
  have hm : p % 8 < 8 := by omega
  have hq : p / 8 % 4 < 4 := by omega
  have e1 : p / 8 / 4 = p / 32 := by omega
  have e2 : 8 * (p / 8 % 4) + p % 8 = p % 32 := by omega
  show (((bundle C h).get (p / 8)).val >>> (28 - 4 * (p % 8))) &&& 15 = _
  rw [bundle_get _ _ _ hk]
  unfold bundleWord
  rw [bundleWord_lane _ _ _ hm]
  unfold laneSum
  rw [byte_bit _ _ _ hq hm, e1, e2]
  rfl

/-- Claim C8: for every bundled vector `C`, hypervector `h` and position `p < 512`,
lane `p` of `bundle(C, h)` is `(lane p of C + bit p of h) mod 16`; a lane of the result
depends on no other lane, so no carry crosses into a neighbouring lane. -/
theorem bundle_lane (C : BundledHV) (h : HV) (p : Fin 512) :
    (bundle C h).lane p.val = (C.lane p.val + (h.bit p.val).toNat) % 16 :=
  bundle_lane_aux C h p

theorem laneBits_get (n bit : Nat) : laneBits[n]? = some bit ↔ n < 8 ∧ bit = 28 - 4 * n := by
  by_cases hn : n < 8
  · interval_cases n <;> simp [laneBits, eq_comm]
  · have : laneBits[n]? = none := List.getElem?_eq_none (by simp [laneBits]; omega)
    simp [this, hn]

theorem clipLane_k (c : Word32) (thr : Int) (s : ClipState) (bit : Nat) :
    (clipLane c thr s bit).k = s.k := rfl

theorem clipLane_j (c : Word32) (thr : Int) (s : ClipState) (bit : Nat) :
    (clipLane c thr s bit).j = s.j - 1 := rfl

theorem word_testBit_lt (w : Word32) (i : Nat) (h : w.val.testBit i = true) : i < 32 := by
  by_contra hi
  have h1 : w.val < 2 ^ i :=
    lt_of_lt_of_le w.isLt (by
      have : (4294967296 : Nat) = 2 ^ 32 := by norm_num
      rw [this]
      exact Nat.pow_le_pow_right (by decide) (by omega))
  rw [Nat.testBit_lt_two_pow h1] at h
  exact Bool.false_ne_true h

theorem w32_or_bit_testBit (x : Word32) (j i : Nat) :
    (w32 (x.val ||| (1 <<< j))).val.testBit i = true ↔
      x.val.testBit i = true ∨ (i < 32 ∧ i = j) := by
  have e : (w32 (x.val ||| (1 <<< j))).val = (x.val ||| 2 ^ j) % 2 ^ 32 := by
    rw [w32_val, Nat.one_shiftLeft]; norm_num
  rw [e, Nat.testBit_mod_two_pow, Nat.testBit_or, Nat.testBit_two_pow]
  constructor
  · intro h
    simp only [Bool.and_eq_true, Bool.or_eq_true, decide_eq_true_eq] at h
    rcases h with ⟨h1, h2 | h2⟩
    · exact Or.inl h2
    · exact Or.inr ⟨h1, h2.symm⟩
  · intro h
    simp only [Bool.and_eq_true, Bool.or_eq_true, decide_eq_true_eq]
    rcases h with h | ⟨h1, h2⟩
    · exact ⟨word_testBit_lt x i h, Or.inl h⟩
    · exact ⟨h1, Or.inr h2.symm⟩

theorem clipLane_testBit (c : Word32) (thr : Int) (s : ClipState) (bit idx i : Nat)
    (hidx : idx < 16) :
    ((clipLane c thr s bit).D_SW.get idx).val.testBit i = true ↔
      (s.D_SW.get idx).val.testBit i = true ∨
        (idx = s.k ∧ i < 32 ∧ i = s.j.toNat ∧ thr < ((c.val >>> bit &&& 0xF : Nat) : Int)) := by
  unfold clipLane
  by_cases hgt : ((c.val >>> bit &&& 0xF : Nat) : Int) > thr
  · simp only [hgt, if_true]
    rw [HV.chunk_get_set _ _ _ _ hidx]
    by_cases hk : idx = s.k
    · subst hk
      simp only [if_true]
      rw [w32_or_bit_testBit]
      have : thr < ((c.val >>> bit &&& 0xF : Nat) : Int) := hgt
      tauto
    · simp only [hk, if_false]
      tauto
  · simp only [hgt, if_false]
    have : ¬ thr < ((c.val >>> bit &&& 0xF : Nat) : Int) := hgt
    tauto

theorem clipLanes_fold (c : Word32) (thr : Int) (l : List Nat) (s : ClipState) (idx i : Nat)
    (hidx : idx < 16) :
    (l.foldl (clipLane c thr) s).k = s.k ∧
    (l.foldl (clipLane c thr) s).j = s.j - l.length ∧
    (((l.foldl (clipLane c thr) s).D_SW.get idx).val.testBit i = true ↔
      (s.D_SW.get idx).val.testBit i = true ∨
        (idx = s.k ∧ i < 32 ∧ ∃ n bit : Nat, l[n]? = some bit ∧ i = (s.j - (n : Int)).toNat ∧
          thr < ((c.val >>> bit &&& 0xF : Nat) : Int))) := by
  induction l generalizing s with
  | nil => simp
  | cons b l ih =>
    obtain ⟨hk, hj, hb⟩ := ih (clipLane c thr s b)
    rw [List.foldl_cons]
    refine ⟨by rw [hk, clipLane_k], ?_, ?_⟩
    · rw [hj, clipLane_j]; simp only [List.length_cons]; push_cast; omega
    · rw [hb, clipLane_testBit _ _ _ _ _ _ hidx, clipLane_k, clipLane_j]
      constructor
      · rintro ((h | ⟨h1, h2, h3, h4⟩) | ⟨h1, h2, n, bit, h3, h4, h5⟩)
        · exact Or.inl h
        · exact Or.inr ⟨h1, h2, 0, b, by simp, by simpa using h3, h4⟩
        · refine Or.inr ⟨h1, h2, n + 1, bit, by simpa using h3, ?_, h5⟩
          rw [h4]; congr 1; push_cast; omega
      · rintro (h | ⟨h1, h2, n, bit, h3, h4, h5⟩)
        · exact Or.inl (Or.inl h)
        · cases n with
          | zero =>
            simp only [List.getElem?_cons_zero, Option.some.injEq] at h3
            subst h3
            exact Or.inl (Or.inr ⟨h1, h2, by simpa using h4, h5⟩)
          | succ n =>
            simp only [List.getElem?_cons_succ] at h3
            refine Or.inr ⟨h1, h2, n, bit, h3, ?_, h5⟩
            rw [h4]; congr 1; push_cast; omega


theorem lane_of_word (C : BundledHV) (n m q : Nat) (hq : q = 8 * n + m) (hm : m < 8) :
    C.lane q = (C.get n).val >>> (28 - 4 * m) &&& 0xF := by
  have h1 : q / 8 = n := by omega
  have h2 : q % 8 = m := by omega
  unfold BundledHV.lane
  rw [h1, h2]

theorem clip_fold (C : BundledHV) (thr : Int) (n : Nat) :
    ((List.range n).foldl (clipStep C thr) ⟨0, 31, HV.zero⟩).k = (n - 1) / 4 ∧
    ((List.range n).foldl (clipStep C thr) ⟨0, 31, HV.zero⟩).j
      = (if n = 0 then 31 else 23 - 8 * (((n - 1) % 4 : Nat) : Int)) ∧
    ∀ idx i : Nat, idx < 16 → i < 32 →
      ((((List.range n).foldl (clipStep C thr) ⟨0, 31, HV.zero⟩).D_SW.get idx).val.testBit i = true
        ↔ 32 * idx + (31 - i) < 8 * n ∧ thr < ((C.lane (32 * idx + (31 - i)) : Nat) : Int)) := by
  induction n with
  | zero =>
    refine ⟨rfl, rfl, ?_⟩
    intro idx i hidx _
    simp [HV.get, HV.zero, hidx]
  | succ n ih =>
    obtain ⟨hk, hj, hb⟩ := ih
    rw [List.range_succ, List.foldl_append, List.foldl_cons, List.foldl_nil]
    generalize (List.range n).foldl (clipStep C thr) ⟨0, 31, HV.zero⟩ = s at hk hj hb
    have hs1 : ∃ s1 : ClipState, clipStep C thr s n = laneBits.foldl (clipLane (C.get n) thr) s1 ∧
        s1.k = n / 4 ∧ s1.j = 31 - 8 * ((n % 4 : Nat) : Int) ∧ s1.D_SW = s.D_SW := by
      by_cases hc : n % 4 = 0 ∧ n ≠ 0
      · refine ⟨⟨s.k + 1, 31, s.D_SW⟩, by unfold clipStep; rw [if_pos hc], ?_, ?_, rfl⟩
        · show s.k + 1 = n / 4
          omega
        · show (31 : Int) = 31 - 8 * ((n % 4 : Nat) : Int)
          omega
      · refine ⟨s, by unfold clipStep; rw [if_neg hc], ?_, ?_, rfl⟩
        · omega
        · rw [hj]; split <;> omega
    obtain ⟨s1, e, hk1, hj1, hD1⟩ := hs1
    rw [e]
    refine ⟨?_, ?_, ?_⟩
    · rw [(clipLanes_fold (C.get n) thr laneBits s1 0 0 (by decide)).1, hk1]
      simp
    · rw [(clipLanes_fold (C.get n) thr laneBits s1 0 0 (by decide)).2.1, hj1]
      simp [laneBits]
      omega
    · intro idx i hidx hi
      rw [(clipLanes_fold (C.get n) thr laneBits s1 idx i hidx).2.2, hD1, hb idx i hidx hi, hk1, hj1]
      constructor
      · rintro (⟨h1, h2⟩ | ⟨h1, _, m, bit, h3, h4, h5⟩)
        · exact ⟨by omega, h2⟩
        · rw [laneBits_get] at h3
          obtain ⟨hm, hbit⟩ := h3
          subst hbit
          have hq : 32 * idx + (31 - i) = 8 * n + m := by omega
          rw [lane_of_word C n m _ hq hm]
          exact ⟨by omega, h5⟩
      · rintro ⟨h1, h2⟩
        by_cases hlt : 32 * idx + (31 - i) < 8 * n
        · exact Or.inl ⟨hlt, h2⟩
        · refine Or.inr ⟨by omega, hi, (32 * idx + (31 - i)) % 8, 28 - 4 * ((32 * idx + (31 - i)) % 8),
            (laneBits_get _ _).2 ⟨by omega, rfl⟩, by omega, ?_⟩
          rw [← lane_of_word C n _ (32 * idx + (31 - i)) (by omega) (by omega)]
          exact h2

theorem tdiv_two_natCast (n : Nat) : Int.tdiv (n : Int) 2 = ((n / 2 : Nat) : Int) := rfl

theorem clip_bit_int (C : BundledHV) (n : Int) (p : Fin 512) :
    (clip C n).bit p.val = true ↔ Int.tdiv n 2 < ((C.lane p.val : Nat) : Int) := by
  obtain ⟨p, hp⟩ := p
  have h := (clip_fold C (Int.tdiv n 2) 64).2.2 (p / 32) (31 - p % 32) (by omega) (by omega)
  have e : 32 * (p / 32) + (31 - (31 - p % 32)) = p := by omega
  rw [e] at h
  have h512 : p < 8 * 64 := by omega
  simp only [h512, true_and] at h
  exact h


/-- Bit form of `clip` for a non-negative count. -/
theorem clip_bit_nat (C : BundledHV) (n : Nat) (p : Fin 512) :
    (clip C (n : Int)).bit p.val = true ↔ n / 2 < C.lane p.val := by
  rw [clip_bit_int, tdiv_two_natCast]
  exact Int.ofNat_lt

/-- Claim C9: for every bundled vector `C`, every `n >= 0` and every position `p < 512`,
bit `p` of `clip(C, n)` is set exactly when lane `p` of `C` is strictly greater than
`n / 2` (integer division). -/
theorem clip_bit (C : BundledHV) (n : Nat) (p : Fin 512) :
    (clip C (n : Int)).bit p.val = true ↔ n / 2 < C.lane p.val :=
  clip_bit_nat C n p

theorem finRange_four : List.finRange 4 = [0, 1, 2, 3] := by decide

theorem finRange_five : List.finRange 5 = [0, 1, 2, 3, 4] := by decide

theorem bindFeatures_apply (q : Fin 4 → Fin 5) (B : Fin 4 → HV) (L : Fin 5 → HV) (f : Fin 4) :
    bindFeatures q B L f = bind (L (q f)) (B f) := by
  unfold bindFeatures
  rw [show List.finRange DS_FEATURE_SIZE = [0, 1, 2, 3] from finRange_four]
  fin_cases f <;> simp [Function.update]

theorem bundleFeatures_eq (bf : Fin 4 → HV) :
    bundleFeatures bf
      = bundle (bundle (bundle (bundle BundledHV.zero (bf 0)) (bf 1)) (bf 2)) (bf 3) := by
  unfold bundleFeatures
  rw [show List.finRange DS_FEATURE_SIZE = [0, 1, 2, 3] from finRange_four]
  rfl

theorem zero_lane (p : Nat) : BundledHV.zero.lane p = 0 := by
  unfold BundledHV.lane BundledHV.get BundledHV.zero
  split <;> simp

theorem bundleFeatures_lane (bf : Fin 4 → HV) (p : Fin 512) :
    (bundleFeatures bf).lane p.val
      = ((bf 0).bit p.val).toNat + ((bf 1).bit p.val).toNat + ((bf 2).bit p.val).toNat
        + ((bf 3).bit p.val).toNat := by
  rw [bundleFeatures_eq, bundle_lane_aux, bundle_lane_aux, bundle_lane_aux, bundle_lane_aux,
    zero_lane]
  have h0 := Bool.toNat_le ((bf 0).bit p.val)
  have h1 := Bool.toNat_le ((bf 1).bit p.val)
  have h2 := Bool.toNat_le ((bf 2).bit p.val)
  have h3 := Bool.toNat_le ((bf 3).bit p.val)
  omega

/-- Claim C1: for all level indices in range and all base and level vectors, bit `p` of
`encoding` is set exactly when at least 3 of the 4 bound vectors
`bind(LevelVectors[idx[f]], BaseVectors[f])` have bit `p` set (so a 2-of-4 tie gives 0),
for every position `p < 512`. -/
theorem encoding_majority (q : Fin 4 → Fin 5) (B : Fin 4 → HV) (L : Fin 5 → HV) (p : Fin 512) :
    (encoding q B L).bit p.val = true ↔
      3 ≤ (List.finRange 4).countP (fun f => (bind (L (q f)) (B f)).bit p.val) := by
  unfold encoding
  rw [clip_bit_nat, bundleFeatures_lane]
  simp only [bindFeatures_apply, finRange_four, List.countP_cons, List.countP_nil]
  generalize (bind (L (q 0)) (B 0)).bit p.val = b0
  generalize (bind (L (q 1)) (B 1)).bit p.val = b1
  generalize (bind (L (q 2)) (B 2)).bit p.val = b2
  generalize (bind (L (q 3)) (B 3)).bit p.val = b3
  cases b0 <;> cases b1 <;> cases b2 <;> cases b3 <;> decide

/-- Claim C3: `training` stores `bundle(old ClassVectors[class_label], encoding(...))` in
`ClassVectors[class_label]` and returns exactly that accumulator. -/
theorem training_eq (q : Fin 4 → Fin 5) (B : Fin 4 → HV) (L : Fin 5 → HV)
    (CV : Fin 5 → BundledHV) (class_label : Fin 5) :
    (training q B L CV class_label).1 class_label = bundle (CV class_label) (encoding q B L) ∧
    (training q B L CV class_label).2 = bundle (CV class_label) (encoding q B L) := by
  unfold training encoding
  simp

/-! ### The bit-counting loop -/

theorem and_pred_dvd (k x : Nat) (hd : 2 ^ k ∣ x) (hx : 0 < x) :
    2 ^ (k + 1) ∣ x &&& (x - 1) := by
  obtain ⟨m, rfl⟩ := hd
  have hp := Nat.two_pow_pos k
  have hm : 0 < m := Nat.pos_of_ne_zero (by rintro rfl; simp at hx)
  obtain ⟨m, rfl⟩ : ∃ m1, m = m1 + 1 := ⟨m - 1, by omega⟩
  have hx1 : 2 ^ k * (m + 1) - 1 = 2 ^ k * m + (2 ^ k - 1) := by
    rw [Nat.mul_succ]; omega
  apply Nat.dvd_of_mod_eq_zero
  rw [← Nat.and_pow_two_sub_one_eq_mod]
  apply Nat.eq_of_testBit_eq
  intro i
  rw [Nat.testBit_and, Nat.testBit_and, Nat.testBit_two_pow_sub_one, Nat.zero_testBit, hx1,
    Nat.testBit_mul_pow_two, Nat.testBit_mul_pow_two_add m (by omega : 2 ^ k - 1 < 2 ^ k)]
  by_cases h1 : i < k
  · have : ¬ i ≥ k := by omega
    simp [this]
  · by_cases h2 : i = k
    · subst h2
      simp only [ge_iff_le, le_refl, decide_True, Nat.sub_self, Nat.testBit_zero, Bool.true_and,
        lt_self_iff_false, if_false]
      rcases Nat.mod_two_eq_zero_or_one m with h | h
      · have : ¬ m % 2 = 1 := by omega
        simp [this]
      · have : ¬ (m + 1) % 2 = 1 := by omega
        simp [this]
    · have : ¬ i < k + 1 := by omega
      simp [this]

theorem popLoop_zero (fuel count : Nat) : popLoop fuel 0 count = count := by
  cases fuel <;> simp [popLoop]

theorem popLoop_extra (fuel extra k x count : Nat) (hd : 2 ^ k ∣ x)
    (hx : x < 18446744073709551616) (hk : 64 ≤ k + fuel) :
    popLoop (fuel + extra) x count = popLoop fuel x count := by
  induction fuel generalizing k x count with
  | zero =>
    have h64 : 2 ^ 64 ∣ x := Nat.dvd_trans (Nat.pow_dvd_pow 2 (by omega)) hd
    have hx0 : x = 0 := Nat.eq_zero_of_dvd_of_lt h64 (by norm_num; exact hx)
    subst hx0
    rw [popLoop_zero, popLoop_zero]
  | succ fuel ih =>
    by_cases hx0 : x = 0
    · subst hx0
      rw [popLoop_zero, popLoop_zero]
    · have hpos : 0 < x := Nat.pos_of_ne_zero hx0
      have hs : (x + 18446744073709551615) % 18446744073709551616 = x - 1 := by omega
      have e : fuel + 1 + extra = (fuel + extra) + 1 := by omega
      rw [e]
      simp only [popLoop, hx0, if_false, hs]
      exact ih (k + 1) (x &&& (x - 1)) (count + 1) (and_pred_dvd k x hd hpos)
        (lt_of_le_of_lt Nat.and_le_left hx) (by omega)

/-- Fuel 64 is enough: on a 64-bit value more fuel never changes the result of the
bit-counting loop, so `countLoop` is the value at which the C loop stops. -/
theorem popLoop_fuel (extra x : Nat) (hx : x < 18446744073709551616) :
    popLoop (64 + extra) x 0 = countLoop x :=
  popLoop_extra 64 extra 0 x 0 (by simp) hx (by omega)

theorem popLoop_le (fuel x count : Nat) : popLoop fuel x count ≤ count + fuel := by
  induction fuel generalizing x count with
  | zero => simp [popLoop]
  | succ fuel ih =>
    simp only [popLoop]
    split
    · omega
    · have := ih (x &&& ((x + 18446744073709551615) % 18446744073709551616)) (count + 1)
      omega

theorem countLoop_le (x : Nat) : countLoop x ≤ 64 := by
  have := popLoop_le 64 x 0
  unfold countLoop
  omega

/-! ### Word loops of `similarity` and `Search` -/

theorem HV.ext_get {a b : HV} (h : ∀ k, k < 16 → a.get k = b.get k) : a = b := by
  apply HV.ext
  funext k
  have := h k.val k.isLt
  simpa [HV.get, k.isLt] using this

theorem HV.get_of_ge (a : HV) (k : Nat) (hk : 16 ≤ k) : a.get k = 0 := by
  have : ¬ k < 16 := by omega
  simp [HV.get, this]

theorem foldl_set_get (f : Nat → Word32) (init : HV) (n k : Nat) (hk : k < 16) :
    ((List.range n).foldl (fun (x : HV) i => x.set i (f i)) init).get k
      = if k < n then f k else init.get k := by
  induction n with
  | zero => simp
  | succ n ih =>
    rw [List.range_succ, List.foldl_append, List.foldl_cons, List.foldl_nil,
      HV.chunk_get_set _ _ _ _ hk, ih]
    by_cases h1 : k = n
    · subst h1; simp
    · by_cases h2 : k < n
      · have : k < n + 1 := by omega
        simp [h1, h2, this]
      · have : ¬ k < n + 1 := by omega
        simp [h1, h2, this]

theorem foldl_map_get (g : Word32 → Word32) (init : HV) (n k : Nat) (hk : k < 16) :
    ((List.range n).foldl (fun (x : HV) i => x.set i (g (x.get i))) init).get k
      = if k < n then g (init.get k) else init.get k := by
  induction n with
  | zero => simp
  | succ n ih =>
    rw [List.range_succ, List.foldl_append, List.foldl_cons, List.foldl_nil,
      HV.chunk_get_set _ _ _ _ hk]
    by_cases h1 : k = n
    · subst h1
      rw [ih]
      simp
    · rw [ih]
      by_cases h2 : k < n
      · have : k < n + 1 := by omega
        simp [h1, h2, this]
      · have : ¬ k < n + 1 := by omega
        simp [h1, h2, this]

theorem foldl_add_eq_sum (F G : Nat → Int) (d0 : Int) (n : Nat) (h : ∀ i, i < n → F i = G i) :
    (List.range n).foldl (fun (d : Int) i => d + F i) d0
      = d0 + ∑ i in Finset.range n, G i := by
  induction n with
  | zero => simp
  | succ n ih =>
    rw [List.range_succ, List.foldl_append, List.foldl_cons, List.foldl_nil,
      ih (fun i hi => h i (by omega)), Finset.sum_range_succ, h n (by omega)]
    omega

theorem wordCount_le (U V : HV) (i : Nat) : wordCount U V i ≤ 64 := countLoop_le _

theorem wordCount_comm (U V : HV) (i : Nat) : wordCount U V i = wordCount V U i := by
  unfold wordCount
  rw [Nat.xor_comm]

theorem toInt_w32_small (c : Nat) (hc : c ≤ 64) : (w32 c).toInt = (c : Int) := by
  unfold Word32.toInt
  rw [w32_val]
  have : c % 4294967296 = c := Nat.mod_eq_of_lt (by omega)
  rw [this]
  have : c < 2147483648 := by omega
  simp [this]

/-- The three word loops (XOR, in-place bit count, summation) started from any content
of the scratch vector and any running total. -/
theorem dist_loops (n : Nat) (U V init : HV) (d0 : Int) :
    (List.range n).foldl
      (fun (d : Int) i => d +
        (((List.range n).foldl
            (fun (x : HV) i => x.set i (w32 (countLoop (sext64 (x.get i)))))
            ((List.range n).foldl
              (fun (x : HV) i => x.set i (w32 ((U.get i).val ^^^ (V.get i).val))) init)).get
          i).toInt) d0
      = d0 + ∑ i in Finset.range n, (wordCount U V i : Int) := by
  apply foldl_add_eq_sum
  intro i hi
  by_cases h16 : i < 16
  · rw [foldl_map_get (fun w => w32 (countLoop (sext64 w))) _ n i h16,
      foldl_set_get (fun i => w32 ((U.get i).val ^^^ (V.get i).val)) init n i h16]
    simp only [hi, if_true]
    exact toInt_w32_small _ (countLoop_le _)
  · rw [HV.get_of_ge _ i (by omega)]
    unfold wordCount
    rw [HV.get_of_ge U i (by omega), HV.get_of_ge V i (by omega)]
    rfl

theorem similarity_eq_sum (hdc : HDC_op) (A B : HV) :
    similarity hdc A B = ∑ i in Finset.range (hdc.HV_SIZE / 32), (wordCount A B i : Int) := by
  unfold similarity
  simp only []
  rw [dist_loops]
  simp

theorem similarity_le (hdc : HDC_op) (A B : HV) :
    similarity hdc A B ≤ 64 * ((hdc.HV_SIZE / 32 : Nat) : Int) := by
  rw [similarity_eq_sum]
  have h : ∀ n : Nat, ∑ i in Finset.range n, (wordCount A B i : Int) ≤ 64 * (n : Int) := by
    intro n
    induction n with
    | zero => simp
    | succ n ih =>
      rw [Finset.sum_range_succ]
      have := wordCount_le A B n
      push_cast
      omega
  exact h _

/-! ### The running-minimum scan -/

theorem scanMin_append (d : Fin 5 → Int) (l : List (Fin 5)) (j : Fin 5) (st : Int × Int) :
    scanMin d (l ++ [j]) st
      = if d j < (scanMin d l st).1 then (d j, (j.val : Int)) else scanMin d l st := by
  unfold scanMin
  rw [List.foldl_append, List.foldl_cons, List.foldl_nil]

/-- Invariant of the scan over a strictly increasing list of indices. -/
theorem scanMin_inv (d : Fin 5 → Int) (B i0 : Int) (l : List (Fin 5))
    (hs : l.Pairwise (fun a b => a < b)) :
    (∀ k ∈ l, (scanMin d l (B, i0)).1 ≤ d k) ∧
    ((scanMin d l (B, i0) = (B, i0) ∧ ∀ k ∈ l, B ≤ d k) ∨
     ((scanMin d l (B, i0)).1 < B ∧ ∃ j ∈ l, scanMin d l (B, i0) = (d j, (j.val : Int)) ∧
        ∀ k ∈ l, k < j → d j < d k)) := by
  induction l using List.reverseRecOn with
  | nil => simp [scanMin]
  | append_singleton l j ih =>
    rw [List.pairwise_append] at hs
    obtain ⟨hl, _, hlt⟩ := hs
    obtain ⟨h1, h2⟩ := ih hl
    have hle : (scanMin d l (B, i0)).1 ≤ B := by
      rcases h2 with ⟨e, _⟩ | ⟨h, _⟩
      · rw [e]
      · exact le_of_lt h
    rw [scanMin_append]
    by_cases hc : d j < (scanMin d l (B, i0)).1
    · simp only [hc, if_true]
      refine ⟨?_, Or.inr ⟨lt_of_lt_of_le hc hle, j, by simp, rfl, ?_⟩⟩
      · intro k hk
        rcases List.mem_append.1 hk with hk | hk
        · exact le_of_lt (lt_of_lt_of_le hc (h1 k hk))
        · simp only [List.mem_singleton] at hk
          rw [hk]
      · intro k hk hkj
        rcases List.mem_append.1 hk with hk | hk
        · exact lt_of_lt_of_le hc (h1 k hk)
        · simp only [List.mem_singleton] at hk
          exact absurd hkj (by rw [hk]; exact lt_irrefl _)
    · simp only [hc, if_false]
      have hc1 : (scanMin d l (B, i0)).1 ≤ d j := not_lt.1 hc
      refine ⟨?_, ?_⟩
      · intro k hk
        rcases List.mem_append.1 hk with hk | hk
        · exact h1 k hk
        · simp only [List.mem_singleton] at hk
          rw [hk]; exact hc1
      · rcases h2 with ⟨e, h⟩ | ⟨h, j1, hj1, e, hmin⟩
        · refine Or.inl ⟨e, ?_⟩
          intro k hk
          rcases List.mem_append.1 hk with hk | hk
          · exact h k hk
          · simp only [List.mem_singleton] at hk
            rw [hk]; rw [e] at hc1; exact hc1
        · refine Or.inr ⟨h, j1, by simp [hj1], e, ?_⟩
          intro k hk hkj
          rcases List.mem_append.1 hk with hk | hk
          · exact hmin k hk hkj
          · simp only [List.mem_singleton] at hk
            have := hlt j1 hj1 j (by simp)
            rw [hk] at hkj
            exact absurd hkj (not_lt.2 (le_of_lt this))

theorem finRange_five_sorted : (List.finRange 5).Pairwise (fun a b => a < b) := by
  rw [finRange_five]; decide

/-- The scan over all five indices: either nothing was below the initial bound, or the
result is the least index of minimal distance. -/
theorem scanMin_five (d : Fin 5 → Int) (B i0 : Int) :
    (scanMin d (List.finRange 5) (B, i0) = (B, i0) ∧ ∀ k, B ≤ d k) ∨
    (∃ j : Fin 5, scanMin d (List.finRange 5) (B, i0) = (d j, (j.val : Int)) ∧ d j < B ∧
        (∀ k, d j ≤ d k) ∧ ∀ k, k < j → d j < d k) := by
  obtain ⟨h1, h2⟩ := scanMin_inv d B i0 (List.finRange 5) finRange_five_sorted
  rcases h2 with ⟨e, h⟩ | ⟨h, j, _, e, hmin⟩
  · exact Or.inl ⟨e, fun k => h k (List.mem_finRange k)⟩
  · refine Or.inr ⟨j, e, ?_, ?_, fun k hk => hmin k (List.mem_finRange k) hk⟩
    · rw [e] at h; exact h
    · intro k
      have := h1 k (List.mem_finRange k)
      rw [e] at this; exact this

/-! ### `Search` as a running-minimum scan -/

theorem searchStep_fields (hdc : HDC_op) (Q : HV) (mem : Fin 5 → HV) (s : SearchState)
    (j : Fin 5) (hs : s.hammingDistance = 0) :
    (searchStep hdc Q mem s j).hammingDistance = 0 ∧
    ((searchStep hdc Q mem s j).bestDistance, (searchStep hdc Q mem s j).bestIndex)
      = (if similarity hdc Q (mem j) < s.bestDistance
          then (similarity hdc Q (mem j), (j.val : Int))
          else (s.bestDistance, s.bestIndex)) := by
  have hd : ∑ i in Finset.range (hdc.HV_SIZE / 32), (wordCount (mem j) Q i : Int)
      = similarity hdc Q (mem j) := by
    rw [similarity_eq_sum]
    exact Finset.sum_congr rfl (fun i _ => by rw [wordCount_comm])
  unfold searchStep
  simp only []
  rw [dist_loops, hs, zero_add, hd]
  split <;> exact ⟨rfl, rfl⟩

theorem search_fold (hdc : HDC_op) (Q : HV) (mem : Fin 5 → HV) (l : List (Fin 5))
    (s : SearchState) (hs : s.hammingDistance = 0) :
    (l.foldl (searchStep hdc Q mem) s).hammingDistance = 0 ∧
    ((l.foldl (searchStep hdc Q mem) s).bestDistance,
      (l.foldl (searchStep hdc Q mem) s).bestIndex)
      = scanMin (fun k => similarity hdc Q (mem k)) l (s.bestDistance, s.bestIndex) := by
  induction l generalizing s with
  | nil => exact ⟨hs, rfl⟩
  | cons j l ih =>
    obtain ⟨h0, h1⟩ := searchStep_fields hdc Q mem s j hs
    obtain ⟨h2, h3⟩ := ih (searchStep hdc Q mem s j) h0
    rw [List.foldl_cons]
    refine ⟨h2, ?_⟩
    rw [h3, h1]
    unfold scanMin
    rw [List.foldl_cons]

theorem Search_eq_scanMin (hdc : HDC_op) (Q : HV) (mem : Fin 5 → HV) :
    Search hdc Q mem
      = (scanMin (fun k => similarity hdc Q (mem k)) (List.finRange 5) (10000, 0)).2 := by
  have h := (search_fold hdc Q mem (List.finRange 5) ⟨HV.zero, 0, 10000, 0⟩ rfl).2
  unfold Search
  exact congrArg Prod.snd h

theorem inference_eq_scanMin (hdc : HDC_op) (q : Fin 4 → Fin 5) (B : Fin 4 → HV)
    (L : Fin 5 → HV) (CV : Fin 5 → HV) :
    inference hdc q B L CV
      = (scanMin (fun k => similarity hdc (encoding q B L) (CV k)) (List.finRange 5)
          (512, -1)).2 := by
  have h : ∀ (l : List (Fin 5)) (s : InferState),
      ((l.foldl (inferStep hdc (encoding q B L) CV) s).minimum_distance,
        (l.foldl (inferStep hdc (encoding q B L) CV) s).predicted_class)
        = scanMin (fun k => similarity hdc (encoding q B L) (CV k)) l
            (s.minimum_distance, s.predicted_class) := by
    intro l
    induction l with
    | nil => intro s; rfl
    | cons j l ih =>
      intro s
      rw [List.foldl_cons, ih]
      unfold scanMin
      rw [List.foldl_cons]
      unfold inferStep
      simp only []
      split <;> rfl
  exact congrArg Prod.snd (h (List.finRange 5) ⟨512, -1⟩)

/-! ### `permutation`: closed form of the shifting loop -/

theorem perm_fold (temp hv0 : HV) (e : Int) (n : Nat) :
    ((List.range n).foldl (permStep temp e) ⟨hv0, 0⟩).overflow_bits
      = (if n = 0 then 0 else shl32 (temp.get (n - 1)) (32 - e)) ∧
    ∀ k, k < 16 →
      ((List.range n).foldl (permStep temp e) ⟨hv0, 0⟩).hv.get k
        = if k < n then
            w32 ((shr32 (temp.get k) e).val |||
              (if k = 0 then (0 : Word32) else shl32 (temp.get (k - 1)) (32 - e)).val)
          else hv0.get k := by
  induction n with
  | zero => exact ⟨rfl, fun k _ => by simp⟩
  | succ n ih =>
    obtain ⟨ho, hg⟩ := ih
    rw [List.range_succ, List.foldl_append, List.foldl_cons, List.foldl_nil]
    generalize (List.range n).foldl (permStep temp e) ⟨hv0, 0⟩ = s at ho hg
    refine ⟨by simp [permStep], ?_⟩
    intro k hk
    show (s.hv.set n _).get k = _
    rw [HV.chunk_get_set _ _ _ _ hk]
    by_cases h1 : k = n
    · subst h1
      rw [ho]
      by_cases h0 : k = 0
      · simp [h0]
      · simp [h0]
    · rw [hg k hk]
      by_cases h2 : k < n
      · have : k < n + 1 := by omega
        simp [h1, h2, this]
      · have : ¬ k < n + 1 := by omega
        simp [h1, h2, this]

theorem w32_val_of_lt (n : Nat) (h : n < 4294967296) : (w32 n).val = n :=
  Nat.mod_eq_of_lt h

theorem or_lt_word (a b : Word32) : a.val ||| b.val < 4294967296 := by
  have h : a.val ||| b.val < 2 ^ 32 :=
    Nat.or_lt_two_pow (by have := a.isLt; omega) (by have := b.isLt; omega)
  omega

theorem w32_val_self (w : Word32) : (w32 w.val).val = w.val :=
  Nat.mod_eq_of_lt w.isLt

/-- Word form of `permutation` for a non-zero effective shift: result word `k` is
`(chunk[k] >> e) | (chunk[(k + 15) mod 16] << (32 - e))`. -/
theorem permutation_get (hv : HV) (shift : Int) (he : Int.tmod shift 512 ≠ 0) (k : Nat)
    (hk : k < 16) :
    (permutation hv shift).get k
      = w32 ((shr32 (hv.get k) (Int.tmod shift 512)).val |||
          (shl32 (hv.get ((k + 15) % 16)) (32 - Int.tmod shift 512)).val) := by
  have htemp : (List.range HV_CHUNKS).foldl (fun (t : HV) i => t.set i (hv.get i)) HV.zero = hv := by
    apply HV.ext_get
    intro j hj
    rw [foldl_set_get (fun i => hv.get i) HV.zero HV_CHUNKS j hj]
    have : j < HV_CHUNKS := hj
    simp [this]
  have hperm : permutation hv shift
      = (((List.range 16).foldl (permStep hv (Int.tmod shift 512)) ⟨hv, 0⟩).hv.set 0
          (w32 ((((List.range 16).foldl (permStep hv (Int.tmod shift 512)) ⟨hv, 0⟩).hv.get 0).val |||
            ((List.range 16).foldl (permStep hv (Int.tmod shift 512)) ⟨hv, 0⟩).overflow_bits.val))) := by
    unfold permutation
    simp only []
    rw [htemp]
    exact if_neg he
  obtain ⟨ho, hg⟩ := perm_fold hv hv (Int.tmod shift 512) 16
  rw [hperm, HV.chunk_get_set _ _ _ _ hk, ho]
  by_cases h0 : k = 0
  · subst h0
    rw [hg 0 (by decide)]
    simp only [if_true, Nat.lt_irrefl, if_false]
    have e0 : (0 : Word32).val = 0 := rfl
    have c1 : (0 : Nat) < 16 := by decide
    have c2 : ¬ ((16 : Nat) = 0) := by decide
    rw [e0, Nat.or_zero, if_pos c1, if_neg c2, w32_val_self]
  · rw [hg k hk]
    have e2 : (k + 15) % 16 = k - 1 := by omega
    simp [h0, hk, e2]

theorem word_testBit (w : Word32) (i : Nat) (hi : 32 ≤ i) : w.val.testBit i = false := by
  by_contra h
  have := word_testBit_lt w i (by simpa using h)
  omega

/-- Bit form of `permutation` for shifts whose remainder modulo 512 is at most 31: the
input bit at position `p` is found at position `(p + shift) mod 512` of the result. -/
theorem permutation_bit (hv : HV) (shift : Int) (h0 : 0 ≤ shift) (h31 : shift % 512 ≤ 31)
    (p : Fin 512) :
    (permutation hv shift).bit ((p.val + (shift % 512).toNat) % 512) = hv.bit p.val := by
  obtain ⟨p, hp⟩ := p
  have hte : Int.tmod shift 512 = shift % 512 := Int.tmod_eq_emod h0 (by decide)
  have hnn : 0 ≤ shift % 512 := Int.emod_nonneg _ (by decide)
  by_cases hz : shift % 512 = 0
  · have : permutation hv shift = hv := by
      unfold permutation
      simp only []
      rw [if_pos (by rw [← hz]; exact hte)]
    rw [this, hz]
    simp [Nat.mod_eq_of_lt hp]
  · obtain ⟨s, hs⟩ : ∃ s : Nat, shift % 512 = (s : Int) := ⟨(shift % 512).toNat, by omega⟩
    have hs1 : 1 ≤ s := by omega
    have hs2 : s ≤ 31 := by omega
    have hq : (p + s) % 512 / 32 < 16 := by omega
    show ((permutation hv shift).get (((p + (shift % 512).toNat) % 512) / 32)).val.testBit
        (31 - ((p + (shift % 512).toNat) % 512) % 32) = (hv.get (p / 32)).val.testBit (31 - p % 32)
    rw [hs, Int.toNat_ofNat, permutation_get hv shift (by rw [hte]; exact hz) _ hq, hte, hs]
    have e1 : (((s : Int)) % 32).toNat = s := by omega
    have e2 : ((32 - (s : Int)) % 32).toNat = 32 - s := by omega
    unfold shr32 shl32
    rw [e1, e2]
    have r1 : ∀ x : Nat, (w32 x).val = x % 2 ^ 32 := fun x => by rw [w32_val]; norm_num
    rw [r1, r1, r1]
    simp only [Nat.testBit_mod_two_pow, Nat.testBit_or, Nat.testBit_shiftRight,
      Nat.testBit_shiftLeft]
    by_cases hc : p % 32 + s ≤ 31
    · have a1 : (p + s) % 512 / 32 = p / 32 := by omega
      have a2 : s + (31 - (p + s) % 512 % 32) = 31 - p % 32 := by omega
      have a3 : ¬ (31 - (p + s) % 512 % 32 ≥ 32 - s) := by omega
      have a4 : 31 - (p + s) % 512 % 32 < 32 := by omega
      rw [a1, a2]
      simp [a3, a4]
    · have a1 : ((p + s) % 512 / 32 + 15) % 16 = p / 32 := by omega
      have a2 : 32 ≤ s + (31 - (p + s) % 512 % 32) := by omega
      have a3 : 31 - (p + s) % 512 % 32 ≥ 32 - s := by omega
      have a4 : 31 - (p + s) % 512 % 32 < 32 := by omega
      have a5 : 31 - (p + s) % 512 % 32 - (32 - s) = 31 - p % 32 := by omega
      rw [a1, a5, word_testBit _ _ a2]
      simp [a3, a4]

/-! ## The claims -/

/-- Claim C6: for an `HDC_op` of dimensionality 512, `Search` returns the least index
whose memory vector minimises `similarity(query, memory[j])`: the returned index `j`
attains the minimum, and every smaller index has a strictly larger similarity value. -/
theorem Search_least_argmin (features levels : Nat) (Q : HV) (mem : Fin 5 → HV) :
    ∃ j : Fin 5, Search (HDC_op.new 512 features levels) Q mem = (j.val : Int) ∧
      (∀ k, similarity (HDC_op.new 512 features levels) Q (mem j)
          ≤ similarity (HDC_op.new 512 features levels) Q (mem k)) ∧
      (∀ k, k < j → similarity (HDC_op.new 512 features levels) Q (mem j)
          < similarity (HDC_op.new 512 features levels) Q (mem k)) := by
  rw [Search_eq_scanMin]
  rcases scanMin_five (fun k => similarity (HDC_op.new 512 features levels) Q (mem k)) 10000 0
    with ⟨_, h⟩ | ⟨j, e, _, h1, h2⟩
  · have h0 := h 0
    have hb := similarity_le (HDC_op.new 512 features levels) Q (mem 0)
    have e : (HDC_op.new 512 features levels).HV_SIZE / 32 = 16 := by simp [HDC_op.new]
    rw [e] at hb
    simp only [] at h0
    omega
  · exact ⟨j, by rw [e], h1, h2⟩

set_option maxRecDepth 1000000 in
/-- Claim C4 (evaluation at the failing input): for the vector whose only set bit is bit
31 of chunk 0 and the zero vector, `similarity` returns 33, while the two vectors differ
in exactly one bit position and `calculateSoftwareSimilarity` returns 1 on the same 16
words. -/
theorem similarity_sign_extension :
    similarity hdc512 signBitHV HV.zero = 33 ∧
    hammingDistance signBitHV HV.zero = 1 ∧
    calculateSoftwareSimilarity signBitHV HV.zero 16 = 1 := by
  decide

set_option maxRecDepth 1000000 in
/-- Claim C5 (evaluation at the failing input): with the zero query and a memory that
holds `signBitHV` at index 0 and `lowTwoHV` at the other indices, `Search` returns 1
although `memory[0]` differs from the query in one bit position and `memory[1]` in
two. -/
theorem Search_not_nearest :
    Search hdc512 HV.zero signBitMemory = 1 ∧
    hammingDistance HV.zero (signBitMemory 0) = 1 ∧
    hammingDistance HV.zero (signBitMemory 1) = 2 := by
  decide

set_option maxRecDepth 1000000 in
theorem inference_far_eval :
    inference hdc512 (fun _ => 0) (fun _ => HV.zero) (fun _ => HV.zero) (fun _ => onesHV) = -1 := by
  decide

set_option maxRecDepth 1000000 in
theorem Search_far_eval :
    Search hdc512 (encoding (fun _ => 0) (fun _ => HV.zero) (fun _ => HV.zero))
      (fun _ => onesHV) = 0 := by
  decide

/-- Claim C2 (evaluation at the failing input): with all level indices 0, all base and
level vectors zero and every class vector all-ones, `inference` returns -1, which is
not a class index in `0 .. HD_CV_LEN - 1`. -/
theorem inference_no_class :
    inference hdc512 (fun _ => 0) (fun _ => HV.zero) (fun _ => HV.zero) (fun _ => onesHV) = -1 ∧
    ∀ c : Fin 5,
      inference hdc512 (fun _ => 0) (fun _ => HV.zero) (fun _ => HV.zero) (fun _ => onesHV)
        ≠ (c.val : Int) := by
  refine ⟨inference_far_eval, ?_⟩
  intro c
  rw [inference_far_eval]
  omega

/-- Claim C7 (evaluation at the failing input): with all level indices 0, all base and
level vectors zero and every class vector all-ones, `inference` returns -1 while `Search`
applied to the encoded vector and the same class vectors returns 0, so the two results
differ. -/
theorem inference_ne_Search :
    inference hdc512 (fun _ => 0) (fun _ => HV.zero) (fun _ => HV.zero) (fun _ => onesHV)
      ≠ Search hdc512 (encoding (fun _ => 0) (fun _ => HV.zero) (fun _ => HV.zero))
          (fun _ => onesHV) := by
  rw [inference_far_eval, Search_far_eval]
  decide

set_option maxRecDepth 1000000 in
/-- Claim C10 (evaluation at the failing input): for the vector whose only set bit is
at position 31 (the least significant bit of chunk 0) and shift 64, a rotation by 64
would set bit 95 of the result; `permutation` leaves bit 95 clear and sets bits 31 and
63 instead. -/
theorem permutation_shift_64 :
    lowOneHV.bit 31 = true ∧
    (permutation lowOneHV 64).bit 95 = false ∧
    (permutation lowOneHV 64).bit 31 = true ∧
    (permutation lowOneHV 64).bit 63 = true := by
  decide

/-! ## Binding and the quantizer -/

/-! ### `bind` -/

theorem bind_get (A B : HV) (k : Nat) (hk : k < 16) :
    (bind A B).get k = w32 ((A.get k).val ^^^ (B.get k).val) := by
  unfold bind
  rw [foldl_set_get (fun i => w32 ((A.get i).val ^^^ (B.get i).val)) HV.zero HV_CHUNKS k hk]
  have : k < HV_CHUNKS := hk
  simp [this]

theorem xor_lt_word (a b : Word32) : a.val ^^^ b.val < 4294967296 := by
  have h : a.val ^^^ b.val < 2 ^ 32 :=
    Nat.xor_lt_two_pow (by have := a.isLt; omega) (by have := b.isLt; omega)
  omega

/-- Claim C19: for all hypervectors `A` and `B`, `bind(bind(A, B), B) == A`. -/
theorem bind_self_inverse (A B : HV) : bind (bind A B) B = A := by
  apply HV.ext_get
  intro k hk
  rw [bind_get _ _ k hk, bind_get _ _ k hk]
  apply Fin.ext
  rw [w32_val_of_lt _ (xor_lt_word _ _), w32_val_of_lt _ (xor_lt_word _ _), Nat.xor_assoc,
    Nat.xor_self, Nat.xor_zero]

/-- Claim C20: for all hypervectors `A` and `B`, `bind(A, B) == bind(B, A)`. -/
theorem bind_comm (A B : HV) : bind A B = bind B A := by
  apply HV.ext_get
  intro k hk
  rw [bind_get _ _ k hk, bind_get _ _ k hk, Nat.xor_comm]

/-! ### Quantizer -/

theorem foldl_update_range (f : Nat → ℚ) (init : Nat → ℚ) (n k : Nat) :
    (List.range n).foldl (fun (LL : Nat → ℚ) level => Function.update LL level (f level)) init k
      = if k < n then f k else init k := by
  induction n with
  | zero => simp
  | succ n ih =>
    rw [List.range_succ, List.foldl_append, List.foldl_cons, List.foldl_nil]
    by_cases h1 : k = n
    · subst h1; simp
    · rw [Function.update_noteq h1, ih]
      by_cases h2 : k < n
      · have : k < n + 1 := by omega
        simp [h2, this]
      · have : ¬ k < n + 1 := by omega
        simp [h2, this]

theorem gen_apply_lt (min max : ℚ) (L : Nat) (init : Nat → ℚ) (i : Nat) (hi : i < L - 1) :
    generate_quantization_levels min max L init i = min + (i : ℚ) * (max - min) / (L : ℚ) := by
  unfold generate_quantization_levels
  rw [Function.update_noteq (by omega),
    foldl_update_range (fun level => min + (level : ℚ) * ((max - min) / (L : ℚ))) init (L - 1) i]
  simp only [hi, if_true]
  rw [mul_div_assoc]

theorem gen_apply_last (min max : ℚ) (L : Nat) (init : Nat → ℚ) :
    generate_quantization_levels min max L init (L - 1) = max := by
  unfold generate_quantization_levels
  simp

theorem gen_apply_ge (min max : ℚ) (L : Nat) (init : Nat → ℚ) (i : Nat) (hL : 1 ≤ L)
    (hi : L ≤ i) : generate_quantization_levels min max L init i = init i := by
  unfold generate_quantization_levels
  rw [Function.update_noteq (by omega),
    foldl_update_range (fun level => min + (level : ℚ) * ((max - min) / (L : ℚ))) init (L - 1) i]
  have : ¬ i < L - 1 := by omega
  simp [this]

theorem quantScan_le_first (v : ℚ) (t : Nat → ℚ) (i : Nat) (rest : List Nat) (h : v ≤ t 0) :
    quantScan v t (i :: rest) = some 0 := by
  simp [quantScan, h]

theorem quantScan_range' (v : ℚ) (t : Nat → ℚ) (h0 : t 0 < v) (s n : Nat) :
    ((∀ i, s ≤ i → i < s + n → t i < v) → quantScan v t (List.range' s n) = none) ∧
    (∀ i, s ≤ i → i < s + n → v ≤ t i → (∀ k, s ≤ k → k < i → t k < v) →
      quantScan v t (List.range' s n) = some ((i : Int) - 1)) := by
  induction n generalizing s with
  | zero =>
    refine ⟨fun _ => rfl, ?_⟩
    intro i h1 h2
    omega
  | succ n ih =>
    obtain ⟨ih1, ih2⟩ := ih (s + 1)
    have hn0 : ¬ v ≤ t 0 := not_le.2 h0
    rw [List.range'_succ]
    refine ⟨?_, ?_⟩
    · intro hall
      have hs : ¬ v ≤ t s := not_le.2 (hall s (le_refl _) (by omega))
      simp only [quantScan, hn0, hs, if_false]
      exact ih1 (fun i h1 h2 => hall i (by omega) (by omega))
    · intro i h1 h2 hle hmin
      by_cases his : i = s
      · subst his
        simp only [quantScan, hn0, hle, if_false, if_true]
      · have hs : ¬ v ≤ t s := not_le.2 (hmin s (le_refl _) (by omega))
        simp only [quantScan, hn0, hs, if_false]
        exact ih2 i (by omega) (by omega) hle (fun k hk1 hk2 => hmin k (by omega) hk2)

/-- The three cases of `get_quantized_level` for `L >= 1`. -/
theorem quant_spec_aux (v : ℚ) (t : Nat → ℚ) (L : Nat) (hL : 1 ≤ L) :
    (v ≤ t 0 → get_quantized_level v t L = 0) ∧
    (∀ i, t 0 < v → 1 ≤ i → i < L → v ≤ t i → (∀ k, 1 ≤ k → k < i → t k < v) →
      get_quantized_level v t L = (i : Int) - 1) ∧
    (t 0 < v → (∀ i, 1 ≤ i → i < L → t i < v) → get_quantized_level v t L = (L : Int) - 1) := by
  obtain ⟨n, rfl⟩ : ∃ n, L = n + 1 := ⟨L - 1, by omega⟩
  have hr : List.range (n + 1) = 0 :: List.range' 1 n := by
    rw [List.range_eq_range', List.range'_succ]
  refine ⟨?_, ?_, ?_⟩
  · intro h
    unfold get_quantized_level
    rw [hr, quantScan_le_first v t 0 _ h]
  · intro i h0 h1 h2 hle hmin
    have hn0 : ¬ v ≤ t 0 := not_le.2 h0
    unfold get_quantized_level
    rw [hr]
    simp only [quantScan, hn0, if_false]
    rw [(quantScan_range' v t h0 1 n).2 i h1 (by omega) hle hmin]
  · intro h0 hall
    have hn0 : ¬ v ≤ t 0 := not_le.2 h0
    unfold get_quantized_level
    rw [hr]
    simp only [quantScan, hn0, if_false]
    rw [(quantScan_range' v t h0 1 n).1 (fun i h1 h2 => hall i h1 (by omega))]


/-- Claim C12: for every value `v`, threshold array `t` and `L >= 1`,
`get_quantized_level(v, t, L)` is 0 if `v <= t[0]`; otherwise `i - 1` for the smallest
`i` in `1 .. L-1` with `v <= t[i]`; otherwise (no such `i`) `L - 1`. -/
theorem get_quantized_level_spec (v : ℚ) (t : Nat → ℚ) (L : Nat) (hL : 1 ≤ L) :
    (v ≤ t 0 → get_quantized_level v t L = 0) ∧
    (∀ i, t 0 < v → 1 ≤ i → i < L → v ≤ t i → (∀ k, 1 ≤ k → k < i → t k < v) →
      get_quantized_level v t L = (i : Int) - 1) ∧
    (t 0 < v → (∀ i, 1 ≤ i → i < L → t i < v) → get_quantized_level v t L = (L : Int) - 1) :=
  quant_spec_aux v t L hL

/-- Witness for claim C12: thresholds `0, 1, 2, 3, 4` and
`L = 5`; the values `0`, `5/2` and `9` are quantised to `0`, `2` and `4`. -/
theorem get_quantized_level_spec_witness :
    get_quantized_level 0 (fun i => (i : ℚ)) 5 = 0 ∧
    get_quantized_level (5 / 2) (fun i => (i : ℚ)) 5 = ((3 : Nat) : Int) - 1 ∧
    get_quantized_level 9 (fun i => (i : ℚ)) 5 = ((5 : Nat) : Int) - 1 :=
  ⟨(get_quantized_level_spec 0 (fun i => (i : ℚ)) 5 (by decide)).1 (by norm_num),
   (get_quantized_level_spec (5 / 2) (fun i => (i : ℚ)) 5 (by decide)).2.1 3 (by norm_num)
      (by decide) (by decide) (by norm_num)
      (fun k h1 h2 => by interval_cases k <;> norm_num),
   (get_quantized_level_spec 9 (fun i => (i : ℚ)) 5 (by decide)).2.2 (by norm_num)
      (fun i h1 h2 => by interval_cases i <;> norm_num)⟩

/-- Claim C14: in exact rational arithmetic, for every `min`, `max` and `L >= 1`,
`generate_quantization_levels` writes `LevelList[i] = min + i * (max - min) / L` for every
`i < L - 1` and `LevelList[L - 1] = max`. -/
theorem generate_quantization_levels_spec (min max : ℚ) (L : Nat) (init : Nat → ℚ)
    (_hL : 1 ≤ L) :
    (∀ i, i < L - 1 →
      generate_quantization_levels min max L init i = min + (i : ℚ) * (max - min) / (L : ℚ)) ∧
    generate_quantization_levels min max L init (L - 1) = max :=
  ⟨fun i hi => gen_apply_lt min max L init i hi, gen_apply_last min max L init⟩

/-- Witness for claim C14 at `min = 0`, `max = 1`,
`L = 5`: entry 2 and the last entry. -/
theorem generate_quantization_levels_spec_witness :
    generate_quantization_levels 0 1 5 (fun _ => 0) 2 = 0 + ((2 : Nat) : ℚ) * (1 - 0) / ((5 : Nat) : ℚ) ∧
    generate_quantization_levels 0 1 5 (fun _ => 0) (5 - 1) = 1 :=
  ⟨(generate_quantization_levels_spec 0 1 5 (fun _ => 0) (by decide)).1 2 (by decide),
   (generate_quantization_levels_spec 0 1 5 (fun _ => 0) (by decide)).2⟩

theorem gen_zero (min max : ℚ) (L : Nat) (init : Nat → ℚ) (hL : 2 ≤ L) :
    generate_quantization_levels min max L init 0 = min := by
  rw [gen_apply_lt min max L init 0 (by omega)]
  simp

theorem gen_interior_lt (min max : ℚ) (L : Nat) (init : Nat → ℚ) (hmm : min < max)
    (i j : Nat) (hij : i < j) (hj : j < L - 1) :
    generate_quantization_levels min max L init i
      < generate_quantization_levels min max L init j := by
  rw [gen_apply_lt min max L init i (by omega), gen_apply_lt min max L init j hj]
  have hL : (0 : ℚ) < (L : ℚ) := by
    have : 0 < L := by omega
    exact_mod_cast this
  have hd : 0 < max - min := sub_pos.2 hmm
  have hc : (i : ℚ) < (j : ℚ) := by exact_mod_cast hij
  have h1 : (i : ℚ) * (max - min) / (L : ℚ) < (j : ℚ) * (max - min) / (L : ℚ) :=
    div_lt_div_of_pos_right (mul_lt_mul_of_pos_right hc hd) hL
  linarith

theorem gen_lt_max (min max : ℚ) (L : Nat) (init : Nat → ℚ) (hmm : min < max)
    (i : Nat) (hi : i < L - 1) :
    generate_quantization_levels min max L init i < max := by
  rw [gen_apply_lt min max L init i hi]
  have hL : (0 : ℚ) < (L : ℚ) := by
    have : 0 < L := by omega
    exact_mod_cast this
  have hd : 0 < max - min := sub_pos.2 hmm
  have hc : (i : ℚ) < (L : ℚ) := by
    have : i < L := by omega
    exact_mod_cast this
  have h1 : (i : ℚ) * (max - min) / (L : ℚ) < max - min := by
    rw [div_lt_iff₀ hL]
    nlinarith
  linarith

theorem gen_le_max (min max : ℚ) (L : Nat) (init : Nat → ℚ) (hmm : min < max)
    (i : Nat) (hi : i < L) :
    generate_quantization_levels min max L init i ≤ max := by
  by_cases h : i < L - 1
  · exact le_of_lt (gen_lt_max min max L init hmm i h)
  · have : i = L - 1 := by omega
    rw [this, gen_apply_last]

/-- Value at `max` on generated thresholds: the first index whose threshold reaches `max`
is the last one, `L - 1`, so the result is `L - 2`. -/
theorem quant_max_aux (min max : ℚ) (L : Nat) (init : Nat → ℚ) (hmm : min < max)
    (hL : 2 ≤ L) :
    get_quantized_level max (generate_quantization_levels min max L init) L = (L : Int) - 2 := by
  have h := (quant_spec_aux max (generate_quantization_levels min max L init) L
    (by omega)).2.1 (L - 1) (by rw [gen_zero min max L init hL]; exact hmm) (by omega) (by omega)
    (by rw [gen_apply_last]) (fun k _ hk2 => gen_lt_max min max L init hmm k hk2)
  rw [h]
  omega


/-- Claim C13 (as amended): for thresholds produced by `generate_quantization_levels` with
`min < max` and `L >= 2`, `get_quantized_level(max, thresholds, L)` returns `L - 2`; for
`L = 5` on `[0, 1]` the value `1.0` is quantised to 3. -/
theorem get_quantized_level_max (min max : ℚ) (L : Nat) (init : Nat → ℚ) (hmm : min < max)
    (hL : 2 ≤ L) :
    get_quantized_level max (generate_quantization_levels min max L init) L = (L : Int) - 2 ∧
    get_quantized_level 1 (generate_quantization_levels 0 1 5 init) 5 = 3 :=
  ⟨quant_max_aux min max L init hmm hL, quant_max_aux 0 1 5 init (by norm_num) (by decide)⟩

/-- Witness for claim C13 at `min = -1`, `max = 2`, `L = 3`. -/
theorem get_quantized_level_max_witness :
    get_quantized_level 2 (generate_quantization_levels (-1) 2 3 (fun _ => 0)) 3
        = ((3 : Nat) : Int) - 2 ∧
    get_quantized_level 1 (generate_quantization_levels 0 1 5 (fun _ => 0)) 5 = 3 :=
  get_quantized_level_max (-1) 2 3 (fun _ => 0) (by norm_num) (by decide)

/-- Claim C13 (counterexample to the claim as stated): for `L = 5` on `[0, 1]`,
`get_quantized_level(1.0, thresholds, 5)` is 3, not the top level 4. -/
theorem get_quantized_level_max_not_top :
    get_quantized_level 1 (generate_quantization_levels 0 1 5 (fun _ => 0)) 5 ≠ 4 := by
  rw [quant_max_aux 0 1 5 (fun _ => 0) (by norm_num) (by decide)]
  decide

theorem gen5_values (init : Nat → ℚ) :
    generate_quantization_levels 0 1 5 init 0 = 0 ∧
    generate_quantization_levels 0 1 5 init 1 = 1 / 5 ∧
    generate_quantization_levels 0 1 5 init 2 = 2 / 5 ∧
    generate_quantization_levels 0 1 5 init 3 = 3 / 5 ∧
    generate_quantization_levels 0 1 5 init 4 = 1 := by
  refine ⟨?_, ?_, ?_, ?_, ?_⟩
  · rw [gen_apply_lt 0 1 5 init 0 (by decide)]; norm_num
  · rw [gen_apply_lt 0 1 5 init 1 (by decide)]; norm_num
  · rw [gen_apply_lt 0 1 5 init 2 (by decide)]; norm_num
  · rw [gen_apply_lt 0 1 5 init 3 (by decide)]; norm_num
  · exact gen_apply_last 0 1 5 init

theorem gen5_list (init : Nat → ℚ) :
    (List.range 5).map (generate_quantization_levels 0 1 5 init) = [0, 1 / 5, 2 / 5, 3 / 5, 1] := by
  obtain ⟨h0, h1, h2, h3, h4⟩ := gen5_values init
  have hr : List.range 5 = [0, 1, 2, 3, 4] := by decide
  rw [hr]
  simp only [List.map, h0, h1, h2, h3, h4]

/-- Claim C15 (as amended): with `L = 5`, `min = 0` and `max = 1`,
`generate_quantization_levels` produces exactly the five thresholds `0, 1/5, 2/5, 3/5`
followed by the sentinel `1` at index 4. -/
theorem generate_quantization_levels_five (init : Nat → ℚ) :
    (List.range 5).map (generate_quantization_levels 0 1 5 init) = [0, 1 / 5, 2 / 5, 3 / 5, 1] :=
  gen5_list init

/-- Claim C15 (counterexample to the claim as stated): the entry at index 4 is the
sentinel `1`, and `4/5` is not among the five thresholds that are produced. -/
theorem generate_quantization_levels_no_four_fifths :
    generate_quantization_levels 0 1 5 (fun _ => 0) 4 = 1 ∧
    (4 / 5 : ℚ) ∉ (List.range 5).map (generate_quantization_levels 0 1 5 (fun _ => 0)) := by
  refine ⟨(gen5_values _).2.2.2.2, ?_⟩
  rw [gen5_list]
  norm_num

theorem quant_clamp_aux (min max : ℚ) (L : Nat) (init : Nat → ℚ) (hmm : min < max)
    (hL : 2 ≤ L) (v : ℚ) :
    (v ≤ min → get_quantized_level v (generate_quantization_levels min max L init) L = 0) ∧
    (max < v →
      get_quantized_level v (generate_quantization_levels min max L init) L = (L : Int) - 1) := by
  have hs := quant_spec_aux v (generate_quantization_levels min max L init) L (by omega)
  refine ⟨?_, ?_⟩
  · intro hv
    exact hs.1 (by rw [gen_zero min max L init hL]; exact hv)
  · intro hv
    exact hs.2.2 (by rw [gen_zero min max L init hL]; exact lt_trans hmm hv)
      (fun i _ h2 => lt_of_le_of_lt (gen_le_max min max L init hmm i h2) hv)

/-- Claim C16: for thresholds produced by `generate_quantization_levels` with `min < max`
and `L >= 2`, `get_quantized_level` (a total function, it never fails) returns 0 for
every value `<= min` and `L - 1` for every value `> max`. -/
theorem get_quantized_level_clamp (min max : ℚ) (L : Nat) (init : Nat → ℚ) (hmm : min < max)
    (hL : 2 ≤ L) (v : ℚ) :
    (v ≤ min → get_quantized_level v (generate_quantization_levels min max L init) L = 0) ∧
    (max < v →
      get_quantized_level v (generate_quantization_levels min max L init) L = (L : Int) - 1) :=
  quant_clamp_aux min max L init hmm hL v

/-- Witness for claim C16 on `[0, 1]` with `L = 5`: the
value `-3` goes to level 0 and the value `7` to level 4. -/
theorem get_quantized_level_clamp_witness :
    get_quantized_level (-3) (generate_quantization_levels 0 1 5 (fun _ => 0)) 5 = 0 ∧
    get_quantized_level 7 (generate_quantization_levels 0 1 5 (fun _ => 0)) 5
      = ((5 : Nat) : Int) - 1 :=
  ⟨(get_quantized_level_clamp 0 1 5 (fun _ => 0) (by norm_num) (by decide) (-3)).1 (by norm_num),
   (get_quantized_level_clamp 0 1 5 (fun _ => 0) (by norm_num) (by decide) 7).2 (by norm_num)⟩

theorem quant_interior_aux (min max : ℚ) (L : Nat) (init : Nat → ℚ) (hmm : min < max)
    (k : Nat) (hk1 : 1 ≤ k) (hk2 : k ≤ L - 2) (hL : 3 ≤ L) :
    get_quantized_level (generate_quantization_levels min max L init k)
      (generate_quantization_levels min max L init) L = (k : Int) - 1 :=
  (quant_spec_aux _ (generate_quantization_levels min max L init) L (by omega)).2.1 k
    (gen_interior_lt min max L init hmm 0 k (by omega) (by omega)) hk1 (by omega) (le_refl _)
    (fun j _ hj2 => gen_interior_lt min max L init hmm j k hj2 (by omega))

theorem quant5_values (init : Nat → ℚ) :
    get_quantized_level (1 / 5) (generate_quantization_levels 0 1 5 init) 5 = 0 ∧
    get_quantized_level (21 / 100) (generate_quantization_levels 0 1 5 init) 5 = 1 ∧
    get_quantized_level (2 / 5) (generate_quantization_levels 0 1 5 init) 5 = 1 := by
  obtain ⟨h0, h1, h2, _, _⟩ := gen5_values init
  refine ⟨?_, ?_, ?_⟩
  · have h := quant_interior_aux 0 1 5 init (by norm_num) 1 (by decide) (by decide) (by decide)
    rw [h1] at h
    rw [h]; rfl
  · have h := (quant_spec_aux (21 / 100) (generate_quantization_levels 0 1 5 init) 5
      (by decide)).2.1 2 (by rw [h0]; norm_num) (by decide) (by decide) (by rw [h2]; norm_num)
      (fun j hj1 hj2 => by
        have : j = 1 := by omega
        subst this
        rw [h1]; norm_num)
    rw [h]; rfl
  · have h := quant_interior_aux 0 1 5 init (by norm_num) 2 (by decide) (by decide) (by decide)
    rw [h2] at h
    rw [h]; rfl

/-- Claim C17: for thresholds produced by `generate_quantization_levels` with `min < max`
and `L >= 3`, a value equal to an interior threshold `t[k]` (`1 <= k <= L - 2`) is
quantised to `k - 1`; for `L = 5` on `[0, 1]`: `quantize(0.2) = 0`, `quantize(0.21) = 1`,
`quantize(0.4) = 1`. -/
theorem get_quantized_level_interior (min max : ℚ) (L : Nat) (init : Nat → ℚ)
    (hmm : min < max) (hL : 3 ≤ L) (k : Nat) (hk1 : 1 ≤ k) (hk2 : k ≤ L - 2) :
    get_quantized_level (generate_quantization_levels min max L init k)
      (generate_quantization_levels min max L init) L = (k : Int) - 1 ∧
    get_quantized_level (1 / 5) (generate_quantization_levels 0 1 5 init) 5 = 0 ∧
    get_quantized_level (21 / 100) (generate_quantization_levels 0 1 5 init) 5 = 1 ∧
    get_quantized_level (2 / 5) (generate_quantization_levels 0 1 5 init) 5 = 1 :=
  ⟨quant_interior_aux min max L init hmm k hk1 hk2 hL, quant5_values init⟩

/-- Witness for claim C17 on `[0, 1]` with `L = 5` and
the interior threshold `k = 3`. -/
theorem get_quantized_level_interior_witness :
    get_quantized_level (generate_quantization_levels 0 1 5 (fun _ => 0) 3)
      (generate_quantization_levels 0 1 5 (fun _ => 0)) 5 = ((3 : Nat) : Int) - 1 ∧
    get_quantized_level (1 / 5) (generate_quantization_levels 0 1 5 (fun _ => 0)) 5 = 0 ∧
    get_quantized_level (21 / 100) (generate_quantization_levels 0 1 5 (fun _ => 0)) 5 = 1 ∧
    get_quantized_level (2 / 5) (generate_quantization_levels 0 1 5 (fun _ => 0)) 5 = 1 :=
  get_quantized_level_interior 0 1 5 (fun _ => 0) (by norm_num) (by decide) 3 (by decide)
    (by decide)

/-! ### Level vectors -/

theorem lvGet_lvSet (LV : Fin 5 → HV) (l k : Nat) (v : HV) (hk : k < 5) :
    lvGet (lvSet LV l v) k = if k = l then v else lvGet LV k := by
  simp [lvGet, lvSet, hk]

theorem lvGet_fin (LV : Fin 5 → HV) (i : Fin 5) : lvGet LV i.val = LV i := by
  simp [lvGet, i.isLt]

theorem and_bit_ne_zero (x b : Nat) : x &&& (1 <<< b) ≠ 0 ↔ x.testBit b = true := by
  rw [Nat.one_shiftLeft, Nat.and_two_pow]
  have hp := Nat.two_pow_pos b
  cases h : x.testBit b
  · simp
  · simp [Nat.ne_of_gt hp]

theorem w32_clear_bit_testBit (x : Word32) (j i : Nat) :
    (w32 (x.val &&& ((1 <<< j) ^^^ 4294967295))).val.testBit i
      = (x.val.testBit i && !decide (i = j)) := by
  have hlt : x.val &&& ((1 <<< j) ^^^ 4294967295) < 4294967296 :=
    lt_of_le_of_lt Nat.and_le_left x.isLt
  have e : (4294967295 : Nat) = 2 ^ 32 - 1 := by norm_num
  rw [w32_val_of_lt _ hlt, Nat.testBit_and, Nat.testBit_xor, Nat.one_shiftLeft,
    Nat.testBit_two_pow, e, Nat.testBit_two_pow_sub_one]
  by_cases hi : i < 32
  · by_cases hj : j = i
    · subst hj; simp [hi]
    · have : ¬ i = j := fun h => hj h.symm
      simp [hi, hj, this]
  · rw [word_testBit x i (by omega)]
    simp

theorem w32_set_bit_testBit (x : Word32) (j i : Nat) (hj : j < 32) :
    (w32 (x.val ||| (1 <<< j))).val.testBit i = (x.val.testBit i || decide (i = j)) := by
  have h := w32_or_bit_testBit x j i
  cases h1 : (w32 (x.val ||| (1 <<< j))).val.testBit i
  · cases h2 : x.val.testBit i
    · by_cases hij : i = j
      · exfalso
        have := h.2 (Or.inr ⟨by omega, hij⟩)
        rw [h1] at this
        exact Bool.false_ne_true this
      · simp [hij]
    · exfalso
      have := h.2 (Or.inl h2)
      rw [h1] at this
      exact Bool.false_ne_true this
  · rcases h.1 h1 with h2 | ⟨_, h2⟩
    · simp [h2]
    · simp [h2]

/-- Effect of `flipAt` on the bits of the level being derived. -/
theorem flipAt_bitL (level : Nat) (st : LevelGenState) (index idx : Nat) (hlev : level < 5)
    (hindex : index < 512) (hidx : idx < 512) :
    (lvGet (flipAt level st index).LevelVectors level).bitL idx
      = if idx = index then !(lvGet st.LevelVectors (level - 1)).bitL index
        else (lvGet st.LevelVectors level).bitL idx := by
  have hc : index / 32 < 16 := by omega
  have hb : index % 32 < 32 := by omega
  have hc2 : idx / 32 < 16 := by omega
  have hiff : idx = index ↔ (idx / 32 = index / 32 ∧ idx % 32 = index % 32) := by omega
  unfold flipAt
  simp only []
  rw [lvGet_lvSet _ _ _ _ hlev]
  simp only [if_true]
  by_cases hcond : ((lvGet st.LevelVectors (level - 1)).get (index / 32)).val
      &&& (1 <<< (index % 32)) ≠ 0
  · have hprev : (lvGet st.LevelVectors (level - 1)).bitL index = true :=
      (and_bit_ne_zero _ _).1 hcond
    rw [if_pos hcond, hprev]
    unfold HV.bitL
    rw [HV.chunk_get_set _ _ _ _ hc2]
    by_cases h1 : idx / 32 = index / 32
    · rw [if_pos h1, w32_clear_bit_testBit, h1]
      by_cases h2 : idx % 32 = index % 32
      · have : idx = index := hiff.2 ⟨h1, h2⟩
        simp [this]
      · have : ¬ idx = index := fun h => h2 (hiff.1 h).2
        simp [h2, this]
    · have : ¬ idx = index := fun h => h1 (hiff.1 h).1
      simp [h1, this]
  · have hprev : (lvGet st.LevelVectors (level - 1)).bitL index = false := by
      have := (and_bit_ne_zero _ _).not.1 hcond
      simpa [HV.bitL] using this
    rw [if_neg hcond, hprev]
    unfold HV.bitL
    rw [HV.chunk_get_set _ _ _ _ hc2]
    by_cases h1 : idx / 32 = index / 32
    · rw [if_pos h1, w32_set_bit_testBit _ _ _ hb, h1]
      by_cases h2 : idx % 32 = index % 32
      · have : idx = index := hiff.2 ⟨h1, h2⟩
        simp [this]
      · have : ¬ idx = index := fun h => h2 (hiff.1 h).2
        simp [h2, this]
    · have : ¬ idx = index := fun h => h1 (hiff.1 h).1
      simp [h1, this]

theorem flipAt_other (level : Nat) (st : LevelGenState) (index l : Nat) (hl : l < 5)
    (hne : l ≠ level) :
    lvGet (flipAt level st index).LevelVectors l = lvGet st.LevelVectors l := by
  unfold flipAt
  simp only []
  rw [lvGet_lvSet _ _ _ _ hl, if_neg hne]

theorem flipAt_indexVector (level : Nat) (st : LevelGenState) (index : Nat) :
    (flipAt level st index).indexVector = Function.update st.indexVector index 0 := rfl


/-- One flip keeps the invariant, with the flipped position recorded in `F`. -/
theorem LevelInv_flip (cr level : Nat) (h0 : HV) (st : LevelGenState) (F : Nat → Nat)
    (i index : Nat) (hl1 : 1 ≤ level) (hl5 : level < 5) (hindex : index < 512)
    (hfree : st.indexVector index = 1) (hinv : LevelInv cr level h0 st F i) :
    LevelInv cr level h0 (flipAt level st index) (Function.update F index level) (i + 1) := by
  obtain ⟨hiv, hle, hbits, hcards, hcur⟩ := hinv
  have hF0 : F index = 0 := by
    have := hiv index hindex
    rw [hfree] at this
    by_contra hne
    rw [if_neg hne] at this
    exact absurd this (by decide)
  refine ⟨?_, ?_, ?_, ?_, ?_⟩
  · intro idx hidx
    rw [flipAt_indexVector]
    by_cases h : idx = index
    · subst h
      have : level ≠ 0 := by omega
      simp [this]
    · rw [Function.update_noteq h, Function.update_noteq h]
      exact hiv idx hidx
  · intro idx
    by_cases h : idx = index
    · subst h; simp
    · rw [Function.update_noteq h]; exact hle idx
  · intro l hl idx hidx
    by_cases hll : l = level
    · subst hll
      rw [flipAt_bitL l st index idx hl5 hindex hidx]
      by_cases h : idx = index
      · subst h
        rw [if_pos rfl, hbits (l - 1) (by omega) idx hidx]
        have h1 : ¬ (0 < F idx ∧ F idx ≤ l - 1) := by omega
        have h2 : 0 < l := by omega
        simp [h1, h2]
      · rw [if_neg h, Function.update_noteq h]
        exact hbits l hl idx hidx
    · rw [flipAt_other level st index l (by omega) hll, hbits l hl idx hidx]
      by_cases h : idx = index
      · subst h
        have h1 : ¬ (0 < F idx ∧ F idx ≤ l) := by omega
        have h2 : ¬ (level ≤ l) := by omega
        simp [h1, h2]
      · rw [Function.update_noteq h]
  · intro l h1 h2
    have hset : (Finset.range 512).filter (fun idx => Function.update F index level idx = l)
        = (Finset.range 512).filter (fun idx => F idx = l) := by
      apply Finset.filter_congr
      intro idx _
      by_cases h : idx = index
      · subst h
        rw [Function.update_same]
        omega
      · rw [Function.update_noteq h]
    rw [hset]
    exact hcards l h1 h2
  · intro _
    have hset : (Finset.range 512).filter (fun idx => Function.update F index level idx = level)
        = insert index ((Finset.range 512).filter (fun idx => F idx = level)) := by
      ext idx
      simp only [Finset.mem_filter, Finset.mem_range, Finset.mem_insert]
      by_cases h : idx = index
      · subst h
        simp [hindex]
      · rw [Function.update_noteq h]
        simp [h]
    have hnot : index ∉ (Finset.range 512).filter (fun idx => F idx = level) := by
      simp only [Finset.mem_filter, not_and]
      intro _
      omega
    rw [hset, Finset.card_insert_of_not_mem hnot, hcur hl1]

/-- The `while` loop of one level: when it ends, exactly `cr` positions have been
flipped at this level. -/
theorem flipWhile_inv (cr level : Nat) (h0 : HV) (hl1 : 1 ≤ level) (hl5 : level < 5)
    (rands : List Nat) :
    ∀ (i : Nat) (st : LevelGenState) (F : Nat → Nat) (st1 : LevelGenState) (rs : List Nat),
      LevelInv cr level h0 st F i → i ≤ cr →
      flipWhile level cr rands i st = some (st1, rs) →
      ∃ F1, LevelInv cr level h0 st1 F1 cr := by
  induction rands with
  | nil =>
    intro i st F st1 rs hinv hi hrun
    unfold flipWhile at hrun
    by_cases h : i < cr
    · rw [if_pos h] at hrun
      exact absurd hrun (by simp)
    · rw [if_neg h] at hrun
      have e : i = cr := by omega
      simp only [Option.some.injEq, Prod.mk.injEq] at hrun
      rw [← hrun.1]
      rw [e] at hinv
      exact ⟨F, hinv⟩
  | cons r rands ih =>
    intro i st F st1 rs hinv hi hrun
    unfold flipWhile at hrun
    by_cases h : i < cr
    · rw [if_pos h] at hrun
      simp only [] at hrun
      have hindex : r % HV_SIZE_BIT < 512 := Nat.mod_lt _ (by decide)
      by_cases hf : st.indexVector (r % HV_SIZE_BIT) = 1
      · rw [if_pos hf] at hrun
        exact ih (i + 1) _ _ st1 rs
          (LevelInv_flip cr level h0 st F i _ hl1 hl5 hindex hf hinv) (by omega) hrun
      · rw [if_neg hf] at hrun
        exact ih i st F st1 rs hinv hi hrun
    · rw [if_neg h] at hrun
      have e : i = cr := by omega
      simp only [Option.some.injEq, Prod.mk.injEq] at hrun
      rw [← hrun.1]
      rw [e] at hinv
      exact ⟨F, hinv⟩

/-- Copying the previous level vector starts the next level with no position flipped. -/
theorem LevelInv_copy (cr level : Nat) (h0 : HV) (st : LevelGenState) (F : Nat → Nat)
    (hl1 : 1 ≤ level) (hl5 : level < 5) (hinv : LevelInv cr (level - 1) h0 st F cr) :
    LevelInv cr level h0
      ⟨lvSet st.LevelVectors level (lvGet st.LevelVectors (level - 1)), st.indexVector⟩ F 0 := by
  obtain ⟨hiv, hle, hbits, hcards, hcur⟩ := hinv
  refine ⟨hiv, fun idx => by have := hle idx; omega, ?_, ?_, ?_⟩
  · intro l hl idx hidx
    show (lvGet (lvSet st.LevelVectors level (lvGet st.LevelVectors (level - 1))) l).bitL idx = _
    rw [lvGet_lvSet _ _ _ _ (by omega)]
    by_cases hll : l = level
    · rw [if_pos hll, hbits (level - 1) (le_refl _) idx hidx]
      have := hle idx
      have e : (0 < F idx ∧ F idx ≤ level - 1) ↔ (0 < F idx ∧ F idx ≤ l) := by omega
      simp [e]
    · rw [if_neg hll]
      exact hbits l (by omega) idx hidx
  · intro l h1 h2
    by_cases h : l < level - 1
    · exact hcards l h1 h
    · have e : l = level - 1 := by omega
      rw [e]
      exact hcur (by omega)
  · intro _
    rw [Finset.card_eq_zero, Finset.filter_eq_empty_iff]
    intro idx _
    have := hle idx
    omega

/-- The loop over the levels `s, s + 1, ..., s + n - 1`. -/
theorem levelLoop_inv (cr : Nat) (h0 : HV) (n : Nat) :
    ∀ (s : Nat) (st : LevelGenState) (F : Nat → Nat) (rands : List Nat) (st1 : LevelGenState)
      (rs : List Nat), 1 ≤ s → s + n ≤ 5 → LevelInv cr (s - 1) h0 st F cr →
      levelLoop cr (List.range' s n) st rands = some (st1, rs) →
      ∃ F1, LevelInv cr (s + n - 1) h0 st1 F1 cr := by
  induction n with
  | zero =>
    intro s st F rands st1 rs _ _ hinv hrun
    simp only [List.range'_zero, levelLoop, Option.some.injEq, Prod.mk.injEq] at hrun
    rw [← hrun.1]
    exact ⟨F, hinv⟩
  | succ n ih =>
    intro s st F rands st1 rs hs1 hs5 hinv hrun
    rw [List.range'_succ] at hrun
    unfold levelLoop at hrun
    simp only [] at hrun
    have hcopy := LevelInv_copy cr s h0 st F hs1 (by omega) hinv
    cases hfw : flipWhile s cr rands 0
        ⟨lvSet st.LevelVectors s (lvGet st.LevelVectors (s - 1)), st.indexVector⟩ with
    | none =>
      rw [hfw] at hrun
      exact absurd hrun (by simp)
    | some res =>
      obtain ⟨st2, rands2⟩ := res
      rw [hfw] at hrun
      simp only [] at hrun
      obtain ⟨F2, hinv2⟩ := flipWhile_inv cr s h0 hs1 (by omega) rands 0 _ F st2 rands2 hcopy
        (Nat.zero_le _) hfw
      have h := ih (s + 1) st2 F2 rands2 st1 rs (by omega) (by omega) (by simpa using hinv2) hrun
      have e : s + 1 + n - 1 = s + (n + 1) - 1 := by omega
      rw [e] at h
      exact h


theorem card_between (F : Nat → Nat) (cr M a : Nat)
    (hc : ∀ l, 1 ≤ l → l ≤ M → ((Finset.range 512).filter (fun idx => F idx = l)).card = cr)
    (b : Nat) (hab : a ≤ b) (hb : b ≤ M) :
    ((Finset.range 512).filter (fun idx => a < F idx ∧ F idx ≤ b)).card = (b - a) * cr := by
  induction b with
  | zero =>
    have : a = 0 := by omega
    subst this
    rw [Nat.sub_self, Nat.zero_mul, Finset.card_eq_zero, Finset.filter_eq_empty_iff]
    intro idx _
    omega
  | succ b ih =>
    by_cases h : a = b + 1
    · subst h
      rw [Nat.sub_self, Nat.zero_mul, Finset.card_eq_zero, Finset.filter_eq_empty_iff]
      intro idx _
      omega
    · have hset : (Finset.range 512).filter (fun idx => a < F idx ∧ F idx ≤ b + 1)
          = (Finset.range 512).filter (fun idx => a < F idx ∧ F idx ≤ b)
            ∪ (Finset.range 512).filter (fun idx => F idx = b + 1) := by
        rw [← Finset.filter_or]
        apply Finset.filter_congr
        intro idx _
        omega
      have hdisj : Disjoint ((Finset.range 512).filter (fun idx => a < F idx ∧ F idx ≤ b))
          ((Finset.range 512).filter (fun idx => F idx = b + 1)) := by
        rw [Finset.disjoint_filter]
        intro idx _ h1 h2
        omega
      rw [hset, Finset.card_union_of_disjoint hdisj, ih (by omega) (by omega),
        hc (b + 1) (by omega) hb]
      have e : b + 1 - a = (b - a) + 1 := by omega
      rw [e, Nat.add_mul, Nat.one_mul]

/-- Number of differing positions, counted in the numbering of `generate_LevelVectors`,
between two completed levels. -/
theorem LevelInv_card (cr M : Nat) (h0 : HV) (st : LevelGenState) (F : Nat → Nat)
    (hinv : LevelInv cr M h0 st F cr) (a b : Nat) (hab : a ≤ b) (hb : b ≤ M) :
    ((Finset.range 512).filter
      (fun idx => (lvGet st.LevelVectors a).bitL idx ≠ (lvGet st.LevelVectors b).bitL idx)).card
      = (b - a) * cr := by
  obtain ⟨_, hle, hbits, hcards, hcur⟩ := hinv
  have hc : ∀ l, 1 ≤ l → l ≤ M →
      ((Finset.range 512).filter (fun idx => F idx = l)).card = cr := by
    intro l h1 h2
    by_cases h : l < M
    · exact hcards l h1 h
    · have e : l = M := by omega
      rw [e]
      exact hcur (by omega)
  rw [← card_between F cr M a hc b hab hb]
  apply congrArg Finset.card
  apply Finset.filter_congr
  intro idx hidx
  have hidx1 : idx < 512 := Finset.mem_range.1 hidx
  rw [hbits a (by omega) idx hidx1, hbits b hb idx hidx1]
  by_cases h1 : 0 < F idx ∧ F idx ≤ a
  · have h2 : 0 < F idx ∧ F idx ≤ b := by omega
    have h3 : ¬ (a < F idx ∧ F idx ≤ b) := by omega
    cases h0.bitL idx <;> simp [h1, h2, h3]
  · by_cases h2 : 0 < F idx ∧ F idx ≤ b
    · have h3 : a < F idx ∧ F idx ≤ b := by omega
      cases h0.bitL idx <;> simp [h1, h2, h3]
    · have h3 : ¬ (a < F idx ∧ F idx ≤ b) := by omega
      cases h0.bitL idx <;> simp [h1, h2, h3]

theorem bit_eq_bitL (h : HV) (p : Nat) : h.bit p = h.bitL (32 * (p / 32) + (31 - p % 32)) := by
  unfold HV.bit HV.bitL
  have e1 : (32 * (p / 32) + (31 - p % 32)) / 32 = p / 32 := by omega
  have e2 : (32 * (p / 32) + (31 - p % 32)) % 32 = 31 - p % 32 := by omega
  rw [e1, e2]

/-- The number of differing positions does not depend on the order in which the bits
of a word are numbered. -/
theorem hammingDistance_eq_card (a b : HV) :
    hammingDistance a b
      = ((Finset.range 512).filter (fun idx => a.bitL idx ≠ b.bitL idx)).card := by
  have h1 : hammingDistance a b
      = ((Finset.range 512).filter (fun p => a.bit p ≠ b.bit p)).card := by
    unfold hammingDistance
    rw [Finset.card_def, Finset.filter_val, Finset.range_val, Multiset.range,
      Multiset.filter_coe, Multiset.coe_card]
    apply congrArg List.length
    apply List.filter_congr
    intro p _
    cases a.bit p <;> cases b.bit p <;> simp
  rw [h1]
  apply Finset.card_bij (fun p _ => 32 * (p / 32) + (31 - p % 32))
  · intro p hp
    rw [Finset.mem_filter, Finset.mem_range] at hp ⊢
    refine ⟨by omega, ?_⟩
    rw [← bit_eq_bitL, ← bit_eq_bitL]
    exact hp.2
  · intro p1 _ p2 _ h
    omega
  · intro q hq
    rw [Finset.mem_filter, Finset.mem_range] at hq
    refine ⟨32 * (q / 32) + (31 - q % 32), ?_, by omega⟩
    rw [Finset.mem_filter, Finset.mem_range]
    refine ⟨by omega, ?_⟩
    rw [bit_eq_bitL, bit_eq_bitL]
    have e : 32 * ((32 * (q / 32) + (31 - q % 32)) / 32)
        + (31 - (32 * (q / 32) + (31 - q % 32)) % 32) = q := by omega
    rw [e]
    exact hq.2

theorem hammingDistance_comm (a b : HV) : hammingDistance a b = hammingDistance b a := by
  rw [hammingDistance_eq_card, hammingDistance_eq_card]
  apply congrArg Finset.card
  apply Finset.filter_congr
  intro idx _
  exact ne_comm

/-- Distances between the generated level vectors, for ordered indices. -/
theorem levelVectors_distance_le (hdc : HDC_op) (LV0 : Fin 5 → HV) (rands : List Nat)
    (LV : Fin 5 → HV) (h2 : 2 ≤ hdc.num_levels) (h5 : hdc.num_levels ≤ 5)
    (hgen : generate_LevelVectors hdc LV0 rands = some LV) (a b : Fin 5) (hab : a.val ≤ b.val)
    (hb : b.val < hdc.num_levels) :
    hammingDistance (LV a) (LV b) = (b.val - a.val) * (512 / (2 * hdc.num_levels)) := by
  unfold generate_LevelVectors at hgen
  cases hr : (LV0 0).randomize rands with
  | none =>
    rw [hr] at hgen
    exact absurd hgen (by simp)
  | some res =>
    obtain ⟨h0, rands1⟩ := res
    rw [hr] at hgen
    simp only [] at hgen
    cases hl : levelLoop (HV_SIZE_BIT / (2 * hdc.num_levels))
        (List.range' 1 (hdc.num_levels - 1)) ⟨lvSet LV0 0 h0, fun _ => 1⟩ rands1 with
    | none =>
      rw [hl] at hgen
      exact absurd hgen (by simp)
    | some res2 =>
      obtain ⟨st, rs⟩ := res2
      rw [hl] at hgen
      simp only [Option.some.injEq] at hgen
      have hstart : LevelInv (HV_SIZE_BIT / (2 * hdc.num_levels)) (1 - 1) h0
          ⟨lvSet LV0 0 h0, fun _ => 1⟩ (fun _ => 0) (HV_SIZE_BIT / (2 * hdc.num_levels)) := by
        refine ⟨fun _ _ => by simp, fun _ => by simp, ?_, ?_, ?_⟩
        · intro l hl0 idx _
          have e : l = 0 := by omega
          subst e
          rw [lvGet_lvSet _ _ _ _ (by decide)]
          simp
        · intro l h1 h2
          omega
        · intro h
          omega
      obtain ⟨F, hinv⟩ := levelLoop_inv (HV_SIZE_BIT / (2 * hdc.num_levels)) h0
        (hdc.num_levels - 1) 1 _ _ rands1 st rs (le_refl _) (by omega) hstart hl
      have hcard := LevelInv_card _ _ h0 st F hinv a.val b.val hab (by omega)
      rw [hgen, lvGet_fin, lvGet_fin] at hcard
      rw [hammingDistance_eq_card, hcard]


/-- Claim C18: for an `HDC_op` with `num_levels = L`, `2 <= L <= HD_LV_LEN`, and every list
of `rand()` outputs on which `generate_LevelVectors` terminates (returns the filled
array), any two level vectors `i, j < L` differ in exactly `|i - j| * (512 / (2 * L))` bit
positions (`Nat.dist i j` is `|i - j|`); hence the distance grows with `|i - j|`, which
is possible only because no position is flipped twice in the whole run. -/
theorem generate_LevelVectors_distance (hdc : HDC_op) (LV0 : Fin 5 → HV) (rands : List Nat)
    (LV : Fin 5 → HV) (h2 : 2 ≤ hdc.num_levels) (h5 : hdc.num_levels ≤ 5)
    (hgen : generate_LevelVectors hdc LV0 rands = some LV) (i j : Fin 5)
    (hi : i.val < hdc.num_levels) (hj : j.val < hdc.num_levels) :
    hammingDistance (LV i) (LV j) = Nat.dist i.val j.val * (512 / (2 * hdc.num_levels)) := by
  by_cases hij : i.val ≤ j.val
  · rw [levelVectors_distance_le hdc LV0 rands LV h2 h5 hgen i j hij hj]
    have e : Nat.dist i.val j.val = j.val - i.val := by
      unfold Nat.dist
      omega
    rw [e]
  · rw [hammingDistance_comm, levelVectors_distance_le hdc LV0 rands LV h2 h5 hgen j i
      (by omega) hi]
    have e : Nat.dist i.val j.val = i.val - j.val := by
      unfold Nat.dist
      omega
    rw [e]

set_option maxRecDepth 1000000 in
theorem sampleRands_terminates :
    (generate_LevelVectors hdc512 (fun _ => HV.zero) sampleRands).isSome = true := by
  decide

/-- Witness for claim C18: on `sampleRands` the generation for five levels terminates,
and level vectors 1 and 4 differ in `3 * 51 = 153` positions. -/
theorem generate_LevelVectors_distance_witness :
    (generate_LevelVectors hdc512 (fun _ => HV.zero) sampleRands).map
        (fun LV => hammingDistance (LV 1) (LV 4))
      = some (Nat.dist 1 4 * (512 / (2 * hdc512.num_levels))) := by
  obtain ⟨LV, hLV⟩ := Option.isSome_iff_exists.1 sampleRands_terminates
  rw [hLV, Option.map_some']
  exact congrArg some
    (generate_LevelVectors_distance hdc512 (fun _ => HV.zero) sampleRands LV (by decide)
      (by decide) hLV 1 4 (by decide) (by decide))

set_option maxRecDepth 1000000 in
/-- Claim C11 (evaluation at the failing input): for the vector whose only set bit is at
position 31 (the least significant bit of chunk 0) and `s = 1`,
`permutation(permutation(A, 1), 511)` has bit 31 clear (its only set bit is at position
63), so it is not `A`. -/
theorem permutation_not_inverse :
    lowOneHV.bit 31 = true ∧
    (permutation (permutation lowOneHV 1) ((512 - 1) % 512)).bit 31 = false ∧
    (permutation (permutation lowOneHV 1) ((512 - 1) % 512)).bit 63 = true ∧
    permutation (permutation lowOneHV 1) ((512 - 1) % 512) ≠ lowOneHV := by
  refine ⟨by decide, by decide, by decide, ?_⟩
  intro h
  have h1 : (permutation (permutation lowOneHV 1) ((512 - 1) % 512)).bit 31 = false := by decide
  rw [h] at h1
  exact absurd h1 (by decide)

/-! ### Algebra of `similarity` -/

theorem similarity_comm_aux (hdc : HDC_op) (A B : HV) :
    similarity hdc A B = similarity hdc B A := by
  rw [similarity_eq_sum, similarity_eq_sum]
  exact Finset.sum_congr rfl (fun i _ => by rw [wordCount_comm])

theorem countLoop_zero : countLoop 0 = 0 := rfl

theorem wordCount_self (A : HV) (i : Nat) : wordCount A A i = 0 := by
  unfold wordCount
  rw [Nat.xor_self]
  rfl

theorem similarity_self_aux (hdc : HDC_op) (A : HV) : similarity hdc A A = 0 := by
  rw [similarity_eq_sum]
  apply Finset.sum_eq_zero
  intro i _
  rw [wordCount_self]
  rfl

theorem complement_get (A : HV) (i : Nat) (hi : i < 16) :
    (A.complement).get i = w32 ((A.get i).val ^^^ 4294967295) := by
  simp [HV.complement, HV.get, hi]

theorem wordCount_complement (A : HV) (i : Nat) (hi : i < 16) :
    wordCount A A.complement i = 64 := by
  unfold wordCount
  rw [complement_get A i hi]
  have h1 : (w32 ((A.get i).val ^^^ 4294967295)).val = (A.get i).val ^^^ 4294967295 :=
    w32_val_of_lt _ (xor_lt_word (A.get i) (4294967295 : Word32))
  rw [h1, ← Nat.xor_assoc, Nat.xor_self, Nat.zero_xor]
  decide

theorem similarity_complement_aux (A : HV) : similarity hdc512 A A.complement = 1024 := by
  rw [similarity_eq_sum]
  have e : hdc512.HV_SIZE / 32 = 16 := by decide
  rw [e, Finset.sum_congr rfl (fun i hi => by
    rw [wordCount_complement A i (Finset.mem_range.1 hi)])]
  simp

/-- Claim C21 (what the code computes instead): for an `HDC_op` of dimensionality 512
and every hypervector `A`, `similarity(A, complement(A))` is 1024, not 512: every XOR
word is `0xFFFFFFFF`, which is sign-extended to 64 one-bits before its bits are
counted. -/
theorem similarity_complement (A : HV) :
    similarity hdc512 A A.complement = 1024 ∧ similarity hdc512 A A.complement ≠ 512 := by
  rw [similarity_complement_aux]
  exact ⟨rfl, by decide⟩

/-- Claim C22: for all hypervectors `A` and `B` (and every `HDC_op`),
`similarity(A, B) == similarity(B, A)`. -/
theorem similarity_comm (hdc : HDC_op) (A B : HV) :
    similarity hdc A B = similarity hdc B A :=
  similarity_comm_aux hdc A B

/-- Claim C23: for every hypervector `A` (and every `HDC_op`), `similarity(A, A) == 0`. -/
theorem similarity_self (hdc : HDC_op) (A : HV) : similarity hdc A A = 0 :=
  similarity_self_aux hdc A

theorem permutation_of_tmod_zero (A : HV) (shift : Int) (h : Int.tmod shift 512 = 0) :
    permutation A shift = A := by
  unfold permutation
  exact if_pos h

/-- Claim C24: for every hypervector `A`, `permutation(A, 0) == A` and
`permutation(A, 512) == A`. -/
theorem permutation_zero_and_full (A : HV) :
    permutation A 0 = A ∧ permutation A 512 = A :=
  ⟨permutation_of_tmod_zero A 0 (by decide), permutation_of_tmod_zero A 512 (by decide)⟩

/-- Claim C28 (as amended): the constructor of `HDC_op` never fails and checks nothing:
for all arguments it yields the object that holds `dimensionality`, `levels` and
`features` unchanged. -/
theorem HDC_op_new_total (dimensionality features levels : Nat) :
    (HDC_op.new dimensionality features levels).HV_SIZE = dimensionality ∧
    (HDC_op.new dimensionality features levels).num_levels = levels ∧
    (HDC_op.new dimensionality features levels).num_features = features :=
  ⟨rfl, rfl, rfl⟩

set_option maxRecDepth 1000000 in
/-- Claim C28 (counterexample to the claim as stated): dimensionality 33 (not a multiple
of 32), 0 features and 1 level yield an object, and the object is usable: `similarity`
runs on it (over `33 / 32 = 1` word). -/
theorem HDC_op_new_malformed :
    (HDC_op.new 33 0 1).HV_SIZE = 33 ∧ (HDC_op.new 33 0 1).num_features = 0 ∧
    (HDC_op.new 33 0 1).num_levels = 1 ∧
    similarity (HDC_op.new 33 0 1) lowOneHV HV.zero = 1 := by
  decide

/-- Claim C29: for every `class_label`, `training` leaves `ClassVectors[k]` unchanged for
every `k != class_label`, and leaves `BaseVectors`, `LevelVectors` and
`quantized_features` unchanged. -/
theorem training_frame (m : TrainMemory) (class_label : Fin 5) :
    (∀ k : Fin 5, k ≠ class_label →
      (trainingMemory m class_label).ClassVectors k = m.ClassVectors k) ∧
    (trainingMemory m class_label).BaseVectors = m.BaseVectors ∧
    (trainingMemory m class_label).LevelVectors = m.LevelVectors ∧
    (trainingMemory m class_label).quantized_features = m.quantized_features := by
  refine ⟨?_, rfl, rfl, rfl⟩
  intro k hk
  unfold trainingMemory training
  simp [Function.update_noteq hk]


/-! ### Words and lanes -/

/-- A 32-bit word is the sum of its eight 4-bit lanes at their positions. -/
theorem word_eq_lanes (w : Word32) :
    w.val = (w.val >>> 28 &&& 15) * 2 ^ 28 + (w.val >>> 24 &&& 15) * 2 ^ 24
      + (w.val >>> 20 &&& 15) * 2 ^ 20 + (w.val >>> 16 &&& 15) * 2 ^ 16
      + (w.val >>> 12 &&& 15) * 2 ^ 12 + (w.val >>> 8 &&& 15) * 2 ^ 8
      + (w.val >>> 4 &&& 15) * 2 ^ 4 + (w.val >>> 0 &&& 15) * 2 ^ 0 := by
  have h := w.isLt
  simp only [and_15, Nat.shiftRight_eq_div_pow]
  norm_num
  omega

theorem lane_eq (C : BundledHV) (k m : Nat) (hm : m < 8) :
    (C.get k).val >>> (28 - 4 * m) &&& 15 = C.lane (8 * k + m) :=
  (lane_of_word C k m (8 * k + m) rfl hm).symm

/-- Two bundled hypervectors with the same 512 lanes are equal word for word. -/
theorem BundledHV.ext_lane {a b : BundledHV} (h : ∀ p, p < 512 → a.lane p = b.lane p) :
    a = b := by
  apply BundledHV.ext
  funext k
  apply Fin.ext
  have hk := k.isLt
  have ha : a.bundled_chunk k = a.get k.val := by simp [BundledHV.get, hk]
  have hb : b.bundled_chunk k = b.get k.val := by simp [BundledHV.get, hk]
  rw [ha, hb, word_eq_lanes (a.get k.val), word_eq_lanes (b.get k.val)]
  have e0 := lane_eq a k.val 0 (by decide)
  have e1 := lane_eq a k.val 1 (by decide)
  have e2 := lane_eq a k.val 2 (by decide)
  have e3 := lane_eq a k.val 3 (by decide)
  have e4 := lane_eq a k.val 4 (by decide)
  have e5 := lane_eq a k.val 5 (by decide)
  have e6 := lane_eq a k.val 6 (by decide)
  have e7 := lane_eq a k.val 7 (by decide)
  have f0 := lane_eq b k.val 0 (by decide)
  have f1 := lane_eq b k.val 1 (by decide)
  have f2 := lane_eq b k.val 2 (by decide)
  have f3 := lane_eq b k.val 3 (by decide)
  have f4 := lane_eq b k.val 4 (by decide)
  have f5 := lane_eq b k.val 5 (by decide)
  have f6 := lane_eq b k.val 6 (by decide)
  have f7 := lane_eq b k.val 7 (by decide)
  simp only [Nat.mul_zero, Nat.mul_one, Nat.sub_zero, Nat.reduceMul, Nat.reduceSub] at e0 e1 e2 e3 e4 e5 e6 e7 f0 f1 f2 f3 f4 f5 f6 f7
  rw [e0, e1, e2, e3, e4, e5, e6, e7, f0, f1, f2, f3, f4, f5, f6, f7,
    h _ (by omega), h _ (by omega), h _ (by omega), h _ (by omega), h _ (by omega),
    h _ (by omega), h _ (by omega), h _ (by omega)]

theorem bundle_lane_nat (C : BundledHV) (h : HV) (p : Nat) (hp : p < 512) :
    (bundle C h).lane p = (C.lane p + (h.bit p).toNat) % 16 :=
  bundle_lane_aux C h ⟨p, hp⟩

/-- Claim C25: for every bundled hypervector `C` and all hypervectors `h1`, `h2`,
`bundle(bundle(C, h1), h2) == bundle(bundle(C, h2), h1)`, word for word. -/
theorem bundle_bundle_comm (C : BundledHV) (h1 h2 : HV) :
    bundle (bundle C h1) h2 = bundle (bundle C h2) h1 := by
  apply BundledHV.ext_lane
  intro p hp
  rw [bundle_lane_nat _ _ p hp, bundle_lane_nat _ _ p hp, bundle_lane_nat _ _ p hp,
    bundle_lane_nat _ _ p hp]
  omega

theorem bundleTimes_lane (n : Nat) (C : BundledHV) (h : HV) (p : Nat) (hp : p < 512) :
    (bundleTimes n C h).lane p = (C.lane p + n * (h.bit p).toNat) % 16 := by
  induction n with
  | zero =>
    have : C.lane p < 16 := by
      unfold BundledHV.lane
      rw [and_15]
      exact Nat.mod_lt _ (by decide)
    show C.lane p = _
    omega
  | succ n ih =>
    show (bundle (bundleTimes n C h) h).lane p = _
    rw [bundle_lane_nat _ _ p hp, ih, Nat.succ_mul]
    omega

theorem onesHV_bit (p : Nat) (hp : p < 512) : onesHV.bit p = true := by
  unfold HV.bit HV.get onesHV
  have h1 : p / 32 < 16 := by omega
  simp only [h1, dite_true]
  have h2 : 31 - p % 32 < 32 := by omega
  show (4294967295 : Nat).testBit (31 - p % 32) = true
  have e : (4294967295 : Nat) = 2 ^ 32 - 1 := by norm_num
  rw [e, Nat.testBit_two_pow_sub_one]
  simp [h2]

theorem const_lane_one (p : Nat) (hp : p < 512) :
    (⟨fun _ => 286331153⟩ : BundledHV).lane p = 1 := by
  unfold BundledHV.lane BundledHV.get
  have hm : p % 8 < 8 := by omega
  split
  · show ((286331153 : Nat) >>> (28 - 4 * (p % 8))) &&& 15 = 1
    generalize p % 8 = m at hm
    interval_cases m <;> decide
  · rename_i h
    exfalso
    omega


/-- Claim C26: bundling the all-ones hypervector 17 times in succession into the zero
bundled hypervector gives lane value 1 in each of the 512 lanes, that is, every
`bundled_chunk` is `0x11111111`: the counters wrap modulo 16. -/
theorem bundle_seventeen_ones :
    (∀ p : Fin 512, (bundleTimes 17 BundledHV.zero onesHV).lane p.val = 1) ∧
    bundleTimes 17 BundledHV.zero onesHV = ⟨fun _ => 286331153⟩ := by
  have hl : ∀ p, p < 512 → (bundleTimes 17 BundledHV.zero onesHV).lane p = 1 := by
    intro p hp
    rw [bundleTimes_lane 17 _ _ p hp, zero_lane, onesHV_bit p hp]
    rfl
  refine ⟨fun p => hl p.val p.isLt, ?_⟩
  apply BundledHV.ext_lane
  intro p hp
  rw [hl p hp, const_lane_one p hp]


/-! ### `BundledHV::operator=(const HV&)` -/

theorem testBit_15 (i : Nat) : (15 : Nat).testBit i = decide (i < 4) := by
  have e : (15 : Nat) = 2 ^ 4 - 1 := by norm_num
  rw [e, Nat.testBit_two_pow_sub_one]

theorem testBit_1 (i : Nat) : (1 : Nat).testBit i = decide (i = 0) := by
  have e : (1 : Nat) = 2 ^ 0 := by norm_num
  rw [e, Nat.testBit_two_pow]
  by_cases h : i = 0
  · simp [h]
  · have : ¬ (0 = i) := fun h1 => h h1.symm
    simp [h, this]

theorem w32_clear_lane_testBit (x : Word32) (j i : Nat) :
    (w32 (x.val &&& ((15 <<< j) ^^^ 4294967295))).val.testBit i
      = (x.val.testBit i && !(decide (j ≤ i) && decide (i - j < 4))) := by
  have hlt : x.val &&& ((15 <<< j) ^^^ 4294967295) < 4294967296 :=
    lt_of_le_of_lt Nat.and_le_left x.isLt
  have e : (4294967295 : Nat) = 2 ^ 32 - 1 := by norm_num
  rw [w32_val_of_lt _ hlt, Nat.testBit_and, Nat.testBit_xor, Nat.testBit_shiftLeft, testBit_15, e,
    Nat.testBit_two_pow_sub_one]
  by_cases hi : i < 32
  · by_cases h1 : j ≤ i
    · by_cases h2 : i - j < 4
      · simp [hi, h1, h2]
      · simp [hi, h1, h2]
    · simp [hi, h1]
  · rw [word_testBit x i (by omega)]
    simp

/-- Setting bit 0 of lane `m` of a word leaves the other lanes as they are. -/
theorem lane_or_one (x : Word32) (m m1 : Nat) (hm : m < 8) (hm1 : m1 < 8) :
    ((w32 (x.val ||| (1 <<< (28 - 4 * m)))).val >>> (28 - 4 * m1)) &&& 15
      = if m1 = m then ((x.val >>> (28 - 4 * m1)) &&& 15) ||| 1
        else (x.val >>> (28 - 4 * m1)) &&& 15 := by
  apply Nat.eq_of_testBit_eq
  intro i
  rw [Nat.testBit_and, Nat.testBit_shiftRight, w32_set_bit_testBit _ _ _ (by omega), testBit_15]
  by_cases h4 : i < 4
  · by_cases hmm : m1 = m
    · subst hmm
      rw [if_pos rfl, Nat.testBit_or, Nat.testBit_and, Nat.testBit_shiftRight, testBit_15,
        testBit_1]
      by_cases h0 : i = 0
      · subst h0
        simp
      · have : ¬ (28 - 4 * m1 + i = 28 - 4 * m1) := by omega
        simp [h4, h0, this]
    · rw [if_neg hmm, Nat.testBit_and, Nat.testBit_shiftRight, testBit_15]
      have : ¬ (28 - 4 * m1 + i = 28 - 4 * m) := by omega
      simp [h4, this]
  · by_cases hmm : m1 = m
    · subst hmm
      rw [if_pos rfl, Nat.testBit_or, Nat.testBit_and, testBit_15, testBit_1]
      have : ¬ i = 0 := by omega
      simp [h4, this]
    · rw [if_neg hmm, Nat.testBit_and, testBit_15]
      simp [h4]

/-- Clearing lane `m` of a word leaves the other lanes as they are. -/
theorem lane_clear (x : Word32) (m m1 : Nat) (hm : m < 8) (hm1 : m1 < 8) :
    ((w32 (x.val &&& ((15 <<< (28 - 4 * m)) ^^^ 4294967295))).val >>> (28 - 4 * m1)) &&& 15
      = if m1 = m then 0 else (x.val >>> (28 - 4 * m1)) &&& 15 := by
  apply Nat.eq_of_testBit_eq
  intro i
  rw [Nat.testBit_and, Nat.testBit_shiftRight, w32_clear_lane_testBit, testBit_15]
  by_cases h4 : i < 4
  · by_cases hmm : m1 = m
    · subst hmm
      rw [if_pos rfl, Nat.zero_testBit]
      have h1 : 28 - 4 * m1 ≤ 28 - 4 * m1 + i := by omega
      have h2 : 28 - 4 * m1 + i - (28 - 4 * m1) < 4 := by omega
      simp [h1, h2]
    · rw [if_neg hmm, Nat.testBit_and, Nat.testBit_shiftRight, testBit_15]
      have h1 : ¬ (28 - 4 * m ≤ 28 - 4 * m1 + i ∧ 28 - 4 * m1 + i - (28 - 4 * m) < 4) := by omega
      by_cases ha : 28 - 4 * m ≤ 28 - 4 * m1 + i
      · have hb : ¬ (28 - 4 * m1 + i - (28 - 4 * m) < 4) := fun h => h1 ⟨ha, h⟩
        simp [h4, ha, hb]
      · simp [h4, ha]
  · by_cases hmm : m1 = m
    · rw [if_pos hmm, Nat.zero_testBit]
      simp [h4]
    · rw [if_neg hmm, Nat.testBit_and, testBit_15]
      simp [h4]


theorem shift_and_one_ne_zero (x bit : Nat) : (x >>> bit) &&& 1 ≠ 0 ↔ x.testBit bit = true := by
  rw [and_1, Nat.shiftRight_eq_div_pow, Nat.testBit_to_div_mod]
  have := Nat.mod_two_eq_zero_or_one (x / 2 ^ bit)
  simp only [decide_eq_true_eq]
  omega

theorem assignBit_chunk (c : Word32) (s : AssignState) (bit : Nat) :
    (assignBit c s bit).bundled_chunk
      = if ((c.val >>> bit) &&& 1) ≠ 0 then
          s.bundled_chunk.set s.bundled_index
            (w32 ((s.bundled_chunk.get s.bundled_index).val ||| (0x1 <<< s.bit_position.toNat)))
        else
          s.bundled_chunk.set s.bundled_index
            (w32 ((s.bundled_chunk.get s.bundled_index).val &&&
              ((0xF <<< s.bit_position.toNat) ^^^ 4294967295))) := by
  unfold assignBit
  simp only []
  split <;> rfl

theorem assignBit_index (c : Word32) (s : AssignState) (bit : Nat) :
    (assignBit c s bit).bundled_index
        = (if s.bit_position - 4 < 0 then s.bundled_index + 1 else s.bundled_index) ∧
    (assignBit c s bit).bit_position
        = (if s.bit_position - 4 < 0 then 28 else s.bit_position - 4) := by
  unfold assignBit
  simp only []
  split <;> exact ⟨rfl, rfl⟩

/-- One bit of the assignment keeps the invariant. -/
theorem AssignInv_step (b : BundledHV) (h : HV) (P i bit : Nat) (s : AssignState)
    (hP : P = 32 * i + (31 - bit)) (hbit : bit ≤ 31) (hi : i < 16)
    (hinv : AssignInv b h P s) : AssignInv b h (P + 1) (assignBit (h.get i) s bit) := by
  obtain ⟨hidx, hpos, hl⟩ := hinv
  have hP512 : P < 512 := by omega
  have hbitP : h.bit P = (h.get i).val.testBit bit := by
    unfold HV.bit
    have e1 : P / 32 = i := by omega
    have e2 : 31 - P % 32 = bit := by omega
    rw [e1, e2]
  have hposn : s.bit_position.toNat = 28 - 4 * (P % 8) := by omega
  obtain ⟨hi1, hp1⟩ := assignBit_index (h.get i) s bit
  refine ⟨?_, ?_, ?_⟩
  · rw [hi1, hidx]
    split <;> omega
  · rw [hp1]
    split <;> omega
  · intro q hq
    have hq8 : q / 8 < 64 := by omega
    have hqm : q % 8 < 8 := by omega
    have hPm : P % 8 < 8 := by omega
    have hold := hl q hq
    rw [assignBit_chunk, hidx, hposn]
    by_cases hc : ((h.get i).val >>> bit) &&& 1 ≠ 0
    · have hb : h.bit P = true := by rw [hbitP]; exact (shift_and_one_ne_zero _ _).1 hc
      rw [if_pos hc]
      show (((s.bundled_chunk.set (P / 8) _).get (q / 8)).val >>> (28 - 4 * (q % 8))) &&& 15 = _
      rw [BundledHV.bundled_get_set _ _ _ _ hq8]
      by_cases hw : q / 8 = P / 8
      · rw [if_pos hw, lane_or_one _ _ _ hPm hqm]
        have hlane : (s.bundled_chunk.get (P / 8)).val >>> (28 - 4 * (q % 8)) &&& 15
            = s.bundled_chunk.lane q := by
          unfold BundledHV.lane
          rw [hw]
        rw [hlane, hold]
        by_cases hq1 : q % 8 = P % 8
        · have hqP : q = P := by omega
          subst hqP
          have h1 : ¬ q < q := lt_irrefl _
          have h2 : q < q + 1 := by omega
          simp [h1, h2, hb]
        · have hqP : q ≠ P := fun e => hq1 (by rw [e])
          have e : q < P + 1 ↔ q < P := by omega
          simp [hq1, e]
      · rw [if_neg hw]
        have hqP : q ≠ P := fun e => hw (by rw [e])
        have e : q < P + 1 ↔ q < P := by omega
        show s.bundled_chunk.lane q = _
        rw [hold]
        simp [e]
    · have hb : h.bit P = false := by
        rw [hbitP]
        have := (shift_and_one_ne_zero (h.get i).val bit).not.1 hc
        simpa using this
      rw [if_neg hc]
      show (((s.bundled_chunk.set (P / 8) _).get (q / 8)).val >>> (28 - 4 * (q % 8))) &&& 15 = _
      rw [BundledHV.bundled_get_set _ _ _ _ hq8]
      by_cases hw : q / 8 = P / 8
      · rw [if_pos hw, lane_clear _ _ _ hPm hqm]
        have hlane : (s.bundled_chunk.get (P / 8)).val >>> (28 - 4 * (q % 8)) &&& 15
            = s.bundled_chunk.lane q := by
          unfold BundledHV.lane
          rw [hw]
        rw [hlane, hold]
        by_cases hq1 : q % 8 = P % 8
        · have hqP : q = P := by omega
          subst hqP
          have h2 : q < q + 1 := by omega
          simp [h2, hb]
        · have hqP : q ≠ P := fun e => hq1 (by rw [e])
          have e : q < P + 1 ↔ q < P := by omega
          simp [hq1, e]
      · rw [if_neg hw]
        have hqP : q ≠ P := fun e => hw (by rw [e])
        have e : q < P + 1 ↔ q < P := by omega
        show s.bundled_chunk.lane q = _
        rw [hold]
        simp [e]

theorem AssignInv_chunk (b : BundledHV) (h : HV) (i : Nat) (hi : i < 16) (n : Nat) :
    ∀ (s : AssignState) (P : Nat), n ≤ 32 → P + n = 32 * i + 32 → AssignInv b h P s →
      AssignInv b h (32 * i + 32) ((List.range n).reverse.foldl (assignBit (h.get i)) s) := by
  induction n with
  | zero =>
    intro s P _ hP hinv
    have e : P = 32 * i + 32 := by omega
    rw [← e]
    exact hinv
  | succ n ih =>
    intro s P hn hP hinv
    rw [List.range_succ, List.reverse_append, List.reverse_singleton, List.singleton_append,
      List.foldl_cons]
    exact ih _ (P + 1) (by omega) (by omega)
      (AssignInv_step b h P i n s (by omega) (by omega) hi hinv)

theorem AssignInv_all (b : BundledHV) (h : HV) (m : Nat) (hm : m ≤ 16) :
    AssignInv b h (32 * m) ((List.range m).foldl (assignChunk h) ⟨0, 28, b⟩) := by
  induction m with
  | zero =>
    refine ⟨rfl, rfl, ?_⟩
    intro q _
    simp
  | succ m ih =>
    rw [List.range_succ, List.foldl_append, List.foldl_cons, List.foldl_nil]
    have h1 := AssignInv_chunk b h m (by omega) 32 _ (32 * m) (le_refl _) (by omega)
      (ih (by omega))
    have e : 32 * (m + 1) = 32 * m + 32 := by omega
    rw [e]
    exact h1

/-- Lane form of the assignment `b = h`: a lane whose bit is clear becomes 0, a lane
whose bit is set keeps its previous content with bit 0 set in addition. -/
theorem assign_lane (b : BundledHV) (h : HV) (p : Nat) (hp : p < 512) :
    (b.assign h).lane p = if h.bit p = true then b.lane p ||| 1 else 0 := by
  have := (AssignInv_all b h 16 (le_refl _)).2.2 p hp
  have e : p < 32 * 16 := by omega
  rw [if_pos e] at this
  exact this

theorem assign_zero_lane (h : HV) (p : Nat) (hp : p < 512) :
    (BundledHV.zero.assign h).lane p = (h.bit p).toNat := by
  rw [assign_lane _ _ p hp, zero_lane]
  cases h.bit p <;> simp

/-- Claim C27 (evaluation at the failing input): when every lane of `b` holds 15 and `h`
is the all-ones hypervector, lane 0 of `b` after `b = h` is still 15, although bit 0 of
`h` widened to a lane is 1. -/
theorem assign_keeps_old_lane :
    onesHV.bit 0 = true ∧ (fullBundledHV.assign onesHV).lane 0 = 15 := by
  refine ⟨by decide, ?_⟩
  rw [assign_lane _ _ 0 (by decide)]
  decide


/-! ### `permutation` against the test reference -/

theorem copy_loop (A : HV) : (List.range 16).foldl (fun (t : HV) i => t.set i (A.get i)) HV.zero = A := by
  apply HV.ext_get
  intro j hj
  rw [foldl_set_get (fun i => A.get i) HV.zero 16 j hj]
  simp [hj]

/-- In the embedding `right_rotate_array` on 16 words and `permutation` agree for every
shift. -/
theorem right_rotate_array_eq (A : HV) (shift : Int) :
    right_rotate_array A 16 shift = permutation A shift := by
  by_cases he : Int.tmod shift 512 = 0
  · rw [permutation_of_tmod_zero A shift he]
    unfold right_rotate_array
    have h16 : ¬ (16 : Nat) = 0 := by decide
    rw [if_neg h16]
    exact if_pos he
  · apply HV.ext_get
    intro k hk
    rw [permutation_get A shift he k hk]
    unfold right_rotate_array
    have h16 : ¬ (16 : Nat) = 0 := by decide
    rw [if_neg h16]
    simp only []
    have he2 : ¬ Int.tmod shift (((16 : Nat) : Int) * 32) = 0 := he
    rw [if_neg he2, copy_loop A,
      foldl_set_get (fun i => w32 ((shr32 (A.get i) (Int.tmod shift (((16 : Nat) : Int) * 32))).val |||
        (shl32 (A.get ((i + 16 - 1) % 16)) (32 - Int.tmod shift (((16 : Nat) : Int) * 32))).val))
        A 16 k hk]
    have e : (k + 16 - 1) % 16 = (k + 15) % 16 := by omega
    simp only [hk, if_true, e]
    rfl

/-- Word form of `permutation` for shifts `0 .. 31`, with mathematical shifts. -/
theorem permutation_small_get (A : HV) (s : Nat) (hs : s ≤ 31) (k : Nat) (hk : k < 16) :
    (permutation A (s : Int)).get k
      = w32 (((A.get k).val >>> s) ||| ((A.get ((k + 15) % 16)).val <<< (32 - s)) % 4294967296) := by
  by_cases h0 : s = 0
  · subst h0
    rw [permutation_of_tmod_zero A _ (by decide)]
    apply Fin.ext
    have e : ((A.get ((k + 15) % 16)).val <<< (32 - 0)) % 4294967296 = 0 := by
      rw [Nat.shiftLeft_eq]
      norm_num
    rw [e, Nat.shiftRight_zero, Nat.or_zero, w32_val_self]
  · have hte : Int.tmod (s : Int) 512 = (s : Int) := by
      rw [Int.tmod_eq_emod (by omega) (by decide)]
      omega
    rw [permutation_get A _ (by rw [hte]; omega) k hk, hte]
    have e1 : (((s : Int)) % 32).toNat = s := by omega
    have e2 : ((32 - (s : Int)) % 32).toNat = 32 - s := by omega
    unfold shr32 shl32
    rw [e1, e2]
    have hlt : (A.get k).val >>> s < 4294967296 := by
      rw [Nat.shiftRight_eq_div_pow]
      exact lt_of_le_of_lt (Nat.div_le_self _ _) (A.get k).isLt
    rw [w32_val_of_lt _ hlt, w32_val]


/-- Claim C30: for every hypervector `A` and shift `s` with `0 <= s <= 31`, word `k` of
`permutation(A, s)` is `(A.chunk[k] >> s) | (A.chunk[(k + 15) mod 16] << (32 - s))`
truncated to 32 bits, the result is the one `right_rotate_array` computes on the same 16
words, and it is the circular right rotation by `s` of the 512-bit sequence: the input
bit at position `p` is at position `(p + s) mod 512` of the result (so the bits shifted
out of the last word reappear at the top of word 0). -/
theorem permutation_small_shift (A : HV) (s : Nat) (hs : s ≤ 31) :
    (∀ k, k < 16 → (permutation A (s : Int)).get k
      = w32 (((A.get k).val >>> s) |||
          ((A.get ((k + 15) % 16)).val <<< (32 - s)) % 4294967296)) ∧
    permutation A (s : Int) = right_rotate_array A 16 (s : Int) ∧
    (∀ p : Fin 512, (permutation A (s : Int)).bit ((p.val + s) % 512) = A.bit p.val) := by
  refine ⟨fun k hk => permutation_small_get A s hs k hk, (right_rotate_array_eq A _).symm, ?_⟩
  intro p
  have h := permutation_bit A (s : Int) (by omega) (by omega) p
  have e : (((s : Int)) % 512).toNat = s := by omega
  rw [e] at h
  exact h

set_option maxRecDepth 1000000 in
/-- Witness for claim C30 at the shift 5 of `test_permutation`, on the vector whose only
set bit is the least significant bit of chunk 0: the bit moves from position 31 to
position 36. -/
theorem permutation_small_shift_witness :
    lowOneHV.bit 31 = true ∧
    (permutation lowOneHV ((5 : Nat) : Int)).bit ((31 + 5) % 512) = lowOneHV.bit 31 ∧
    permutation lowOneHV ((5 : Nat) : Int) = right_rotate_array lowOneHV 16 ((5 : Nat) : Int) :=
  ⟨by decide, (permutation_small_shift lowOneHV 5 (by decide)).2.2 ⟨31, by decide⟩,
    (permutation_small_shift lowOneHV 5 (by decide)).2.1⟩

/-! ### Bits of the words of a hypervector -/

theorem HV.get_testBit (h : HV) (i k : Nat) (hk : k < 32) :
    (h.get i).val.testBit k = h.bit (32 * i + (31 - k)) := by
  unfold HV.bit
  have e1 : (32 * i + (31 - k)) / 32 = i := by omega
  have e2 : 31 - (32 * i + (31 - k)) % 32 = k := by omega
  rw [e1, e2]

theorem HV.ext_bit {a b : HV} (h : ∀ p, p < 512 → a.bit p = b.bit p) : a = b := by
  apply HV.ext_get
  intro k hk
  apply Fin.ext
  apply Nat.eq_of_testBit_eq
  intro i
  by_cases hi : i < 32
  · rw [HV.get_testBit a k i hi, HV.get_testBit b k i hi]
    exact h _ (by omega)
  · rw [word_testBit _ _ (by omega), word_testBit _ _ (by omega)]

theorem zero_bit (p : Nat) : HV.zero.bit p = false := by
  unfold HV.bit HV.get HV.zero
  split <;> simp

/-! ### Round trips through `bundle` and `clip` -/

theorem clip_bundle_zero_aux (h : HV) : clip (bundle BundledHV.zero h) ((1 : Nat) : Int) = h := by
  apply HV.ext_bit
  intro p hp
  have hc := clip_bit_nat (bundle BundledHV.zero h) 1 ⟨p, hp⟩
  have hl := bundle_lane_nat BundledHV.zero h p hp
  rw [zero_lane] at hl
  simp only [] at hc
  rw [hl] at hc
  cases hb : h.bit p
  · rw [hb] at hc
    simp at hc
    exact hc
  · rw [hb] at hc
    simp at hc
    exact hc

theorem clip_zero_aux (n : Nat) : clip BundledHV.zero (n : Int) = HV.zero := by
  apply HV.ext_bit
  intro p hp
  have hc := clip_bit_nat BundledHV.zero n ⟨p, hp⟩
  simp only [] at hc
  rw [zero_lane] at hc
  rw [zero_bit]
  cases hb : (clip BundledHV.zero (n : Int)).bit p
  · rfl
  · rw [hb] at hc
    simp at hc

/-- Claim C33: for every hypervector `h`, `clip(bundle(Z, h), 1) == h`, where `Z` is the
zero-initialised bundled hypervector. -/
theorem clip_bundle_zero (h : HV) : clip (bundle BundledHV.zero h) 1 = h :=
  clip_bundle_zero_aux h

theorem clip_assign_bundle_bit (h1 h2 : HV) (p : Nat) (hp : p < 512) :
    (clip (bundle (BundledHV.zero.assign h1) h2) ((2 : Nat) : Int)).bit p
      = (h1.bit p && h2.bit p) := by
  have hc := clip_bit_nat (bundle (BundledHV.zero.assign h1) h2) 2 ⟨p, hp⟩
  have hl := bundle_lane_nat (BundledHV.zero.assign h1) h2 p hp
  rw [assign_zero_lane h1 p hp] at hl
  simp only [] at hc
  rw [hl] at hc
  cases hb1 : h1.bit p <;> cases hb2 : h2.bit p <;> rw [hb1, hb2] at hc <;> simp at hc <;>
    simp [hc]

/-- Claim C34: for all hypervectors `h1`, `h2`, assigning `h1` to a zero bundled
hypervector, bundling `h2` into it and clipping with `n = 2` gives the bitwise AND of
`h1` and `h2`: every chunk of the result is `h1.chunk[i] & h2.chunk[i]`. -/
theorem clip_assign_bundle_and (h1 h2 : HV) (i : Fin 16) :
    ((clip (bundle (BundledHV.zero.assign h1) h2) 2).chunk i).val
      = (h1.chunk i).val &&& (h2.chunk i).val := by
  have hg : ∀ h : HV, h.chunk i = h.get i.val := by
    intro h
    simp [HV.get, i.isLt]
  rw [hg, hg h1, hg h2]
  apply Nat.eq_of_testBit_eq
  intro k
  rw [Nat.testBit_and]
  by_cases hk : k < 32
  · rw [HV.get_testBit _ _ _ hk, HV.get_testBit _ _ _ hk, HV.get_testBit _ _ _ hk]
    exact clip_assign_bundle_bit h1 h2 _ (by have := i.isLt; omega)
  · rw [word_testBit _ _ (by omega), word_testBit _ _ (by omega)]
    rfl

/-! ### The scan of `inference` -/

/-- Claim C32: `inference` returns -1 if and only if every class vector has
`similarity(e, ClassVectors[k]) >= 512` to the encoded query `e`; otherwise it returns the
least index that minimises that similarity. -/
theorem inference_spec (hdc : HDC_op) (q : Fin 4 → Fin 5) (B : Fin 4 → HV) (L : Fin 5 → HV)
    (CV : Fin 5 → HV) :
    (inference hdc q B L CV = -1 ↔ ∀ k, 512 ≤ similarity hdc (encoding q B L) (CV k)) ∧
    ((∀ k, 512 ≤ similarity hdc (encoding q B L) (CV k)) ∨
      ∃ j : Fin 5, inference hdc q B L CV = (j.val : Int) ∧
        (∀ k, similarity hdc (encoding q B L) (CV j) ≤ similarity hdc (encoding q B L) (CV k)) ∧
        (∀ k, k < j → similarity hdc (encoding q B L) (CV j)
          < similarity hdc (encoding q B L) (CV k))) := by
  rw [inference_eq_scanMin]
  rcases scanMin_five (fun k => similarity hdc (encoding q B L) (CV k)) 512 (-1)
    with ⟨e, h⟩ | ⟨j, e, hlt, h1, h2⟩
  · rw [e]
    exact ⟨⟨fun _ => h, fun _ => rfl⟩, Or.inl h⟩
  · rw [e]
    refine ⟨⟨fun hj => ?_, fun hall => ?_⟩, Or.inr ⟨j, rfl, h1, h2⟩⟩
    · have hj1 : (j.val : Int) = -1 := hj
      omega
    · have := hall j
      have hlt1 : similarity hdc (encoding q B L) (CV j) < 512 := hlt
      omega

/-! ### Range and monotonicity of the quantizer -/

theorem quant_cases (v : ℚ) (t : Nat → ℚ) (L : Nat) (hL : 1 ≤ L) :
    (v ≤ t 0 ∧ get_quantized_level v t L = 0) ∨
    (t 0 < v ∧ ∃ i, 1 ≤ i ∧ i < L ∧ v ≤ t i ∧ (∀ k, 1 ≤ k → k < i → t k < v) ∧
      get_quantized_level v t L = (i : Int) - 1) ∨
    (t 0 < v ∧ (∀ i, 1 ≤ i → i < L → t i < v) ∧ get_quantized_level v t L = (L : Int) - 1) := by
  have hs := quant_spec_aux v t L hL
  by_cases h0 : v ≤ t 0
  · exact Or.inl ⟨h0, hs.1 h0⟩
  · have h0 : t 0 < v := not_le.mp h0
    by_cases hex : ∃ i, 1 ≤ i ∧ i < L ∧ v ≤ t i
    · classical
      have hf := Nat.find_spec hex
      refine Or.inr (Or.inl ⟨h0, Nat.find hex, hf.1, hf.2.1, hf.2.2, ?_, ?_⟩)
      · intro k hk1 hk2
        have := Nat.find_min hex hk2
        by_contra hn
        exact this ⟨hk1, by omega, not_lt.mp hn⟩
      · apply hs.2.1 (Nat.find hex) h0 hf.1 hf.2.1 hf.2.2
        intro k hk1 hk2
        have := Nat.find_min hex hk2
        by_contra hn
        exact this ⟨hk1, by omega, not_lt.mp hn⟩
    · have hall : ∀ i, 1 ≤ i → i < L → t i < v := by
        intro i h1 h2
        by_contra hn
        exact hex ⟨i, h1, h2, not_lt.mp hn⟩
      exact Or.inr (Or.inr ⟨h0, hall, hs.2.2 h0 hall⟩)

theorem quant_range_aux (v : ℚ) (t : Nat → ℚ) (L : Nat) (hL : 1 ≤ L) :
    0 ≤ get_quantized_level v t L ∧ get_quantized_level v t L ≤ (L : Int) - 1 := by
  rcases quant_cases v t L hL with ⟨_, e⟩ | ⟨_, i, h1, h2, _, _, e⟩ | ⟨_, _, e⟩ <;>
    rw [e] <;> omega

/-- Claim C36: for every threshold array `t`, every `L >= 1` and every value `v`,
`get_quantized_level(v, t, L)` lies in `0 .. L-1`. -/
theorem get_quantized_level_range (v : ℚ) (t : Nat → ℚ) (L : Nat) (hL : 1 ≤ L) :
    0 ≤ get_quantized_level v t L ∧ get_quantized_level v t L ≤ (L : Int) - 1 :=
  quant_range_aux v t L hL

/-- Witness for claim C36: thresholds `0, 1, 2, 3, 4`, `L = 5` and the value `5/2`. -/
theorem get_quantized_level_range_witness :
    0 ≤ get_quantized_level (5 / 2) (fun i => (i : ℚ)) 5 ∧
    get_quantized_level (5 / 2) (fun i => (i : ℚ)) 5 ≤ ((5 : Nat) : Int) - 1 :=
  get_quantized_level_range (5 / 2) (fun i => (i : ℚ)) 5 (by decide)

/-- Claim C37: for thresholds produced by `generate_quantization_levels(min, max, L)`
with `min < max` and `L >= 2`, every value `v <= max` is quantised to at most `L - 2`, and
the top level `L - 1` is returned only for `v > max`. -/
theorem get_quantized_level_below_top (min max : ℚ) (L : Nat) (init : Nat → ℚ)
    (_hmm : min < max) (hL : 2 ≤ L) (v : ℚ) :
    (v ≤ max →
      get_quantized_level v (generate_quantization_levels min max L init) L ≤ (L : Int) - 2) ∧
    (get_quantized_level v (generate_quantization_levels min max L init) L = (L : Int) - 1 →
      max < v) := by
  have key : v ≤ max →
      get_quantized_level v (generate_quantization_levels min max L init) L ≤ (L : Int) - 2 := by
    intro hv
    rcases quant_cases v (generate_quantization_levels min max L init) L (by omega)
      with ⟨_, e⟩ | ⟨_, i, h1, h2, _, _, e⟩ | ⟨_, hall, _⟩
    · rw [e]; omega
    · rw [e]; omega
    · have := hall (L - 1) (by omega) (by omega)
      rw [gen_apply_last] at this
      exact absurd hv (not_le.mpr this)
  refine ⟨key, fun e => ?_⟩
  by_contra hn
  have := key (not_lt.mp hn)
  omega

/-- Witness for claim C37 at `min = 0`, `max = 1`, `L = 5` and the value `1`. -/
theorem get_quantized_level_below_top_witness :
    (0 : ℚ) < 1 ∧ 2 ≤ 5 ∧
    get_quantized_level 1 (generate_quantization_levels 0 1 5 (fun _ => 0)) 5
      ≤ ((5 : Nat) : Int) - 2 :=
  ⟨by norm_num, by decide,
    (get_quantized_level_below_top 0 1 5 (fun _ => 0) (by norm_num) (by decide) 1).1 le_rfl⟩

/-- Claim C38: `get_quantized_level` is monotone non-decreasing in its value argument:
for every threshold array `t`, every `L >= 1` and all values `v <= w`,
`get_quantized_level(v, t, L) <= get_quantized_level(w, t, L)`. -/
theorem get_quantized_level_mono (t : Nat → ℚ) (L : Nat) (hL : 1 ≤ L) (v w : ℚ) (hvw : v ≤ w) :
    get_quantized_level v t L ≤ get_quantized_level w t L := by
  have hv := quant_range_aux v t L hL
  have hw := quant_range_aux w t L hL
  rcases quant_cases v t L hL with ⟨_, e⟩ | ⟨hv0, i, hi1, hi2, hvi, hmin, e⟩ | ⟨hv0, hall, _⟩
  · rw [e]; exact hw.1
  · rcases quant_cases w t L hL with ⟨hw0, _⟩ | ⟨_, j, hj1, hj2, hwj, _, e2⟩ | ⟨_, _, e2⟩
    · exact absurd (le_trans hvw hw0) (not_le.mpr hv0)
    · rw [e, e2]
      have hij : i ≤ j := by
        by_contra hn
        have := hmin j hj1 (by omega)
        exact absurd (le_trans hvw hwj) (not_le.mpr this)
      omega
    · rw [e, e2]; omega
  · rcases quant_cases w t L hL with ⟨hw0, _⟩ | ⟨_, j, hj1, hj2, hwj, _, _⟩ | ⟨_, _, e2⟩
    · exact absurd (le_trans hvw hw0) (not_le.mpr hv0)
    · exact absurd (le_trans hvw hwj) (not_le.mpr (hall j hj1 hj2))
    · rw [e2]; exact hv.2

/-- Witness for claim C38: thresholds `0, 1, 2, 3, 4`, `L = 5` and the values
`1/2 <= 5/2`. -/
theorem get_quantized_level_mono_witness :
    ((1 : ℚ) / 2 ≤ 5 / 2) ∧
    get_quantized_level (1 / 2) (fun i => (i : ℚ)) 5
      ≤ get_quantized_level (5 / 2) (fun i => (i : ℚ)) 5 :=
  ⟨by norm_num,
    get_quantized_level_mono (fun i => (i : ℚ)) 5 (by decide) (1 / 2) (5 / 2) (by norm_num)⟩

/-! ### Binding and distance -/

theorem xor_xor_cancel (a b x : Nat) : (a ^^^ x) ^^^ (b ^^^ x) = a ^^^ b := by
  apply Nat.eq_of_testBit_eq
  intro i
  simp only [Nat.testBit_xor]
  cases a.testBit i <;> cases b.testBit i <;> cases x.testBit i <;> rfl

theorem wordCount_bind (A B X : HV) (i : Nat) (hi : i < 16) :
    wordCount (bind A X) (bind B X) i = wordCount A B i := by
  unfold wordCount
  rw [bind_get A X i hi, bind_get B X i hi, w32_val_of_lt _ (xor_lt_word _ _),
    w32_val_of_lt _ (xor_lt_word (B.get i) (X.get i)), xor_xor_cancel]

/-- Claim C39: for an `HDC_op` constructed with dimensionality 512 and all hypervectors
`A`, `B`, `X`, `similarity(bind(A, X), bind(B, X)) == similarity(A, B)`. -/
theorem similarity_bind (features levels : Nat) (A B X : HV) :
    similarity (HDC_op.new 512 features levels) (bind A X) (bind B X)
      = similarity (HDC_op.new 512 features levels) A B := by
  rw [similarity_eq_sum, similarity_eq_sum]
  apply Finset.sum_congr rfl
  intro i hi
  have e : (HDC_op.new 512 features levels).HV_SIZE / 32 = 16 := by simp [HDC_op.new]
  rw [e, Finset.mem_range] at hi
  rw [wordCount_bind A B X i hi]

/-- Claim C40: `temporal_encoding` ignores its arguments: for every `quantized_features`,
`BaseVectors` and `LevelVectors` it returns the all-zero hypervector, all 16 chunks being
0. -/
theorem temporal_encoding_zero (quantized_features : Fin 4 → Fin 3 → Int)
    (BaseVectors : Fin 4 → HV) (LevelVectors : Fin 5 → HV) :
    temporal_encoding quantized_features BaseVectors LevelVectors = HV.zero ∧
    ∀ i : Fin 16, (temporal_encoding quantized_features BaseVectors LevelVectors).chunk i = 0 :=
  ⟨rfl, fun _ => rfl⟩

/-! ### The bit-counting loop counts the set bits -/

theorem filter_length_eq_sum (f : Nat → Bool) (n : Nat) :
    ((List.range n).filter f).length = ∑ k in Finset.range n, (f k).toNat := by
  induction n with
  | zero => simp
  | succ n ih =>
    rw [List.range_succ, List.filter_append, List.length_append, ih, Finset.sum_range_succ]
    cases h : f n <;> simp [h]

theorem bitsBelow_zero_right (n : Nat) : bitsBelow n 0 = 0 := by
  simp [bitsBelow]

theorem bitsBelow_le (n x : Nat) : bitsBelow n x ≤ n := by
  induction n with
  | zero => simp [bitsBelow]
  | succ n ih =>
    unfold bitsBelow at ih ⊢
    rw [Finset.sum_range_succ]
    have := Bool.toNat_le (x.testBit n)
    omega

theorem bitsBelow_shift (n x : Nat) :
    bitsBelow (n + 1) x = bitsBelow n (x / 2) + (x.testBit 0).toNat := by
  unfold bitsBelow
  rw [Finset.sum_range_succ']
  simp only [Nat.testBit_add_one]

theorem bitsBelow_add (a b x : Nat) :
    bitsBelow (a + b) x = bitsBelow a x + bitsBelow b (x >>> a) := by
  unfold bitsBelow
  rw [Finset.sum_range_add]
  simp only [Nat.testBit_shiftRight]

theorem bitsBelow_mod (n x : Nat) : bitsBelow n (x % 2 ^ n) = bitsBelow n x := by
  unfold bitsBelow
  apply Finset.sum_congr rfl
  intro k hk
  rw [Finset.mem_range] at hk
  rw [Nat.testBit_mod_two_pow]
  simp [hk]

theorem bitsBelow_and_pred (n x : Nat) (hx : 0 < x) (hlt : x < 2 ^ n) :
    bitsBelow n (x &&& (x - 1)) + 1 = bitsBelow n x := by
  induction n generalizing x with
  | zero =>
    simp at hlt
    omega
  | succ n ih =>
    rw [bitsBelow_shift, bitsBelow_shift, Nat.and_div_two]
    have h0 : (x &&& (x - 1)).testBit 0 = false := by
      rw [Nat.testBit_and, Nat.testBit_zero, Nat.testBit_zero]
      rcases Nat.mod_two_eq_zero_or_one x with h | h
      · simp [h]
      · have : (x - 1) % 2 = 0 := by omega
        simp [this]
    rw [h0]
    rcases Nat.mod_two_eq_zero_or_one x with h | h
    · have e : (x - 1) / 2 = x / 2 - 1 := by omega
      have t : x.testBit 0 = false := by
        rw [Nat.testBit_zero]
        simp [h]
      rw [e, t]
      have := ih (x / 2) (by omega) (by rw [Nat.pow_succ] at hlt; omega)
      simpa using this
    · have e : (x - 1) / 2 = x / 2 := by omega
      have t : x.testBit 0 = true := by
        rw [Nat.testBit_zero]
        simp [h]
      rw [e, t, Nat.and_self]
      simp

theorem popLoop_eq_bits (fuel x count : Nat) (hx : x < 18446744073709551616)
    (hf : bitsBelow 64 x ≤ fuel) : popLoop fuel x count = count + bitsBelow 64 x := by
  have h64 : (2 : Nat) ^ 64 = 18446744073709551616 := by norm_num
  induction fuel generalizing x count with
  | zero =>
    by_cases hx0 : x = 0
    · subst hx0
      rw [popLoop_zero, bitsBelow_zero_right]
      rfl
    · have := bitsBelow_and_pred 64 x (Nat.pos_of_ne_zero hx0) (by rw [h64]; exact hx)
      omega
  | succ fuel ih =>
    by_cases hx0 : x = 0
    · subst hx0
      rw [popLoop_zero, bitsBelow_zero_right]
      rfl
    · have hpos : 0 < x := Nat.pos_of_ne_zero hx0
      have hs : (x + 18446744073709551615) % 18446744073709551616 = x - 1 := by omega
      have hb := bitsBelow_and_pred 64 x hpos (by rw [h64]; exact hx)
      simp only [popLoop, hx0, if_false, hs]
      rw [ih _ _ (lt_of_le_of_lt Nat.and_le_left hx) (by omega)]
      omega

theorem countLoop_eq_bits (x : Nat) (hx : x < 18446744073709551616) :
    countLoop x = bitsBelow 64 x := by
  unfold countLoop
  rw [popLoop_eq_bits 64 x 0 hx (bitsBelow_le 64 x)]
  simp

theorem sext64_lt (w : Word32) : sext64 w < 18446744073709551616 := by
  have := w.isLt
  unfold sext64
  split <;> omega

theorem bitsBelow_ones : bitsBelow 32 4294967295 = 32 := by decide

theorem bits_sext64 (w : Word32) :
    bitsBelow 64 (sext64 w) = bitsBelow 32 w.val + 32 * (w.val.testBit 31).toNat := by
  have hw := w.isLt
  have h32 : (2 : Nat) ^ 32 = 4294967296 := by norm_num
  have h31 : (2 : Nat) ^ 31 = 2147483648 := by norm_num
  rw [show (64 : Nat) = 32 + 32 from rfl, bitsBelow_add]
  unfold sext64
  split
  · rename_i h
    have e1 : w.val >>> 32 = 0 := by
      rw [Nat.shiftRight_eq_div_pow, h32]
      omega
    have e2 : w.val.testBit 31 = false := Nat.testBit_lt_two_pow (by rw [h31]; exact h)
    rw [e1, e2, bitsBelow_zero_right]
    rfl
  · rename_i h
    have e1 : (w.val + 18446744069414584320) >>> 32 = 4294967295 := by
      rw [Nat.shiftRight_eq_div_pow, h32]
      omega
    have e0 : bitsBelow 32 (w.val + 18446744069414584320) = bitsBelow 32 w.val := by
      rw [← bitsBelow_mod 32 (w.val + 18446744069414584320), h32]
      have : (w.val + 18446744069414584320) % 4294967296 = w.val := by omega
      rw [this]
    have e2 : w.val.testBit 31 = true := by
      rw [Nat.testBit_to_div_mod, h31]
      have : w.val / 2147483648 % 2 = 1 := by omega
      simp [this]
    rw [e0, e1, e2, bitsBelow_ones]
    rfl

theorem wordCount_eq_bits (A B : HV) (i : Nat) :
    wordCount A B i = bitsBelow 32 ((A.get i).val ^^^ (B.get i).val)
      + 32 * (((A.get i).val ^^^ (B.get i).val).testBit 31).toNat := by
  unfold wordCount
  rw [countLoop_eq_bits _ (sext64_lt _), bits_sext64, w32_val_of_lt _ (xor_lt_word _ _)]

/-! ### Bits of a hypervector, word by word -/

theorem sum_blocks (f : Nat → Nat) (n : Nat) :
    ∑ p in Finset.range (32 * n), f p
      = ∑ i in Finset.range n, ∑ k in Finset.range 32, f (32 * i + k) := by
  induction n with
  | zero => simp
  | succ n ih =>
    rw [Finset.sum_range_succ (fun i => ∑ k in Finset.range 32, f (32 * i + k)) n, ← ih,
      show 32 * (n + 1) = 32 * n + 32 from by omega, Finset.sum_range_add]

theorem hammingDistance_eq_sum (A B : HV) :
    hammingDistance A B
      = ∑ i in Finset.range 16, bitsBelow 32 ((A.get i).val ^^^ (B.get i).val) := by
  unfold hammingDistance
  rw [filter_length_eq_sum, show (512 : Nat) = 32 * 16 from rfl, sum_blocks]
  apply Finset.sum_congr rfl
  intro i _
  unfold bitsBelow
  rw [← Finset.sum_range_reflect
    (fun k => (((A.get i).val ^^^ (B.get i).val).testBit k).toNat) 32]
  apply Finset.sum_congr rfl
  intro k hk
  rw [Finset.mem_range] at hk
  unfold HV.bit
  have e1 : (32 * i + k) / 32 = i := by omega
  have e2 : 31 - (32 * i + k) % 32 = 32 - 1 - k := by omega
  rw [e1, e2, Nat.testBit_xor]

theorem bind_bit (A B : HV) (p : Nat) (hp : p < 512) :
    (bind A B).bit p = (A.bit p != B.bit p) := by
  unfold HV.bit
  rw [bind_get A B (p / 32) (by omega), w32_val_of_lt _ (xor_lt_word _ _), Nat.testBit_xor]

theorem popcount_bind (A B : HV) : (bind A B).popcount = hammingDistance A B := by
  unfold HV.popcount hammingDistance
  apply congrArg List.length
  apply List.filter_congr
  intro p hp
  rw [List.mem_range] at hp
  exact bind_bit A B p hp

theorem similarity_eq_bits (features levels : Nat) (A B : HV) :
    similarity (HDC_op.new 512 features levels) A B
      = (hammingDistance A B : Int) + 32 * (signChunks A B : Int) := by
  rw [similarity_eq_sum]
  have e : (HDC_op.new 512 features levels).HV_SIZE / 32 = 16 := by simp [HDC_op.new]
  rw [e, hammingDistance_eq_sum]
  unfold signChunks
  rw [filter_length_eq_sum]
  push_cast
  rw [Finset.mul_sum, ← Finset.sum_add_distrib]
  apply Finset.sum_congr rfl
  intro i _
  rw [wordCount_eq_bits]
  push_cast
  rfl

theorem signChunks_eq_zero (A B : HV) :
    signChunks A B = 0
      ↔ ∀ i : Fin 16, (A.chunk i).val.testBit 31 = (B.chunk i).val.testBit 31 := by
  unfold signChunks
  rw [List.length_eq_zero, List.filter_eq_nil_iff]
  constructor
  · intro h i
    have := h i.val (List.mem_range.mpr i.isLt)
    rw [Nat.testBit_xor] at this
    have ea : A.get i.val = A.chunk i := by simp [HV.get, i.isLt]
    have eb : B.get i.val = B.chunk i := by simp [HV.get, i.isLt]
    rw [ea, eb] at this
    cases h1 : (A.chunk i).val.testBit 31 <;> cases h2 : (B.chunk i).val.testBit 31 <;>
      simp [h1, h2] at this ⊢
  · intro h i hi
    rw [List.mem_range] at hi
    have := h ⟨i, hi⟩
    have ea : A.get i = A.chunk ⟨i, hi⟩ := by simp [HV.get, hi]
    have eb : B.get i = B.chunk ⟨i, hi⟩ := by simp [HV.get, hi]
    rw [Nat.testBit_xor, ea, eb, this]
    simp

/-- Claim C31: for an `HDC_op` constructed with dimensionality 512 and all hypervectors
`A`, `B`, `similarity(A, B)` is the population count of `A XOR B` plus 32 times the number
of chunk indices at which bit 31 of `A.chunk[i] ^ B.chunk[i]` is set; the population count
of `A XOR B` is the Hamming distance; the result lies in `[0, 1024]`; and it equals the
Hamming distance exactly when `A` and `B` agree on bit 31 of every chunk. -/
theorem similarity_popcount_sign (features levels : Nat) (A B : HV) :
    similarity (HDC_op.new 512 features levels) A B
      = ((bind A B).popcount : Int) + 32 * (signChunks A B : Int) ∧
    (bind A B).popcount = hammingDistance A B ∧
    0 ≤ similarity (HDC_op.new 512 features levels) A B ∧
    similarity (HDC_op.new 512 features levels) A B ≤ 1024 ∧
    (similarity (HDC_op.new 512 features levels) A B = (hammingDistance A B : Int)
      ↔ ∀ i : Fin 16, (A.chunk i).val.testBit 31 = (B.chunk i).val.testBit 31) := by
  have hs := similarity_eq_bits features levels A B
  have hle := similarity_le (HDC_op.new 512 features levels) A B
  have e : (HDC_op.new 512 features levels).HV_SIZE / 32 = 16 := by simp [HDC_op.new]
  rw [e] at hle
  refine ⟨by rw [popcount_bind]; exact hs, popcount_bind A B, by omega, by omega, ?_⟩
  rw [← signChunks_eq_zero, hs]
  omega

/-! ### One training call followed by inference -/

theorem training_at (q : Fin 4 → Fin 5) (B : Fin 4 → HV) (L : Fin 5 → HV)
    (CV : Fin 5 → BundledHV) (c : Fin 5) :
    (training q B L CV c).1 c = bundle (CV c) (encoding q B L) := by
  unfold training encoding
  simp

theorem training_other (q : Fin 4 → Fin 5) (B : Fin 4 → HV) (L : Fin 5 → HV)
    (CV : Fin 5 → BundledHV) (c k : Fin 5) (hk : k ≠ c) :
    (training q B L CV c).1 k = CV k := by
  unfold training
  simp [Function.update, hk]

theorem similarity_zero_pos (features levels : Nat) (e : HV) (he : e ≠ HV.zero) :
    0 < similarity (HDC_op.new 512 features levels) e HV.zero := by
  have hex : ∃ i, i < 16 ∧ e.get i ≠ 0 := by
    by_contra hn
    apply he
    apply HV.ext_get
    intro k hk
    have hz : HV.zero.get k = 0 := by simp [HV.get, HV.zero]
    rw [hz]
    by_contra h0
    exact hn ⟨k, hk, h0⟩
  obtain ⟨i, hi, hne⟩ := hex
  rw [similarity_eq_sum]
  have e16 : (HDC_op.new 512 features levels).HV_SIZE / 32 = 16 := by simp [HDC_op.new]
  rw [e16]
  have hz : HV.zero.get i = 0 := by simp [HV.get, HV.zero]
  have hw : 1 ≤ wordCount e HV.zero i := by
    unfold wordCount
    rw [hz]
    have hv : ((0 : Word32)).val = 0 := rfl
    have hw32 : w32 (e.get i).val = e.get i := Fin.ext (w32_val_self _)
    rw [hv, Nat.xor_zero, hw32, countLoop_eq_bits _ (sext64_lt _)]
    have hs0 : 0 < sext64 (e.get i) := by
      have : (e.get i).val ≠ 0 := fun h => hne (Fin.ext h)
      unfold sext64
      split <;> omega
    have := bitsBelow_and_pred 64 (sext64 (e.get i)) hs0
      (by have := sext64_lt (e.get i); norm_num; exact this)
    omega
  have hsingle : (wordCount e HV.zero i : Int)
      ≤ ∑ j in Finset.range 16, (wordCount e HV.zero j : Int) :=
    Finset.single_le_sum (f := fun j => (wordCount e HV.zero j : Int))
      (fun j _ => Int.natCast_nonneg _) (Finset.mem_range.mpr hi)
  omega

theorem recovery_aux (features levels : Nat) (q : Fin 4 → Fin 5) (B : Fin 4 → HV)
    (L : Fin 5 → HV) (c : Fin 5) (h : encoding q B L ≠ HV.zero ∨ c = 0) :
    inference (HDC_op.new 512 features levels) q B L
      (fun k => clip ((training q B L (fun _ => BundledHV.zero) c).1 k) ((1 : Nat) : Int))
      = (c.val : Int) := by
  have hc : clip ((training q B L (fun _ => BundledHV.zero) c).1 c) ((1 : Nat) : Int)
      = encoding q B L := by
    rw [training_at]
    exact clip_bundle_zero_aux _
  have ho : ∀ k, k ≠ c →
      clip ((training q B L (fun _ => BundledHV.zero) c).1 k) ((1 : Nat) : Int) = HV.zero := by
    intro k hk
    rw [training_other q B L _ c k hk]
    exact clip_zero_aux 1
  have hdc : similarity (HDC_op.new 512 features levels) (encoding q B L)
      (clip ((training q B L (fun _ => BundledHV.zero) c).1 c) ((1 : Nat) : Int)) = 0 := by
    rw [hc]
    exact similarity_self_aux _ _
  have hnn : ∀ k, 0 ≤ similarity (HDC_op.new 512 features levels) (encoding q B L)
      (clip ((training q B L (fun _ => BundledHV.zero) c).1 k) ((1 : Nat) : Int)) := by
    intro k
    rw [similarity_eq_sum]
    exact Finset.sum_nonneg (fun j _ => Int.natCast_nonneg _)
  rw [inference_eq_scanMin]
  rcases scanMin_five (fun k => similarity (HDC_op.new 512 features levels) (encoding q B L)
      (clip ((training q B L (fun _ => BundledHV.zero) c).1 k) ((1 : Nat) : Int))) 512 (-1)
    with ⟨_, hall⟩ | ⟨j, e, _, h1, h2⟩
  · have := hall c
    simp only [] at this
    omega
  · rw [e]
    have hj0 := h1 c
    have hjn := hnn j
    simp only [] at hj0
    have hjc : j = c := by
      by_contra hne
      rcases h with h | h
      · have hp := similarity_zero_pos features levels _ h
        rw [ho j hne] at hj0 hjn
        omega
      · subst h
        have hlt := h2 0 (Fin.pos_iff_ne_zero.mpr hne)
        simp only [] at hlt
        omega
    rw [hjc]

/-- Claim C35: starting from zero accumulators, after one `training` call with level
indices `q` and label `c`, and with every class frozen as
`prototype[k] = clip(ClassVectors[k], 1)`, `inference(q, BaseVectors, LevelVectors,
prototype)` returns `c`, provided the encoded vector is not all-zero or `c = 0`
(`HDC_op` of dimensionality 512). -/
theorem training_inference_recovery (features levels : Nat) (q : Fin 4 → Fin 5)
    (B : Fin 4 → HV) (L : Fin 5 → HV) (c : Fin 5) (h : encoding q B L ≠ HV.zero ∨ c = 0) :
    inference (HDC_op.new 512 features levels) q B L
      (fun k => clip ((training q B L (fun _ => BundledHV.zero) c).1 k) 1) = (c.val : Int) :=
  recovery_aux features levels q B L c h

set_option maxRecDepth 1000000 in
theorem encoding_ones_ne_zero :
    encoding (fun _ => 0) (fun _ => onesHV) (fun _ => HV.zero) ≠ HV.zero := by
  intro h
  have hb : (encoding (fun _ => 0) (fun _ => onesHV) (fun _ => HV.zero)).bit 0 = true := by
    decide
  rw [h, zero_bit] at hb
  exact Bool.noConfusion hb

/-- Witness for claim C35: all level vectors zero, all base vectors all-ones (the
encoded vector is then not all-zero) and label 3. -/
theorem training_inference_recovery_witness :
    (encoding (fun _ => 0) (fun _ => onesHV) (fun _ => HV.zero) ≠ HV.zero ∨ (3 : Fin 5) = 0) ∧
    inference (HDC_op.new 512 4 5) (fun _ => 0) (fun _ => onesHV) (fun _ => HV.zero)
      (fun k => clip ((training (fun _ => 0) (fun _ => onesHV) (fun _ => HV.zero)
        (fun _ => BundledHV.zero) 3).1 k) 1) = (((3 : Fin 5)).val : Int) :=
  ⟨Or.inl encoding_ones_ne_zero,
    training_inference_recovery 4 5 (fun _ => 0) (fun _ => onesHV) (fun _ => HV.zero) 3
      (Or.inl encoding_ones_ne_zero)⟩

end HDCU
